import Mathlib

/-!
µGo compiler book: scope frames and the ch5.x code generator

A shallow embedding of

* `examples/ch7.x/ugo/types/scope.go` (package `types`: `Scope`, `NewScope`,
  `Lookup`, `Insert`), and
* `examples/ch5.x/ugo/compiler/compiler.go` (package `compiler`: the tree-walking
  generator of LLVM-IR text),

followed by the theorems that settle the claims made about them.

Conventions of the embedding

* A Go pointer `*Scope` is a value of an inductive type with a constructor `nil`
  for the nil pointer and a constructor `mk` for a frame.  A frame is only ever
  written through the pointer that the generator currently holds, so a frame and
  the frames it is linked to can be kept as one immutable value, and a write to
  the current frame yields the new value of the pointer.
* A Go `map[string]*Object` is an association list whose first entry for a key
  is the entry of the map; an absent key and a key mapped to the nil pointer are
  both read as `none`, exactly as `m[k]` reads them.
* A Go `panic` is `Except.error`; a normal return is `Except.ok`.
* The counter `nextId` of the generator is a Go `int` of 64 bits.  It is kept as
  a natural number, which is its value as long as it is at most `maxInt`; the
  theorem about the values of the counter assumes that bound, and
  `intIncrement` states what `p.nextId++` computes.
-/

set_option autoImplicit false

/-! ## Package `types` (ch7.x): `scope.go` -/

namespace Types

/-- Modelled from the spec: the declaration of `types.Object` is not part of the
source tree.  `scope.go` reads the fields `Name` and `Node`; the node is kept as
the number that identifies the owning declaration. -/
structure Object where
  Name : String
  Node : Nat
deriving DecidableEq, Repr

/-- The value of a `*Scope`: the nil pointer, or a frame
`Scope{Outer, Objects}`. -/
inductive Scope where
  | nil : Scope
  | mk (Outer : Scope) (Objects : List (String × Object)) : Scope
deriving DecidableEq, Repr

/-- Read `m[name]` of a Go map: the entry of the first pair with that key. -/
def mapGet (m : List (String × Object)) (name : String) : Option Object :=
  match m with
  | [] => none
  | (k, v) :: rest => if k = name then some v else mapGet rest name

/-- Write `m[name] = obj` of a Go map: the new pair is put in front, where it
hides any older entry of the key. -/
def mapSet (m : List (String × Object)) (name : String) (obj : Object) :
    List (String × Object) :=
  (name, obj) :: m

/-- Go `func NewScope(outer *Scope) *Scope`: a frame with an empty map. -/
def NewScope (outer : Scope) : Scope :=
  .mk outer []

/-- Go `func (s *Scope) Lookup(name string) *Object { return s.Objects[name] }`.
Reading a field of the nil pointer panics. -/
def Scope.Lookup (s : Scope) (name : String) : Except String (Option Object) :=
  match s with
  | .nil => .error "nil pointer dereference"
  | .mk _ objects => .ok (mapGet objects name)

/-- Go `func (s *Scope) Insert(obj *Object) (alt *Object)`:
`if alt = s.Objects[obj.Name]; alt == nil { s.Objects[obj.Name] = obj }; return`.
The result is the frame after the call together with `alt`. -/
def Scope.Insert (s : Scope) (obj : Object) : Except String (Scope × Option Object) :=
  match s with
  | .nil => .error "nil pointer dereference"
  | .mk outer objects =>
    match mapGet objects obj.Name with
    | some alt => .ok (.mk outer objects, some alt)
    | none => .ok (.mk outer (mapSet objects obj.Name obj), none)

end Types

/-! ## Packages `token` and `ast` (ch5.x)

The declarations of these packages are not in the source tree; they are written
down from the data model of the specification and from the fields and constants
that `compiler.go` uses. -/

/-- Modelled from the spec: the operator tokens of package `token` that
`compiler.go` names, and two that it does not name (`MOD`, `ILLEGAL`). -/
inductive Token where
  | ILLEGAL | ADD | SUB | MUL | DIV | MOD
  | EQL | NEQ | LSS | LEQ | GTR | GEQ
  | ASSIGN | DEFINE
deriving DecidableEq, Repr

/-- Modelled from the spec: `ast.Ident`, a name and its position
(`token.Pos` is a Go `int`). -/
structure Ident where
  NamePos : Int
  Name : String
deriving DecidableEq, Repr

/-- Modelled from the spec: the values of the interface `ast.Expr`.  `Nil` is
the nil interface value; `Other` is a node of any kind for which the type switch
of `compileExpr` has no case. -/
inductive Expr where
  | Nil
  | Ident (x : Ident)
  | Number (Value : Int)
  | BinaryExpr (Op : Token) (X Y : Expr)
  | UnaryExpr (Op : Token) (X : Expr)
  | ParenExpr (X : Expr)
  | CallExpr (FuncName : Ident) (Args : List Expr)
  | Other
deriving Repr

/-- Modelled from the spec: `ast.VarSpec`, used for globals and for local
`var` statements; `Value` is `Expr.Nil` when there is no initializer. -/
structure VarSpec where
  VarPos : Int
  Name : Ident
  Value : Expr
deriving Repr

/-- Modelled from the spec: the values of the interface `ast.Stmt`.  `Nil` is
the nil interface value; `Other` is a node of any kind for which the type switch
of `compileStmt` has no case. -/
inductive Stmt where
  | Nil
  | VarSpec (spec : VarSpec)
  | AssignStmt (Target : List Ident) (Op : Token) (Value : List Expr)
  | ForStmt (For : Int) (Init : Stmt) (Cond : Expr) (Post : Stmt) (Body : Stmt)
  | BlockStmt (List : List Stmt)
  | ExprStmt (X : Expr)
  | Other
deriving Repr

/-- Modelled from the spec: `ast.Func`; `Body` is `Stmt.Nil` for a declaration
without a body. -/
structure Func where
  Name : String
  Body : Stmt
deriving Repr

/-- Modelled from the spec: `ast.PackageSpec`. -/
structure PackageSpec where
  Name : String
deriving DecidableEq, Repr

/-- Modelled from the spec: `ast.File`. -/
structure File where
  Pkg : PackageSpec
  Globals : List VarSpec
  Funcs : List Func
deriving Repr

/-- The test `expr == nil` on a value of the interface `ast.Expr`. -/
def Expr.isNil : Expr → Bool
  | .Nil => true
  | _ => false

/-- The test `stmt == nil` on a value of the interface `ast.Stmt`. -/
def Stmt.isNil : Stmt → Bool
  | .Nil => true
  | _ => false

/-- The declaration node that an `Object` points to (`ast.Node`): the generator
stores a `*ast.VarSpec`, a `*ast.Func` or a `*ast.Ident` there. -/
inductive Node where
  | VarSpec (g : VarSpec)
  | Func (fn : Func)
  | Ident (x : Ident)
deriving Repr

/-! ## Package `compiler` (ch5.x): the scope chain it uses

`compiler.go` calls `NewScope`, `Universe`, `(*Scope).Lookup` (two results) and
`(*Scope).Insert` of its own package; their file is not in the source tree. -/

/-- Modelled from the spec: the symbol binding `Object` of package `compiler`
(logical name, generated storage name, owning declaration node), with the field
names that `compiler.go` writes. -/
structure Object where
  Name : String
  MangledName : String
  Node : Node
deriving Repr

/-- Modelled from the spec: the value of a `*Scope` of package `compiler`: the
nil pointer, or a frame with its enclosing frame and its map of bindings. -/
inductive Scope where
  | nil : Scope
  | mk (Outer : Scope) (Objects : List (String × Object)) : Scope
deriving Repr

/-- Read `m[name]` of the map of a frame. -/
def Scope.mapGet (m : List (String × Object)) (name : String) : Option Object :=
  match m with
  | [] => none
  | (k, v) :: rest => if k = name then some v else Scope.mapGet rest name

/-- Modelled from the spec: `new_child(outer)`, a new empty frame linked to
`outer`. -/
def NewScope (outer : Scope) : Scope :=
  .mk outer []

/-- Modelled from the spec: `lookup(name)` searches the current frame, then each
enclosing frame in order, and returns the first matching Object (with the frame
that holds it), or "not found". -/
def Scope.Lookup : Scope → String → Option (Scope × Object)
  | .nil, _ => none
  | .mk outer objects, name =>
    match Scope.mapGet objects name with
    | some obj => some (.mk outer objects, obj)
    | none => outer.Lookup name

/-- What stops a compilation: the argument of a `panic` call of `compiler.go`, or
a run-time panic of Go.

* `varUndefined n`  is `panic(fmt.Sprintf("var %s undefined", n))` for a name `n`;
* `funcUndefined n` is `panic(fmt.Sprintf("func %s undefined", n))`;
* `globalUndefined g` is `panic(fmt.Sprintf("var %s undefined", g))` of `genInit`,
  whose argument is the declaration node itself;
* `unknown` is `panic(fmt.Sprintf("unknown: %[1]T, %[1]v", node))`;
* `nilDereference` and `indexOutOfRange` are the run-time panics. -/
inductive Panic where
  | varUndefined (name : String)
  | funcUndefined (name : String)
  | globalUndefined (g : VarSpec)
  | unknown
  | nilDereference
  | indexOutOfRange
deriving Repr

/-- The text of a panic whose text is fixed by a name. -/
def Panic.message : Panic → Option String
  | .varUndefined n => some ("var " ++ n ++ " undefined")
  | .funcUndefined n => some ("func " ++ n ++ " undefined")
  | _ => none

/-- Modelled from the spec: `declare(name, object)` inserts into the current
frame only if that frame does not already contain the name; otherwise nothing
is written and the existing Object is returned.  The result is the frame after
the call and the returned Object. -/
def Scope.Insert (s : Scope) (obj : Object) : Except Panic (Scope × Option Object) :=
  match s with
  | .nil => .error .nilDereference
  | .mk outer objects =>
    match Scope.mapGet objects obj.Name with
    | some alt => .ok (.mk outer objects, some alt)
    | none => .ok (.mk outer ((obj.Name, obj) :: objects), none)

/-- The field `Outer` of the frame a `*Scope` points to. -/
def Scope.Outer : Scope → Except Panic Scope
  | .nil => .error .nilDereference
  | .mk outer _ => .ok outer

/-! ## Package `compiler` (ch5.x): the emitted text

Every `fmt.Fprintf`, `fmt.Fprint` and `fmt.Fprintln` of `compiler.go` writes one
`Line`; `Line.text` is the text that the call writes. -/

/-- One write to the output. -/
inductive Line where
  /-- Format `"; package %s\n"` -/
  | package (pkg : String)
  /-- Call `fmt.Fprint(w, text)` of a fixed text (`builtin.Header`, `builtin.MainMain`) -/
  | raw (text : String)
  /-- Format `"%s = global i32 0\n"` -/
  | global (name : String)
  /-- Call `fmt.Fprintln(w)` -/
  | blank
  /-- Format `"declare i32 @ugo_%s_%s()\n"` -/
  | declare (pkg name : String)
  /-- Format `"define i32 @ugo_%s_%s() {\n"` -/
  | define (pkg name : String)
  /-- Format `"define i32 @ugo_%s_init() {\n"` -/
  | defineInit (pkg : String)
  /-- Call `fmt.Fprintln(w, "\tret i32 0")` -/
  | ret
  /-- Call `fmt.Fprintln(w, "}")` -/
  | close
  /-- Format `"\t%s = alloca i32, align 4\n"` -/
  | alloca (name : String)
  /-- Format `"\tstore i32 %s, i32* %s\n"` -/
  | store (value slot : String)
  /-- Format `"\t%s = load i32, i32* %s, align 4\n"` -/
  | load (result slot : String)
  /-- Format `"\t%s = %s i32 %v, %v\n"` -/
  | binop (result mnemonic x y : String)
  /-- Format `"\t%s = call i32(i32) %s(i32 %v)\n"` -/
  | call (result fn arg : String)
  /-- Format `"\n%s:\n"` -/
  | label (name : String)
  /-- Format `"\tbr label %%%s\n"` -/
  | br (target : String)
  /-- Format `"\tbr i1 %s , label %%%s, label %%%s\n"` -/
  | condbr (cond thenLabel elseLabel : String)
deriving DecidableEq, Repr

/-- The text written by one write. -/
def Line.text : Line → String
  | .package pkg => "; package " ++ pkg ++ "\n"
  | .raw text => text
  | .global name => name ++ " = global i32 0\n"
  | .blank => "\n"
  | .declare pkg name => "declare i32 @ugo_" ++ pkg ++ "_" ++ name ++ "()\n"
  | .define pkg name => "define i32 @ugo_" ++ pkg ++ "_" ++ name ++ "() \x7b\n"
  | .defineInit pkg => "define i32 @ugo_" ++ pkg ++ "_init() \x7b\n"
  | .ret => "\tret i32 0\n"
  | .close => "\x7d\n"
  | .alloca name => "\t" ++ name ++ " = alloca i32, align 4\n"
  | .store value slot => "\tstore i32 " ++ value ++ ", i32* " ++ slot ++ "\n"
  | .load result slot => "\t" ++ result ++ " = load i32, i32* " ++ slot ++ ", align 4\n"
  | .binop result mnemonic x y =>
    "\t" ++ result ++ " = " ++ mnemonic ++ " i32 " ++ x ++ ", " ++ y ++ "\n"
  | .call result fn arg =>
    "\t" ++ result ++ " = call i32(i32) " ++ fn ++ "(i32 " ++ arg ++ ")\n"
  | .label name => "\n" ++ name ++ ":\n"
  | .br target => "\tbr label %" ++ target ++ "\n"
  | .condbr cond thenLabel elseLabel =>
    "\tbr i1 " ++ cond ++ " , label %" ++ thenLabel ++ ", label %" ++ elseLabel ++ "\n"

/-- The content of the buffer after the given writes (`buf.String()`). -/
def bufString (buf : List Line) : String :=
  buf.foldl (fun acc l => acc ++ l.text) ""

/-! ## Package `compiler` (ch5.x): `compiler.go`

The functions below return the state of the `Compiler` after the call and the
writes that the call appends to `w`, in order. -/

/-- Modelled from the spec: the two fixed texts of package `builtin` that
`compiler.go` prints. -/
structure Builtin where
  Header : String
  MainMain : String
deriving DecidableEq, Repr

/-- The largest value of a Go `int` of 64 bits. -/
def maxInt : Nat := 9223372036854775807

/-- Go's `n++` on an `int` of 64 bits in two's complement: the value after
`maxInt` is `-maxInt - 1`. -/
def intIncrement (n : Int) : Int :=
  (n + 1 + 9223372036854775808) % 18446744073709551616 - 9223372036854775808

/-- Go `type Compiler struct { file *ast.File; scope *Scope; nextId int }`.
The counter starts at `0` and is only ever incremented; it is kept as a natural
number.  The natural number is the value of the Go `int` as long as the counter
is at most `maxInt`: up to there `p.nextId++` is `+ 1` (`intIncrement`); at
`maxInt` the Go `int` wraps to a negative value, which this model does not
follow, so a statement about the values of the counter carries the bound. -/
structure Compiler where
  file : Option File
  scope : Scope
  nextId : Nat
deriving Repr

/-- Go `func NewCompiler() *Compiler`; the package variable `Universe` is a
parameter. -/
def NewCompiler (Universe : Scope) : Compiler :=
  { file := none, scope := NewScope Universe, nextId := 0 }

/-- Go `func (p *Compiler) enterScope()`. -/
def Compiler.enterScope (p : Compiler) : Compiler :=
  { p with scope := NewScope p.scope }

/-- Go `func (p *Compiler) leaveScope()`: `p.scope = p.scope.Outer`. -/
def Compiler.leaveScope (p : Compiler) : Except Panic Compiler :=
  match p.scope.Outer with
  | .error e => .error e
  | .ok outer => .ok { p with scope := outer }

/-- The statement `p.scope.Insert(obj)`, whose result is dropped. -/
def Compiler.insert (p : Compiler) (obj : Object) : Except Panic Compiler :=
  match p.scope.Insert obj with
  | .error e => .error e
  | .ok (s, _) => .ok { p with scope := s }

/-- Go `func (p *Compiler) genId() string`.  The new counter `p.nextId + 1` is
the value of `p.nextId++` while `p.nextId < maxInt`. -/
def Compiler.genId (p : Compiler) : Compiler × String :=
  ({ p with nextId := p.nextId + 1 }, "%t" ++ toString p.nextId)

/-- Go `func (p *Compiler) genLabelId(name string) string`.  The new counter
`p.nextId + 1` is the value of `p.nextId++` while `p.nextId < maxInt`. -/
def Compiler.genLabelId (p : Compiler) (name : String) : Compiler × String :=
  ({ p with nextId := p.nextId + 1 }, name ++ "." ++ toString p.nextId)

/-- The mnemonic that the `switch expr.Op` of the `*ast.BinaryExpr` case prints;
`none` is its `default` branch. -/
def binaryMnemonic : Token → Option String
  | .ADD => some "add"
  | .SUB => some "sub"
  | .MUL => some "mul"
  | .DIV => some "div"
  | .EQL => some "icmp eq"
  | .NEQ => some "icmp ne"
  | .LSS => some "icmp slt"
  | .LEQ => some "icmp sle"
  | .GTR => some "icmp sgt"
  | .GEQ => some "icmp sge"
  | _ => none

/-- Go `func (p *Compiler) compileExpr(w io.Writer, expr ast.Expr) (localName string)`.
The result is the state, the writes, and `localName`.  The arguments of a
`fmt.Fprintf` call are evaluated from left to right before the call writes. -/
def Compiler.compileExpr (p : Compiler) : Expr → Except Panic (Compiler × List Line × String)
  | .Ident x =>
    match p.scope.Lookup x.Name with
    | none => .error (.varUndefined x.Name)
    | some (_, obj) =>
      let (p1, localName) := p.genId
      .ok (p1, [.load localName obj.MangledName], localName)
  | .Number v =>
    let (p1, localName) := p.genId
    .ok (p1, [.binop localName "add" "0" (toString v)], localName)
  | .BinaryExpr op x y =>
    let (p1, localName) := p.genId
    match binaryMnemonic op with
    | none => .error .unknown
    | some mnemonic =>
      match Compiler.compileExpr p1 x with
      | .error e => .error e
      | .ok (p2, wx, vx) =>
        match Compiler.compileExpr p2 y with
        | .error e => .error e
        | .ok (p3, wy, vy) =>
          .ok (p3, wx ++ wy ++ [.binop localName mnemonic vx vy], localName)
  | .UnaryExpr op x =>
    if op = .SUB then
      let (p1, localName) := p.genId
      match Compiler.compileExpr p1 x with
      | .error e => .error e
      | .ok (p2, wx, vx) => .ok (p2, wx ++ [.binop localName "sub" "0" vx], localName)
    else
      Compiler.compileExpr p x
  | .ParenExpr x => Compiler.compileExpr p x
  | .CallExpr fn args =>
    match p.scope.Lookup fn.Name with
    | none => .error (.funcUndefined fn.Name)
    | some (_, obj) =>
      let (p1, localName) := p.genId
      match args with
      | [] => .error .indexOutOfRange
      | arg :: _ =>
        match Compiler.compileExpr p1 arg with
        | .error e => .error e
        | .ok (p2, wa, va) =>
          .ok (p2, wa ++ [.call localName obj.MangledName va], localName)
  | .Nil => .error .unknown
  | .Other => .error .unknown

/-- The storage name of a local: `fmt.Sprintf("%%local_%s.pos.%d", name, pos)`. -/
def localMangledName (name : String) (pos : Int) : String :=
  "%local_" ++ name ++ ".pos." ++ toString pos

/-- The storage name of a global or a function:
`fmt.Sprintf("@ugo_%s_%s", pkg, name)`. -/
def globalMangledName (pkg name : String) : String :=
  "@ugo_" ++ pkg ++ "_" ++ name

/-- First loop of `compileStmt_assign`:
`for i := range stmt.Target { valueNameList[i] = p.compileExpr(w, stmt.Value[i]) }`.
The result lists `valueNameList[i]` for the indices of the targets. -/
def Compiler.assignValues (p : Compiler) :
    List Ident → List Expr → Except Panic (Compiler × List Line × List String)
  | [], _ => .ok (p, [], [])
  | _ :: _, [] => .error .indexOutOfRange
  | _ :: targets, v :: values =>
    match p.compileExpr v with
    | .error e => .error e
    | .ok (p1, w1, name) =>
      match Compiler.assignValues p1 targets values with
      | .error e => .error e
      | .ok (p2, w2, names) => .ok (p2, w1 ++ w2, name :: names)

/-- Second loop of `compileStmt_assign`, run when `stmt.Op == token.DEFINE`: a
target that `Lookup` does not find is inserted into the current frame and its
slot is allocated. -/
def Compiler.assignDefine (p : Compiler) :
    List Ident → Except Panic (Compiler × List Line)
  | [] => .ok (p, [])
  | target :: targets =>
    match p.scope.Lookup target.Name with
    | some _ => Compiler.assignDefine p targets
    | none =>
      let mangledName := localMangledName target.Name target.NamePos
      match p.insert { Name := target.Name, MangledName := mangledName, Node := .Ident target } with
      | .error e => .error e
      | .ok p1 =>
        match Compiler.assignDefine p1 targets with
        | .error e => .error e
        | .ok (p2, w2) => .ok (p2, .alloca mangledName :: w2)

/-- Third loop of `compileStmt_assign`: one store per target; `first` is
`stmt.Target[0].Name`, which the panic prints. -/
def Compiler.assignStores (p : Compiler) (first : String) :
    List Ident → List String → Except Panic (List Line)
  | [], _ => .ok []
  | _ :: _, [] => .error .indexOutOfRange
  | target :: targets, value :: values =>
    match p.scope.Lookup target.Name with
    | none => .error (.varUndefined first)
    | some (_, obj) =>
      match Compiler.assignStores p first targets values with
      | .error e => .error e
      | .ok w2 => .ok (.store value obj.MangledName :: w2)

/-- Go `func (p *Compiler) compileStmt_assign(w io.Writer, stmt *ast.AssignStmt)`. -/
def Compiler.compileStmt_assign (p : Compiler) (target : List Ident) (op : Token)
    (value : List Expr) : Except Panic (Compiler × List Line) :=
  match p.assignValues target value with
  | .error e => .error e
  | .ok (p1, w1, valueNameList) =>
    match (if op = .DEFINE then p1.assignDefine target else .ok (p1, [])) with
    | .error e => .error e
    | .ok (p2, w2) =>
      match p2.assignStores ((target.head?.map (fun t => t.Name)).getD "") target valueNameList with
      | .error e => .error e
      | .ok w3 => .ok (p2, w1 ++ w2 ++ w3)

mutual
/-- Go `func (p *Compiler) compileStmt(w io.Writer, stmt ast.Stmt)`.  A deferred
`leaveScope` runs when the case returns. -/
def Compiler.compileStmt (p : Compiler) : Stmt → Except Panic (Compiler × List Line)
  | .VarSpec spec =>
    match (if spec.Value.isNil then Except.ok (p, [], "0") else p.compileExpr spec.Value) with
    | .error e => .error e
    | .ok (p1, w1, localName) =>
      let mangledName := localMangledName spec.Name.Name spec.VarPos
      match p1.insert { Name := spec.Name.Name, MangledName := mangledName, Node := .VarSpec spec } with
      | .error e => .error e
      | .ok p2 => .ok (p2, w1 ++ [Line.alloca mangledName, Line.store localName mangledName])
  | .AssignStmt target op value => p.compileStmt_assign target op value
  | .ForStmt forPos init cond post body =>
    let p0 := p.enterScope
    let (p1, forInit) := p0.genLabelId ("for.init.pos" ++ toString forPos)
    let (p2, forCond) := p1.genLabelId ("for.cond.pos" ++ toString forPos)
    let (p3, forBody) := p2.genLabelId ("for.body.pos" ++ toString forPos)
    let (p4, forEnd) := p3.genLabelId ("for.end.pos" ++ toString forPos)
    match (if init.isNil then Except.ok (p4, []) else Compiler.compileStmt p4 init) with
    | .error e => .error e
    | .ok (p5, wInit) =>
      match (if cond.isNil then Except.ok (p5, [Line.br forBody])
             else
               match p5.compileExpr cond with
               | .error e => Except.error e
               | .ok (p6, wc, condValue) =>
                 Except.ok (p6, wc ++ [Line.condbr condValue forBody forEnd])) with
      | .error e => .error e
      | .ok (p6, wCond) =>
        match Compiler.compileStmt p6.enterScope body with
        | .error e => .error e
        | .ok (p7, wBody) =>
          match p7.leaveScope with
          | .error e => .error e
          | .ok p8 =>
            match (if post.isNil then Except.ok (p8, []) else Compiler.compileStmt p8 post) with
            | .error e => .error e
            | .ok (p9, wPost) =>
              match p9.leaveScope with
              | .error e => .error e
              | .ok p10 =>
                .ok (p10,
                  [Line.label forInit] ++ wInit ++ [Line.br forCond]
                  ++ [Line.label forCond] ++ wCond
                  ++ [Line.label forBody] ++ wBody ++ wPost ++ [Line.br forCond]
                  ++ [Line.label forEnd])
  | .BlockStmt list =>
    match Compiler.compileStmtList p.enterScope list with
    | .error e => .error e
    | .ok (p1, w1) =>
      match p1.leaveScope with
      | .error e => .error e
      | .ok p2 => .ok (p2, w1)
  | .ExprStmt x =>
    match p.compileExpr x with
    | .error e => .error e
    | .ok (p1, w1, _) => .ok (p1, w1)
  | .Nil => .error .unknown
  | .Other => .error .unknown
/-- The loop `for _, x := range stmt.List { p.compileStmt(w, x) }` of the
`*ast.BlockStmt` case. -/
def Compiler.compileStmtList (p : Compiler) : List Stmt → Except Panic (Compiler × List Line)
  | [] => .ok (p, [])
  | x :: rest =>
    match Compiler.compileStmt p x with
    | .error e => .error e
    | .ok (p1, w1) =>
      match Compiler.compileStmtList p1 rest with
      | .error e => .error e
      | .ok (p2, w2) => .ok (p2, w1 ++ w2)
end

/-- Go `func (p *Compiler) compileFunc(w io.Writer, file *ast.File, fn *ast.Func)`. -/
def Compiler.compileFunc (p : Compiler) (file : File) (fn : Func) :
    Except Panic (Compiler × List Line) :=
  let p0 := p.enterScope
  let mangledName := globalMangledName file.Pkg.Name fn.Name
  match p0.insert { Name := fn.Name, MangledName := mangledName, Node := .Func fn } with
  | .error e => .error e
  | .ok p1 =>
    if fn.Body.isNil then
      match p1.leaveScope with
      | .error e => .error e
      | .ok p2 => .ok (p2, [Line.declare file.Pkg.Name fn.Name])
    else
      match p1.compileStmt fn.Body with
      | .error e => .error e
      | .ok (p2, w2) =>
        match p2.leaveScope with
        | .error e => .error e
        | .ok p3 => .ok (p3, [Line.blank, Line.define file.Pkg.Name fn.Name] ++ w2 ++ [Line.ret, Line.close])

/-- The loop over `file.Globals` in `genInit`. -/
def Compiler.genInitGlobals (p : Compiler) : List VarSpec → Except Panic (Compiler × List Line)
  | [] => .ok (p, [])
  | g :: rest =>
    match (if g.Value.isNil then Except.ok (p, [], "0") else p.compileExpr g.Value) with
    | .error e => .error e
    | .ok (p1, w1, localName) =>
      match p1.scope.Lookup g.Name.Name with
      | none => .error (.globalUndefined g)
      | some (_, obj) =>
        match Compiler.genInitGlobals p1 rest with
        | .error e => .error e
        | .ok (p2, w2) => .ok (p2, w1 ++ [Line.store localName obj.MangledName] ++ w2)

/-- Go `func (p *Compiler) genInit(w io.Writer, file *ast.File)`. -/
def Compiler.genInit (p : Compiler) (file : File) : Except Panic (Compiler × List Line) :=
  match p.genInitGlobals file.Globals with
  | .error e => .error e
  | .ok (p1, w1) => .ok (p1, [Line.defineInit file.Pkg.Name] ++ w1 ++ [Line.ret, Line.close])

/-- The loop over `file.Globals` in `compileFile`. -/
def Compiler.compileGlobals (p : Compiler) (file : File) :
    List VarSpec → Except Panic (Compiler × List Line)
  | [] => .ok (p, [])
  | g :: rest =>
    let mangledName := globalMangledName file.Pkg.Name g.Name.Name
    match p.insert { Name := g.Name.Name, MangledName := mangledName, Node := .VarSpec g } with
    | .error e => .error e
    | .ok p1 =>
      match Compiler.compileGlobals p1 file rest with
      | .error e => .error e
      | .ok (p2, w2) => .ok (p2, Line.global mangledName :: w2)

/-- The loop `for _, fn := range file.Funcs { p.compileFunc(w, file, fn) }`. -/
def Compiler.compileFuncs (p : Compiler) (file : File) :
    List Func → Except Panic (Compiler × List Line)
  | [] => .ok (p, [])
  | fn :: rest =>
    match p.compileFunc file fn with
    | .error e => .error e
    | .ok (p1, w1) =>
      match Compiler.compileFuncs p1 file rest with
      | .error e => .error e
      | .ok (p2, w2) => .ok (p2, w1 ++ w2)

/-- Go `func (p *Compiler) compileFile(w io.Writer, file *ast.File)`. -/
def Compiler.compileFile (p : Compiler) (file : File) : Except Panic (Compiler × List Line) :=
  match p.enterScope.compileGlobals file file.Globals with
  | .error e => .error e
  | .ok (p1, w1) =>
    match p1.compileFuncs file file.Funcs with
    | .error e => .error e
    | .ok (p2, w2) =>
      match p2.genInit file with
      | .error e => .error e
      | .ok (p3, w3) =>
        match p3.leaveScope with
        | .error e => .error e
        | .ok p4 =>
          .ok (p4, w1 ++ (if file.Globals.length ≠ 0 then [Line.blank] else []) ++ w2 ++ w3)

/-- Go `func (p *Compiler) genHeader(w io.Writer, file *ast.File)`. -/
def Compiler.genHeader (builtin : Builtin) (file : File) : List Line :=
  [Line.package file.Pkg.Name, Line.raw builtin.Header]

/-- Go `func (p *Compiler) genMain(w io.Writer, file *ast.File)`. -/
def Compiler.genMain (builtin : Builtin) (file : File) : List Line :=
  if file.Pkg.Name ≠ "main" then []
  else if file.Funcs.any (fun fn => fn.Name = "main") then [Line.raw builtin.MainMain]
  else []

/-- The writes of `Compile` into `buf`: `genHeader`, `compileFile`, `genMain`. -/
def Compiler.compileBuf (builtin : Builtin) (p : Compiler) (file : File) :
    Except Panic (Compiler × List Line) :=
  match ({ p with file := some file } : Compiler).compileFile file with
  | .error e => .error e
  | .ok (p1, w1) =>
    .ok (p1, Compiler.genHeader builtin file ++ w1 ++ Compiler.genMain builtin file)

/-- Go `func (p *Compiler) Compile(file *ast.File) string`: the state after the
call and `buf.String()`; no text is returned when the call panics. -/
def Compiler.Compile (builtin : Builtin) (p : Compiler) (file : File) :
    Except Panic (Compiler × String) :=
  match Compiler.compileBuf builtin p file with
  | .error e => .error e
  | .ok (p1, buf) => .ok (p1, bufString buf)

/-! ### Reading the emitted lines -/

/-- The temporary that a line defines, if it defines one: the result of a load,
of an arithmetic or comparison instruction, or of a call. -/
def Line.defines : Line → Option String
  | .load result _ => some result
  | .binop result _ _ _ => some result
  | .call result _ _ => some result
  | _ => none

/-- The block label that a line emits, if it is a label line. -/
def Line.labelName : Line → Option String
  | .label name => some name
  | _ => none

/-- The slot that a line allocates, if it is an `alloca` line. -/
def Line.allocates : Line → Option String
  | .alloca name => some name
  | _ => none

/-- Whether a line is a store instruction. -/
def Line.isStore : Line → Bool
  | .store _ _ => true
  | _ => false

/-! ## Notions used to state the claims -/

/-- The value of a decimal digit character. -/
def digitValue (c : Char) : Nat := c.toNat - 48

/-- The number that a list of decimal digits denotes, continuing from `acc`. -/
def decimalValue (acc : Nat) (ds : List Char) : Nat :=
  ds.foldl (fun a c => 10 * a + digitValue c) acc

/-- The name that a line introduces from the counter `nextId`: the temporary it
defines or the block label it emits. -/
def Line.generated (l : Line) : Option String :=
  match l.defines with
  | some name => some name
  | none => l.labelName

/-- The names that the lines of an output introduce from the counter, in the
order of the output. -/
def generatedNames (w : List Line) : List String :=
  w.filterMap Line.generated

/-- The temporaries defined by the lines of an output, in order. -/
def definedTemporaries (w : List Line) : List String :=
  w.filterMap Line.defines

/-- The block labels emitted by the lines of an output, in order. -/
def emittedLabels (w : List Line) : List String :=
  w.filterMap Line.labelName

/-- The slots allocated by the lines of an output, in order. -/
def allocatedSlots (w : List Line) : List String :=
  w.filterMap Line.allocates

/-- The slot that a store line writes, if it is a store line. -/
def Line.storesTo : Line → Option String
  | .store _ slot => some slot
  | _ => none

/-- The slots written by the store lines of an output, in order. -/
def storedSlots (w : List Line) : List String :=
  w.filterMap Line.storesTo

/-- The label that a branch line may jump to. -/
def Line.branchTargets : Line → List String
  | .br target => [target]
  | .condbr _ thenLabel elseLabel => [thenLabel, elseLabel]
  | _ => []

/-- A name was made from the counter value `k`: by `genId` (`%t<k>`) or by
`genLabelId` (`<name>.<k>`). -/
def MadeFrom (name : String) (k : Nat) : Prop :=
  name = "%t" ++ toString k ∨ ∃ tag : String, name = tag ++ "." ++ toString k

/-- The names of a list were made from the counter values that satisfy `P`,
each value for exactly one name. -/
def NamesOf (P : Nat → Prop) (names : List String) : Prop :=
  ∃ ids : List Nat, List.Forall₂ MadeFrom names ids ∧ ids.Nodup ∧ ∀ k, k ∈ ids ↔ P k

/-- The names that the lines `w` introduce from the counter were made from the
counter values `lo, lo + 1, ..., hi - 1`, each value for exactly one name. -/
def Fresh (lo hi : Nat) (w : List Line) : Prop :=
  lo ≤ hi ∧ NamesOf (fun k => lo ≤ k ∧ k < hi) (generatedNames w)

/-- The state in which the parts of a `for` statement start to be lowered: a
new frame has been entered and the four labels have been made. -/
def Compiler.forStart (p : Compiler) : Compiler :=
  { p with scope := NewScope p.scope, nextId := p.nextId + 4 }

/-- The lowering of `e` from the state `p` comes to an identifier reference
named `n`, in the state `q`, everything lowered before it having succeeded.
The rules follow the order in which `compileExpr` lowers the parts of an
expression; of a call only the first argument is lowered. -/
inductive ExprReaches : Compiler → Expr → Compiler → String → Prop where
  | ident (p : Compiler) (x : Ident) : ExprReaches p (.Ident x) p x.Name
  | binaryX (p q : Compiler) (op : Token) (x y : Expr) (n mnemonic : String) :
      binaryMnemonic op = some mnemonic →
      ExprReaches p.genId.1 x q n → ExprReaches p (.BinaryExpr op x y) q n
  | binaryY (p p2 q : Compiler) (op : Token) (x y : Expr) (n mnemonic : String)
      (wx : List Line) (vx : String) :
      binaryMnemonic op = some mnemonic →
      p.genId.1.compileExpr x = .ok (p2, wx, vx) →
      ExprReaches p2 y q n → ExprReaches p (.BinaryExpr op x y) q n
  | unaryNeg (p q : Compiler) (x : Expr) (n : String) :
      ExprReaches p.genId.1 x q n → ExprReaches p (.UnaryExpr .SUB x) q n
  | unaryOther (p q : Compiler) (op : Token) (x : Expr) (n : String) :
      op ≠ .SUB → ExprReaches p x q n → ExprReaches p (.UnaryExpr op x) q n
  | paren (p q : Compiler) (x : Expr) (n : String) :
      ExprReaches p x q n → ExprReaches p (.ParenExpr x) q n
  | callArg (p q : Compiler) (fn : Ident) (arg : Expr) (rest : List Expr) (n : String)
      (found : Scope × Object) :
      p.scope.Lookup fn.Name = some found →
      ExprReaches p.genId.1 arg q n → ExprReaches p (.CallExpr fn (arg :: rest)) q n

/-- The lowering of the statement `s` from the state `p` comes to an identifier
reference named `n` in one of its expressions, in the state `q`, everything
lowered before it having succeeded.  The rules follow the order in which
`compileStmt` and `compileStmt_assign` lower the parts of a statement. -/
inductive StmtReaches : Compiler → Stmt → Compiler → String → Prop where
  | exprStmt (p q : Compiler) (x : Expr) (n : String) :
      ExprReaches p x q n → StmtReaches p (.ExprStmt x) q n
  | varSpec (p q : Compiler) (spec : VarSpec) (n : String) :
      spec.Value.isNil = false →
      ExprReaches p spec.Value q n → StmtReaches p (.VarSpec spec) q n
  | assignValue (p p1 q : Compiler) (op : Token) (tpre tpost : List Ident) (t : Ident)
      (vpre vpost : List Expr) (v : Expr) (n : String) (w1 : List Line)
      (names : List String) :
      tpre.length = vpre.length →
      p.assignValues tpre vpre = .ok (p1, w1, names) →
      ExprReaches p1 v q n →
      StmtReaches p (.AssignStmt (tpre ++ t :: tpost) op (vpre ++ v :: vpost)) q n
  | forInit (p q : Compiler) (forPos : Int) (init : Stmt) (cond : Expr) (post body : Stmt)
      (n : String) :
      init.isNil = false →
      StmtReaches p.forStart init q n →
      StmtReaches p (.ForStmt forPos init cond post body) q n
  | forCond (p pI q : Compiler) (forPos : Int) (init : Stmt) (cond : Expr)
      (post body : Stmt) (n : String) (wI : List Line) :
      (if init.isNil then Except.ok (p.forStart, []) else p.forStart.compileStmt init)
        = .ok (pI, wI) →
      cond.isNil = false →
      ExprReaches pI cond q n →
      StmtReaches p (.ForStmt forPos init cond post body) q n
  | forBody (p pI pC q : Compiler) (forPos : Int) (init : Stmt) (cond : Expr)
      (post body : Stmt) (n : String) (wI : List Line) :
      (if init.isNil then Except.ok (p.forStart, []) else p.forStart.compileStmt init)
        = .ok (pI, wI) →
      (cond.isNil = true ∧ pC = pI
        ∨ cond.isNil = false ∧ ∃ wc v, pI.compileExpr cond = .ok (pC, wc, v)) →
      StmtReaches pC.enterScope body q n →
      StmtReaches p (.ForStmt forPos init cond post body) q n
  | forPost (p pI pC pB pL q : Compiler) (forPos : Int) (init : Stmt) (cond : Expr)
      (post body : Stmt) (n : String) (wI wB : List Line) :
      (if init.isNil then Except.ok (p.forStart, []) else p.forStart.compileStmt init)
        = .ok (pI, wI) →
      (cond.isNil = true ∧ pC = pI
        ∨ cond.isNil = false ∧ ∃ wc v, pI.compileExpr cond = .ok (pC, wc, v)) →
      pC.enterScope.compileStmt body = .ok (pB, wB) →
      pB.leaveScope = .ok pL →
      post.isNil = false →
      StmtReaches pL post q n →
      StmtReaches p (.ForStmt forPos init cond post body) q n
  | block (p p1 q : Compiler) (pre post : List Stmt) (s : Stmt) (n : String)
      (w1 : List Line) :
      p.enterScope.compileStmtList pre = .ok (p1, w1) →
      StmtReaches p1 s q n →
      StmtReaches p (.BlockStmt (pre ++ s :: post)) q n

/-- The lowering of a file by `Compile` from the state `p` comes to an
identifier reference named `n`, in the state `q`, everything lowered before it
having succeeded: in the body of a function, after the globals have been
declared and the functions before it lowered; or in the initializer of a global,
after all functions have been lowered and the initializers before it stored. -/
inductive FileReaches (p : Compiler) (file : File) : Compiler → String → Prop where
  | funcBody (p1 p2 p3 q : Compiler) (pre post : List Func) (fn : Func) (n : String)
      (w1 w2 : List Line) :
      file.Funcs = pre ++ fn :: post →
      ({ p with file := some file } : Compiler).enterScope.compileGlobals file file.Globals
        = .ok (p1, w1) →
      p1.compileFuncs file pre = .ok (p2, w2) →
      p2.enterScope.insert
        { Name := fn.Name, MangledName := globalMangledName file.Pkg.Name fn.Name,
          Node := .Func fn } = .ok p3 →
      fn.Body.isNil = false →
      StmtReaches p3 fn.Body q n →
      FileReaches p file q n
  | globalInit (p1 p2 p3 q : Compiler) (pre post : List VarSpec) (g : VarSpec) (n : String)
      (w1 w2 w3 : List Line) :
      file.Globals = pre ++ g :: post →
      ({ p with file := some file } : Compiler).enterScope.compileGlobals file file.Globals
        = .ok (p1, w1) →
      p1.compileFuncs file file.Funcs = .ok (p2, w2) →
      p2.genInitGlobals pre = .ok (p3, w3) →
      g.Value.isNil = false →
      ExprReaches p3 g.Value q n →
      FileReaches p file q n

/-- The shape of the output of a `for` statement lowered from the state `p` to
the state `p'` with the lines `w`: the four labels made from four successive
counter values, the lowering of init, cond, body and post in this order, and
the four blocks init, cond, body, end. -/
def ForBlocks (p p' : Compiler) (forPos : Int) (init : Stmt) (cond : Expr)
    (post body : Stmt) (w : List Line) : Prop :=
  ∃ (forInit forCond forBody forEnd : String)
    (pI pC pB pL pP : Compiler) (wI wC wB wP : List Line),
    forInit = "for.init.pos" ++ toString forPos ++ "." ++ toString p.nextId
    ∧ forCond = "for.cond.pos" ++ toString forPos ++ "." ++ toString (p.nextId + 1)
    ∧ forBody = "for.body.pos" ++ toString forPos ++ "." ++ toString (p.nextId + 2)
    ∧ forEnd = "for.end.pos" ++ toString forPos ++ "." ++ toString (p.nextId + 3)
    ∧ [forInit, forCond, forBody, forEnd].Nodup
    ∧ ((init.isNil = true ∧ wI = []
          ∧ pI = { p with scope := NewScope p.scope, nextId := p.nextId + 4 })
        ∨ (init.isNil = false
          ∧ ({ p with scope := NewScope p.scope, nextId := p.nextId + 4 } : Compiler).compileStmt
              init = .ok (pI, wI)))
    ∧ ((cond.isNil = true ∧ pC = pI ∧ wC = [Line.br forBody]
          ∧ ∀ l ∈ [Line.br forCond, Line.br forBody, Line.br forCond],
              forEnd ∉ l.branchTargets)
        ∨ (cond.isNil = false ∧ ∃ wc condValue, pI.compileExpr cond = .ok (pC, wc, condValue)
          ∧ wC = wc ++ [Line.condbr condValue forBody forEnd]))
    ∧ pC.enterScope.compileStmt body = .ok (pB, wB)
    ∧ pB.leaveScope = .ok pL
    ∧ ((post.isNil = true ∧ wP = [] ∧ pP = pL)
        ∨ (post.isNil = false ∧ pL.compileStmt post = .ok (pP, wP)))
    ∧ pP.leaveScope = .ok p'
    ∧ w = [Line.label forInit] ++ wI ++ [Line.br forCond]
          ++ [Line.label forCond] ++ wC
          ++ [Line.label forBody] ++ wB ++ wP ++ [Line.br forCond]
          ++ [Line.label forEnd]

/-! ## Concrete inputs -/

/-- An empty universe frame. -/
def emptyUniverse : Scope := .mk .nil []

/-- The loop `for i := 0; i < 3; i = i + 1 {}`. -/
def loopStmt : Stmt :=
  .ForStmt 20 (.AssignStmt [⟨21, "i"⟩] .DEFINE [.Number 0])
    (.BinaryExpr .LSS (.Ident ⟨22, "i"⟩) (.Number 3))
    (.AssignStmt [⟨23, "i"⟩] .ASSIGN [.BinaryExpr .ADD (.Ident ⟨24, "i"⟩) (.Number 1)])
    (.BlockStmt [])

/-- The lines that lowering `loopStmt` writes when the counter starts at `0`. -/
def loopLines : List Line :=
  [Line.label "for.init.pos20.0",
   Line.binop "%t4" "add" "0" "0",
   Line.alloca "%local_i.pos.21",
   Line.store "%t4" "%local_i.pos.21",
   Line.br "for.cond.pos20.1",
   Line.label "for.cond.pos20.1",
   Line.load "%t6" "%local_i.pos.21",
   Line.binop "%t7" "add" "0" "3",
   Line.binop "%t5" "icmp slt" "%t6" "%t7",
   Line.condbr "%t5" "for.body.pos20.2" "for.end.pos20.3",
   Line.label "for.body.pos20.2",
   Line.load "%t9" "%local_i.pos.21",
   Line.binop "%t10" "add" "0" "1",
   Line.binop "%t8" "add" "%t9" "%t10",
   Line.store "%t8" "%local_i.pos.21",
   Line.br "for.cond.pos20.1",
   Line.label "for.end.pos20.3"]

/-- A file of package `main` whose function `main` holds `loopStmt`. -/
def loopFile : File :=
  ⟨⟨"main"⟩, [], [⟨"main", .BlockStmt [loopStmt]⟩]⟩

/-- The construct `{ var x = 1; { x := 2 } }`. -/
def rebindStmt : Stmt :=
  .BlockStmt [.VarSpec ⟨5, ⟨6, "x"⟩, .Number 1⟩,
    .BlockStmt [.AssignStmt [⟨9, "x"⟩] .DEFINE [.Number 2]]]

/-- A frame that binds `x` to the slot `%local_x.pos.5`, over the empty
universe. -/
def rebindOuter : Scope :=
  .mk emptyUniverse
    [("x", { Name := "x", MangledName := "%local_x.pos.5", Node := .Ident ⟨6, "x"⟩ })]

/-- A state whose current frame is empty and nested in `rebindOuter`, with the
counter at `n`. -/
def rebindState (n : Nat) : Compiler :=
  { file := none, scope := .mk rebindOuter [], nextId := n }

/-- The function `main` of `undefinedFile`: `{ var x = 1; zz }`. -/
def undefinedFunc : Func :=
  ⟨"main", .BlockStmt [.VarSpec ⟨5, ⟨6, "x"⟩, .Number 1⟩, .ExprStmt (.Ident ⟨9, "zz"⟩)]⟩

/-- A file whose function `main` refers to the undeclared name `zz`. -/
def undefinedFile : File :=
  ⟨⟨"main"⟩, [], [undefinedFunc]⟩

/-- The state of the `Compiler` when the lowering of `undefinedFile` comes to
the reference to `zz`. -/
def undefinedState : Compiler :=
  { file := some undefinedFile,
    scope := .mk (.mk (.mk (.mk emptyUniverse []) [])
        [("main", { Name := "main", MangledName := "@ugo_main_main",
                    Node := .Func undefinedFunc })])
      [("x", { Name := "x", MangledName := "%local_x.pos.5",
               Node := .VarSpec ⟨5, ⟨6, "x"⟩, .Number 1⟩ })],
    nextId := 1 }

/-! ## Notions used to state the claims about assignments -/

/-- The lowering of value 1, ..., value n in that order: each expression is
lowered from the state that the one before it left; the result lists the
references in the same order. -/
def Compiler.lowerValues (p : Compiler) :
    List Expr → Except Panic (Compiler × List Line × List String)
  | [] => .ok (p, [], [])
  | v :: values =>
    match p.compileExpr v with
    | .error e => .error e
    | .ok (p1, w1, name) =>
      match Compiler.lowerValues p1 values with
      | .error e => .error e
      | .ok (p2, w2, names) => .ok (p2, w1 ++ w2, name :: names)

/-- The storage slot that a name resolves to in the scope chain of `p`; the
empty text when the name does not resolve. -/
def Compiler.slotName (p : Compiler) (name : String) : String :=
  match p.scope.Lookup name with
  | some (_, obj) => obj.MangledName
  | none => ""

/-- Whether a name resolves in the scope chain of `p`. -/
def Compiler.resolves (p : Compiler) (name : String) : Bool :=
  (p.scope.Lookup name).isSome

/-- The store lines of an assignment: the i-th stores the i-th reference into
the slot that the i-th target resolves to. -/
def Compiler.storeLines (p : Compiler) (names : List String) (targets : List Ident) :
    List Line :=
  List.zipWith (fun name target => Line.store name (p.slotName target.Name)) names targets

/-! ## Notions used to state the claims about scopes -/

/-- The frame `s2` is the frame `s1` with bindings added to its own map: the
same chain of enclosing frames, each with the bindings it had, and the earlier
bindings of the current frame still in place.  The nil pointer extends only
the nil pointer. -/
def Scope.Extends : Scope → Scope → Prop
  | .nil, .nil => True
  | .mk outer2 objs2, .mk outer1 objs1 => outer2 = outer1 ∧ ∃ added, objs2 = added ++ objs1
  | _, _ => False

/-- The number of frames of a scope chain. -/
def Scope.depth : Scope → Nat
  | .nil => 0
  | .mk outer _ => outer.depth + 1

/-- Whether a statement can declare a name in the current frame: a `var`
statement or an assignment. -/
def Stmt.declaresHere : Stmt → Bool
  | .VarSpec _ => true
  | .AssignStmt _ op _ => decide (op = .DEFINE)
  | _ => false

/-! ## Notions used to state the claims about the package initializer -/

/-- The stores of the package initializer as the specification words them: for
the globals in declaration order, a global with an initializer has it lowered
and the reference stored into `@ugo_<pkg>_<name>`; a global without one has the
constant `0` stored there. -/
def Compiler.initStores (pkg : String) (p : Compiler) :
    List VarSpec → Except Panic (Compiler × List Line)
  | [] => .ok (p, [])
  | g :: rest =>
    if g.Value.isNil then
      match Compiler.initStores pkg p rest with
      | .error e => .error e
      | .ok (p2, w2) =>
        .ok (p2, [Line.store "0" (globalMangledName pkg g.Name.Name)] ++ w2)
    else
      match p.compileExpr g.Value with
      | .error e => .error e
      | .ok (p1, w1, value) =>
        match Compiler.initStores pkg p1 rest with
        | .error e => .error e
        | .ok (p2, w2) =>
          .ok (p2, w1 ++ [Line.store value (globalMangledName pkg g.Name.Name)] ++ w2)

/-- Every binding of a map of globals carries the storage name
`@ugo_<pkg>_<name>` of its name. -/
def GlobalsMap (pkg : String) (objs : List (String × Object)) : Prop :=
  ∀ n obj, Scope.mapGet objs n = some obj → obj.MangledName = globalMangledName pkg n

/-! ## More concrete inputs -/

/-- A state whose current frame binds the function name `f` to `@ugo_main_f`
and the variables `a` and `b` to their slots, with the counter at `0`. -/
def callState : Compiler :=
  { file := none,
    scope := .mk emptyUniverse
      [("f", { Name := "f", MangledName := "@ugo_main_f", Node := .Ident ⟨1, "f"⟩ }),
       ("a", { Name := "a", MangledName := "%local_a.pos.2", Node := .Ident ⟨2, "a"⟩ }),
       ("b", { Name := "b", MangledName := "%local_b.pos.3", Node := .Ident ⟨3, "b"⟩ })],
    nextId := 0 }

/-! ## Notions used to state the claim about the use of temporaries -/

/-- The value operands of a line: the two operands of an arithmetic or
comparison instruction, the argument of a call, the value of a store, the
condition of a conditional branch. -/
def Line.operands : Line → List String
  | .binop _ _ x y => [x, y]
  | .call _ _ arg => [arg]
  | .store value _ => [value]
  | .condbr cond _ _ => [cond]
  | _ => []

/-- Whether a text is the name of a temporary: `%t` followed by one or more
decimal digits. -/
def isTemporary (s : String) : Bool :=
  match s.data with
  | '%' :: 't' :: d :: ds => (d :: ds).all Char.isDigit
  | _ => false

/-- Every temporary that is an operand of a line of `w` is the result of a line
before it in `w`, or is one of the names `defined` before `w`. -/
def DefinedBeforeUse : List String → List Line → Prop
  | _, [] => True
  | defined, l :: rest =>
    (∀ o ∈ l.operands, isTemporary o = true → o ∈ defined)
    ∧ DefinedBeforeUse (defined ++ l.defines.toList) rest

/-- The shape of the lines `w` of a file lowered by `compileFile` from the state
`p`: the globals, a blank line when there are globals, the functions, and the
function `@ugo_<pkg>_init` whose body is the stores that the specification
words, lowered in the file scope, followed by `ret i32 0`. -/
def InitializerShape (p : Compiler) (file : File) (w : List Line) : Prop :=
  ∃ (p1 p2 p3 : Compiler) (w1 w2 w3 : List Line),
    p.enterScope.compileGlobals file file.Globals = .ok (p1, w1)
    ∧ p1.compileFuncs file file.Funcs = .ok (p2, w2)
    ∧ p2.scope = p1.scope
    ∧ p2.initStores file.Pkg.Name file.Globals = .ok (p3, w3)
    ∧ w = w1 ++ (if file.Globals.length ≠ 0 then [Line.blank] else []) ++ w2
          ++ ([Line.defineInit file.Pkg.Name] ++ w3 ++ [Line.ret, Line.close])
    ∧ storedSlots w3
        = file.Globals.map (fun g => globalMangledName file.Pkg.Name g.Name.Name)
    ∧ (file.Globals = [] → w3 = [])

/-- The order of the three loops of a define-assignment lowered from the state
`p` to the state `p'` with the lines `w`: the values are lowered first, in the
scope of `p`; then the targets that do not resolve are declared and allocated;
then the stores are written. -/
def DefineAssignOrder (p p' : Compiler) (targets : List Ident) (values : List Expr)
    (w : List Line) : Prop :=
  ∃ (p1 : Compiler) (w1 w2 w3 : List Line) (names : List String),
    p.assignValues targets values = .ok (p1, w1, names)
    ∧ p1.scope = p.scope
    ∧ p1.assignDefine targets = .ok (p', w2)
    ∧ w = w1 ++ w2 ++ w3
    ∧ (∀ l ∈ w1, l.defines ≠ none)
    ∧ (∀ l ∈ w2, l.allocates ≠ none)
    ∧ (∀ l ∈ w3, l.isStore = true)

/-- A file of package `main` with the globals `g = 5` and `h` (no initializer)
and no function. -/
def globalsFile : File :=
  ⟨⟨"main"⟩, [⟨1, ⟨2, "g"⟩, .Number 5⟩, ⟨3, ⟨4, "h"⟩, .Nil⟩], []⟩

/-- A file of package `lib` whose only function is named `main`. -/
def libFile : File :=
  ⟨⟨"lib"⟩, [], [⟨"main", .BlockStmt []⟩]⟩

/-! # Theorems -/

/-! ## The map of a frame (package `types`) -/

theorem types_mapGet_mapSet_same (m : List (String × Types.Object)) (name : String)
    (obj : Types.Object) :
    Types.mapGet (Types.mapSet m name obj) name = some obj := by
  simp [Types.mapSet, Types.mapGet]

theorem types_mapGet_mapSet_other (m : List (String × Types.Object)) (name other : String)
    (obj : Types.Object) (h : other ≠ name) :
    Types.mapGet (Types.mapSet m name obj) other = Types.mapGet m other := by
  have hne : name ≠ other := fun e => h e.symm
  simp [Types.mapSet, Types.mapGet, hne]

/-! ## Decimal numerals and splitting of texts -/

theorem digitValue_digitChar (k : Nat) (h : k < 10) : digitValue (Nat.digitChar k) = k := by
  interval_cases k <;> rfl

theorem digitChar_isDigit (k : Nat) (h : k < 10) : (Nat.digitChar k).isDigit = true := by
  interval_cases k <;> rfl

theorem decimalValue_toDigitsCore (fuel : Nat) :
    ∀ (n : Nat) (ds : List Char), n < fuel →
      decimalValue 0 (Nat.toDigitsCore 10 fuel n ds) = decimalValue n ds := by
  induction fuel with
  | zero => intro n ds h; omega
  | succ fuel ih =>
    intro n ds h
    have hmod : n % 10 < 10 := Nat.mod_lt _ (by decide)
    unfold Nat.toDigitsCore
    by_cases h0 : n / 10 = 0
    · simp only [h0, if_true]
      have hn : n % 10 = n := by omega
      have hlt : n < 10 := by omega
      simp [decimalValue, List.foldl, hn, digitValue_digitChar n hlt]
    · simp only [h0, if_false]
      rw [ih (n / 10) _ (by omega)]
      simp only [decimalValue, List.foldl, digitValue_digitChar _ hmod]
      congr 1
      omega

theorem toDigitsCore_isDigit (fuel : Nat) :
    ∀ (n : Nat) (ds : List Char), (∀ c ∈ ds, c.isDigit = true) →
      ∀ c ∈ Nat.toDigitsCore 10 fuel n ds, c.isDigit = true := by
  induction fuel with
  | zero => intro n ds h; simpa [Nat.toDigitsCore] using h
  | succ fuel ih =>
    intro n ds h
    have hmod : n % 10 < 10 := Nat.mod_lt _ (by decide)
    have hds : ∀ c ∈ Nat.digitChar (n % 10) :: ds, c.isDigit = true := by
      intro c hc
      rcases List.mem_cons.1 hc with rfl | hc
      · exact digitChar_isDigit _ hmod
      · exact h c hc
    unfold Nat.toDigitsCore
    by_cases h0 : n / 10 = 0
    · simpa only [h0, if_true] using hds
    · simpa only [h0, if_false] using ih (n / 10) _ hds

theorem toDigitsCore_ne_nil (fuel n : Nat) (ds : List Char) (h : 0 < fuel) :
    Nat.toDigitsCore 10 fuel n ds ≠ [] := by
  induction fuel generalizing n ds with
  | zero => omega
  | succ fuel ih =>
    unfold Nat.toDigitsCore
    by_cases h0 : n / 10 = 0
    · simp [h0]
    · simp only [h0, if_false]
      cases fuel with
      | zero => simp [Nat.toDigitsCore]
      | succ f => exact ih _ _ (by omega)

theorem natToString_data (n : Nat) : (toString n).data = Nat.toDigits 10 n := rfl

theorem natToString_isDigit (n : Nat) : ∀ c ∈ (toString n).data, c.isDigit = true := by
  rw [natToString_data]
  exact toDigitsCore_isDigit _ _ _ (by simp)

theorem natToString_injective (n m : Nat) (h : toString n = toString m) : n = m := by
  have hd : Nat.toDigits 10 n = Nat.toDigits 10 m := by
    rw [← natToString_data, ← natToString_data, h]
  have hn := decimalValue_toDigitsCore (n + 1) n [] (by omega)
  have hm := decimalValue_toDigitsCore (m + 1) m [] (by omega)
  unfold Nat.toDigits at hd
  rw [hd, hm] at hn
  simpa [decimalValue] using hn.symm

theorem intToString_data (i : Int) :
    (toString i).data =
      match i with
      | .ofNat n => (toString n).data
      | .negSucc n => '-' :: (toString (n + 1)).data := by
  cases i <;> rfl

theorem intToString_injective (i j : Int) (h : toString i = toString j) : i = j := by
  have hd := congrArg String.data h
  rw [intToString_data, intToString_data] at hd
  cases i with
  | ofNat n =>
    cases j with
    | ofNat m =>
      have : toString n = toString m := String.ext hd
      rw [natToString_injective _ _ this]
    | negSucc m =>
      exfalso
      simp only at hd
      have := natToString_isDigit n '-' (by rw [hd]; simp)
      revert this; decide
  | negSucc n =>
    cases j with
    | ofNat m =>
      exfalso
      simp only at hd
      have := natToString_isDigit m '-' (by rw [← hd]; simp)
      revert this; decide
    | negSucc m =>
      simp only [List.cons.injEq, true_and] at hd
      have : toString (n + 1) = toString (m + 1) := String.ext hd
      have := natToString_injective _ _ this
      have : n = m := by omega
      rw [this]

theorem intToString_no_dot (i : Int) : '.' ∉ (toString i).data := by
  rw [intToString_data]
  cases i with
  | ofNat n =>
    intro hc
    have := natToString_isDigit n '.' hc
    revert this; decide
  | negSucc n =>
    intro hc
    simp only [List.mem_cons] at hc
    rcases hc with hc | hc
    · revert hc; decide
    · have := natToString_isDigit (n + 1) '.' hc
      revert this; decide

theorem natToString_no_dot (n : Nat) : '.' ∉ (toString n).data := by
  intro hc
  have := natToString_isDigit n '.' hc
  revert this; decide

/-- Splitting at the last occurrence of a character is unique. -/
theorem append_cons_inj_right (c : Char) :
    ∀ (l1 l2 r1 r2 : List Char), c ∉ r1 → c ∉ r2 →
      l1 ++ c :: r1 = l2 ++ c :: r2 → l1 = l2 ∧ r1 = r2 := by
  intro l1
  induction l1 with
  | nil =>
    intro l2 r1 r2 h1 h2 h
    cases l2 with
    | nil => simpa using h
    | cons a l2 =>
      exfalso
      simp only [List.nil_append, List.cons_append, List.cons.injEq] at h
      apply h1
      rw [h.2]
      simp
  | cons a l1 ih =>
    intro l2 r1 r2 h1 h2 h
    cases l2 with
    | nil =>
      exfalso
      simp only [List.nil_append, List.cons_append, List.cons.injEq] at h
      apply h2
      rw [← h.2]
      simp
    | cons b l2 =>
      simp only [List.cons_append, List.cons.injEq] at h
      obtain ⟨hl, hr⟩ := ih l2 r1 r2 h1 h2 h.2
      exact ⟨by rw [h.1, hl], hr⟩

/-- Splitting at the first occurrence of a character is unique. -/
theorem append_cons_inj_left (c : Char) :
    ∀ (l1 l2 r1 r2 : List Char), c ∉ l1 → c ∉ l2 →
      l1 ++ c :: r1 = l2 ++ c :: r2 → l1 = l2 ∧ r1 = r2 := by
  intro l1
  induction l1 with
  | nil =>
    intro l2 r1 r2 h1 h2 h
    cases l2 with
    | nil => simpa using h
    | cons a l2 =>
      exfalso
      simp only [List.nil_append, List.cons_append, List.cons.injEq] at h
      apply h2
      rw [← h.1]
      simp
  | cons a l1 ih =>
    intro l2 r1 r2 h1 h2 h
    cases l2 with
    | nil =>
      exfalso
      simp only [List.nil_append, List.cons_append, List.cons.injEq] at h
      apply h1
      rw [h.1]
      simp
    | cons b l2 =>
      simp only [List.cons_append, List.cons.injEq] at h
      simp only [List.mem_cons, not_or] at h1 h2
      obtain ⟨hl, hr⟩ := ih l2 r1 r2 h1.2 h2.2 h.2
      exact ⟨by rw [h.1, hl], hr⟩

/-! ## Claims about package `types` -/

/-- C1 (as stated, refuted): the frame `p` binds `"x"`, the child `NewScope(p)`
does not declare `"x"`, and `Lookup("x")` on the child returns the nil object
instead of the binding held by `p`. -/
theorem C1_lookup_does_not_walk_outer :
    (Types.Scope.mk .nil [("x", ⟨"x", 1⟩)]).Lookup "x" = .ok (some ⟨"x", 1⟩)
    ∧ (Types.NewScope (Types.Scope.mk .nil [("x", ⟨"x", 1⟩)])).Lookup "x" = .ok none := by
  exact ⟨rfl, rfl⟩

/-- C1 (amended): `Lookup(n)` on a frame returns the binding of `n` in that
frame itself and does not depend on the frames reached through `Outer`; it
returns the nil object exactly when the frame itself does not bind `n`.  In
particular a fresh child `NewScope(p)` resolves no name, whatever `p` binds. -/
theorem C1_lookup_own_frame (outer outer2 : Types.Scope)
    (objects : List (String × Types.Object)) (n : String) :
    (Types.Scope.mk outer objects).Lookup n = .ok (Types.mapGet objects n)
    ∧ (Types.Scope.mk outer objects).Lookup n = (Types.Scope.mk outer2 objects).Lookup n
    ∧ (Types.NewScope outer).Lookup n = .ok none := by
  exact ⟨rfl, rfl, rfl⟩

/-- C2: `Insert` is first-declaration-wins within one frame.  If the frame binds
the name of `b` to `a`, then `Insert(b)` returns `a` and leaves the frame as it
was, so `Lookup` of the name still returns `a`.  If the frame does not bind the
name, then `Insert(b)` returns the nil object, afterwards `Lookup` of the name
returns `b`, `Lookup` of every other name returns what it returned before, and
`Outer` is untouched. -/
theorem C2_insert_first_wins (outer : Types.Scope)
    (objects : List (String × Types.Object)) (b : Types.Object) :
    (∀ a : Types.Object,
        (Types.Scope.mk outer objects).Lookup b.Name = .ok (some a) →
        (Types.Scope.mk outer objects).Insert b
            = .ok (Types.Scope.mk outer objects, some a)
        ∧ (Types.Scope.mk outer objects).Lookup b.Name = .ok (some a))
    ∧ ((Types.Scope.mk outer objects).Lookup b.Name = .ok none →
        ∃ objects2,
          (Types.Scope.mk outer objects).Insert b
            = .ok (Types.Scope.mk outer objects2, none)
          ∧ (Types.Scope.mk outer objects2).Lookup b.Name = .ok (some b)
          ∧ ∀ other, other ≠ b.Name →
              (Types.Scope.mk outer objects2).Lookup other
                = (Types.Scope.mk outer objects).Lookup other) := by
  constructor
  · intro a ha
    have hget : Types.mapGet objects b.Name = some a := by
      simpa [Types.Scope.Lookup] using ha
    refine ⟨?_, ha⟩
    simp [Types.Scope.Insert, hget]
  · intro hnone
    have hget : Types.mapGet objects b.Name = none := by
      simpa [Types.Scope.Lookup] using hnone
    refine ⟨Types.mapSet objects b.Name b, ?_, ?_, ?_⟩
    · simp [Types.Scope.Insert, hget]
    · simp [Types.Scope.Lookup, types_mapGet_mapSet_same]
    · intro other hother
      simp [Types.Scope.Lookup, types_mapGet_mapSet_other _ _ _ _ hother]

/-- C2 at concrete frames: a frame that binds `"x"` keeps its first object when
a second object named `"x"` is inserted, and an empty frame binds `"x"` to the
inserted object. -/
theorem C2_insert_first_wins_witness :
    ((Types.Scope.mk .nil [("x", ⟨"x", 1⟩)]).Insert ⟨"x", 2⟩
        = .ok (Types.Scope.mk .nil [("x", ⟨"x", 1⟩)], some ⟨"x", 1⟩)
      ∧ (Types.Scope.mk .nil [("x", ⟨"x", 1⟩)]).Lookup "x" = .ok (some ⟨"x", 1⟩))
    ∧ ∃ objects2,
        (Types.Scope.mk .nil []).Insert ⟨"x", 2⟩ = .ok (Types.Scope.mk .nil objects2, none)
        ∧ (Types.Scope.mk .nil objects2).Lookup "x" = .ok (some ⟨"x", 2⟩)
        ∧ ∀ other, other ≠ "x" →
            (Types.Scope.mk .nil objects2).Lookup other
              = (Types.Scope.mk .nil []).Lookup other :=
  ⟨(C2_insert_first_wins .nil [("x", ⟨"x", 1⟩)] ⟨"x", 2⟩).1 ⟨"x", 1⟩ rfl,
   (C2_insert_first_wins .nil [] ⟨"x", 2⟩).2 rfl⟩

/-! ## The content of the buffer -/

theorem foldl_text (w : List Line) (acc : String) :
    w.foldl (fun a l => a ++ l.text) acc = acc ++ bufString w := by
  induction w generalizing acc with
  | nil => simp [bufString]
  | cons l w ih =>
    simp only [bufString, List.foldl_cons]
    rw [ih, ih ("" ++ l.text)]
    simp [String.append_assoc]

theorem bufString_nil : bufString [] = "" := rfl

theorem bufString_cons (l : Line) (w : List Line) :
    bufString (l :: w) = l.text ++ bufString w := by
  simp only [bufString, List.foldl_cons]
  rw [foldl_text]
  simp [bufString]

theorem bufString_append (w1 w2 : List Line) :
    bufString (w1 ++ w2) = bufString w1 ++ bufString w2 := by
  induction w1 with
  | nil => simp [bufString_nil]
  | cons l w ih => simp [bufString_cons, ih, String.append_assoc]

/-! ## Storage names -/

theorem globalMangledName_data (pkg name : String) :
    (globalMangledName pkg name).data = "@ugo_".data ++ (pkg.data ++ '_' :: name.data) := by
  simp [globalMangledName, String.data_append]

theorem localMangledName_data (name : String) (pos : Int) :
    (localMangledName name pos).data
      = ("%local_".data ++ name.data ++ ".pos".data) ++ '.' :: (toString pos).data := by
  simp [localMangledName, String.data_append]

theorem localMangledName_injective (n1 n2 : String) (p1 p2 : Int)
    (h : localMangledName n1 p1 = localMangledName n2 p2) : n1 = n2 ∧ p1 = p2 := by
  have hd := congrArg String.data h
  rw [localMangledName_data, localMangledName_data] at hd
  obtain ⟨hl, hr⟩ := append_cons_inj_right '.' _ _ _ _
    (intToString_no_dot p1) (intToString_no_dot p2) hd
  have hl2 := List.append_cancel_right hl
  have hl3 := List.append_cancel_left hl2
  exact ⟨String.ext hl3, intToString_injective _ _ (String.ext hr)⟩

/-! ## Claims about storage names -/

/-- C6 (as stated, refuted): the pairs (package `a_b`, name `c`) and (package
`a`, name `b_c`) differ and get the same storage name `@ugo_a_b_c`. -/
theorem C6_mangling_collision :
    (("a_b", "c") : String × String) ≠ ("a", "b_c")
    ∧ globalMangledName "a_b" "c" = globalMangledName "a" "b_c" := by
  decide

/-- C6 (amended): the mangling (package name, declared name) to
`@ugo_<package>_<name>` gives different storage names to different declared
names of one package, and to different pairs whenever the two package names
contain no underscore. -/
theorem C6_mangling_injective_without_underscore :
    (∀ p n1 n2 : String, n1 ≠ n2 → globalMangledName p n1 ≠ globalMangledName p n2)
    ∧ (∀ p1 p2 n1 n2 : String, '_' ∉ p1.data → '_' ∉ p2.data → (p1, n1) ≠ (p2, n2) →
        globalMangledName p1 n1 ≠ globalMangledName p2 n2) := by
  constructor
  · intro p n1 n2 hne h
    have hd := congrArg String.data h
    rw [globalMangledName_data, globalMangledName_data] at hd
    have h2 := List.append_cancel_left (List.append_cancel_left hd)
    simp only [List.cons.injEq, true_and] at h2
    exact hne (String.ext h2)
  · intro p1 p2 n1 n2 h1 h2 hne h
    have hd := congrArg String.data h
    rw [globalMangledName_data, globalMangledName_data] at hd
    obtain ⟨hp, hn⟩ := append_cons_inj_left '_' _ _ _ _ h1 h2 (List.append_cancel_left hd)
    apply hne
    rw [String.ext hp, String.ext hn]

/-- C6 (amended) at concrete names: two globals of package `main`, and the same
name in the packages `main` and `lib`, get different storage names. -/
theorem C6_mangling_injective_without_underscore_witness :
    globalMangledName "main" "x" ≠ globalMangledName "main" "y"
    ∧ globalMangledName "main" "x" ≠ globalMangledName "lib" "x" :=
  ⟨C6_mangling_injective_without_underscore.1 "main" "x" "y" (by decide),
   C6_mangling_injective_without_underscore.2 "main" "lib" "x" "x"
     (by decide) (by decide) (by decide)⟩

/-- C7: the mangling (variable name, declaration position) to
`%local_<name>.pos.<position>`, used by `VarSpec` and by define-assignment, is
injective: two declarations that differ in name or in position get different
storage slot names. -/
theorem C7_local_mangling_injective (n1 n2 : String) (p1 p2 : Int)
    (h : (n1, p1) ≠ (n2, p2)) :
    localMangledName n1 p1 ≠ localMangledName n2 p2 := by
  intro heq
  obtain ⟨hn, hp⟩ := localMangledName_injective n1 n2 p1 p2 heq
  apply h
  rw [hn, hp]

/-- C7 at concrete declarations: the name `x` declared at the positions 10 and
25 gets two different slot names. -/
theorem C7_local_mangling_injective_witness :
    localMangledName "x" 10 ≠ localMangledName "x" 25 :=
  C7_local_mangling_injective "x" "x" 10 25 (by decide)

/-! ## Claims about whole files -/

/-- C4 (the code at the failing input): with an empty universe, in a file whose
functions are `f` (empty body) and then `g` (body `f(e)`), the call in `g` does
not resolve: `Compile` stops with `func f undefined`, because the binding of `f`
was inserted into the frame that `compileFunc` entered for `f` and left again.
Likewise `compileFunc` of a function without a body returns with the state it
started from, so the binding it inserted is in no frame afterwards. -/
theorem C4_call_to_earlier_function_fails (builtin : Builtin) (pkg : String) (e : Expr) :
    Compiler.Compile builtin (NewCompiler (.mk .nil []))
      { Pkg := ⟨pkg⟩, Globals := [],
        Funcs := [⟨"f", .BlockStmt []⟩,
                  ⟨"g", .BlockStmt [.ExprStmt (.CallExpr ⟨0, "f"⟩ [e])]⟩] }
      = .error (.funcUndefined "f")
    ∧ (∀ (p : Compiler) (file : File) (f : String),
        p.compileFunc file ⟨f, .Nil⟩ = .ok (p, [Line.declare file.Pkg.Name f]))
    ∧ (∀ (p : Compiler) (file : File) (f : String),
        p.compileFunc file ⟨f, .BlockStmt []⟩
          = .ok (p, [Line.blank, Line.define file.Pkg.Name f, Line.ret, Line.close])) := by
  exact ⟨rfl, fun _ _ _ => rfl, fun _ _ _ => rfl⟩

/-- C8: for every file with no globals and exactly one function `f` whose body
is an empty block, `Compile` succeeds from every state of the `Compiler`.  The
writes are the header, a blank line, the function `@ugo_<pkg>_f` whose body is
the single line `ret i32 0`, the function `@ugo_<pkg>_init` whose body is the
single line `ret i32 0` (so it holds no store), and what `genMain` adds. -/
theorem C8_empty_function_file (builtin : Builtin) (p : Compiler) (pkg f : String) :
    Compiler.compileBuf builtin p ⟨⟨pkg⟩, [], [⟨f, .BlockStmt []⟩]⟩
      = .ok ({ p with file := some ⟨⟨pkg⟩, [], [⟨f, .BlockStmt []⟩]⟩ },
          [Line.package pkg, .raw builtin.Header,
           .blank, .define pkg f, .ret, .close,
           .defineInit pkg, .ret, .close]
          ++ Compiler.genMain builtin ⟨⟨pkg⟩, [], [⟨f, .BlockStmt []⟩]⟩)
    ∧ Compiler.Compile builtin p ⟨⟨pkg⟩, [], [⟨f, .BlockStmt []⟩]⟩
      = .ok ({ p with file := some ⟨⟨pkg⟩, [], [⟨f, .BlockStmt []⟩]⟩ },
          "; package " ++ pkg ++ "\n" ++ builtin.Header
          ++ "\n" ++ ("define i32 @ugo_" ++ pkg ++ "_" ++ f ++ "() \x7b\n")
          ++ "\tret i32 0\n" ++ "\x7d\n"
          ++ ("define i32 @ugo_" ++ pkg ++ "_init() \x7b\n")
          ++ "\tret i32 0\n" ++ "\x7d\n"
          ++ bufString (Compiler.genMain builtin ⟨⟨pkg⟩, [], [⟨f, .BlockStmt []⟩]⟩))
    ∧ storedSlots ([Line.package pkg, .raw builtin.Header,
           .blank, .define pkg f, .ret, .close,
           .defineInit pkg, .ret, .close]
          ++ Compiler.genMain builtin ⟨⟨pkg⟩, [], [⟨f, .BlockStmt []⟩]⟩) = [] := by
  have hbuf : Compiler.compileBuf builtin p ⟨⟨pkg⟩, [], [⟨f, .BlockStmt []⟩]⟩
      = .ok ({ p with file := some ⟨⟨pkg⟩, [], [⟨f, .BlockStmt []⟩]⟩ },
          [Line.package pkg, .raw builtin.Header,
           .blank, .define pkg f, .ret, .close,
           .defineInit pkg, .ret, .close]
          ++ Compiler.genMain builtin ⟨⟨pkg⟩, [], [⟨f, .BlockStmt []⟩]⟩) := rfl
  refine ⟨hbuf, ?_, ?_⟩
  · simp only [Compiler.Compile, hbuf, bufString_append, bufString_cons, bufString_nil,
      Line.text, String.append_assoc]
    simp
  · unfold Compiler.genMain
    split
    · rfl
    · split <;> rfl

/-! ## Induction over the syntax tree -/

theorem expr_induction {motive : Expr → Prop}
    (hNil : motive .Nil)
    (hIdent : ∀ x, motive (.Ident x))
    (hNumber : ∀ v, motive (.Number v))
    (hBinary : ∀ op x y, motive x → motive y → motive (.BinaryExpr op x y))
    (hUnary : ∀ op x, motive x → motive (.UnaryExpr op x))
    (hParen : ∀ x, motive x → motive (.ParenExpr x))
    (hCall : ∀ fn args, (∀ a ∈ args, motive a) → motive (.CallExpr fn args))
    (hOther : motive .Other) (e : Expr) : motive e :=
  match e with
  | .Nil => hNil
  | .Ident x => hIdent x
  | .Number v => hNumber v
  | .BinaryExpr op x y =>
    hBinary op x y
      (expr_induction hNil hIdent hNumber hBinary hUnary hParen hCall hOther x)
      (expr_induction hNil hIdent hNumber hBinary hUnary hParen hCall hOther y)
  | .UnaryExpr op x =>
    hUnary op x (expr_induction hNil hIdent hNumber hBinary hUnary hParen hCall hOther x)
  | .ParenExpr x =>
    hParen x (expr_induction hNil hIdent hNumber hBinary hUnary hParen hCall hOther x)
  | .CallExpr fn args =>
    hCall fn args (fun a _ =>
      expr_induction hNil hIdent hNumber hBinary hUnary hParen hCall hOther a)
  | .Other => hOther
termination_by sizeOf e
decreasing_by
  all_goals simp_wf
  all_goals first
    | omega
    | (have hlt := List.sizeOf_lt_of_mem ‹_ ∈ _›
       omega)

theorem stmt_induction {motive : Stmt → Prop}
    (hNil : motive .Nil)
    (hVarSpec : ∀ spec, motive (.VarSpec spec))
    (hAssign : ∀ target op value, motive (.AssignStmt target op value))
    (hFor : ∀ forPos init cond post body, motive init → motive post → motive body →
      motive (.ForStmt forPos init cond post body))
    (hBlock : ∀ list, (∀ s ∈ list, motive s) → motive (.BlockStmt list))
    (hExpr : ∀ x, motive (.ExprStmt x))
    (hOther : motive .Other) (s : Stmt) : motive s :=
  match s with
  | .Nil => hNil
  | .VarSpec spec => hVarSpec spec
  | .AssignStmt target op value => hAssign target op value
  | .ForStmt forPos init cond post body =>
    hFor forPos init cond post body
      (stmt_induction hNil hVarSpec hAssign hFor hBlock hExpr hOther init)
      (stmt_induction hNil hVarSpec hAssign hFor hBlock hExpr hOther post)
      (stmt_induction hNil hVarSpec hAssign hFor hBlock hExpr hOther body)
  | .BlockStmt list =>
    hBlock list (fun s _ =>
      stmt_induction hNil hVarSpec hAssign hFor hBlock hExpr hOther s)
  | .ExprStmt x => hExpr x
  | .Other => hOther
termination_by sizeOf s
decreasing_by
  all_goals simp_wf
  all_goals first
    | omega
    | (have hlt := List.sizeOf_lt_of_mem ‹_ ∈ _›
       omega)

/-! ## What lowering an expression changes and writes -/

theorem genId_eq (p : Compiler) :
    p.genId = ({ p with nextId := p.nextId + 1 }, "%t" ++ toString p.nextId) := rfl

/-- Lowering an expression leaves the scope and the file of the `Compiler` as
they were, never lowers the counter, and writes only lines that define a
temporary. -/
theorem compileExpr_frame (e : Expr) :
    ∀ (p p' : Compiler) (w : List Line) (v : String),
      p.compileExpr e = .ok (p', w, v) →
      p'.scope = p.scope ∧ p'.file = p.file ∧ p.nextId ≤ p'.nextId
      ∧ ∀ l ∈ w, l.defines ≠ none := by
  induction e using expr_induction with
  | hNil => intro p p' w v h; simp [Compiler.compileExpr] at h
  | hOther => intro p p' w v h; simp [Compiler.compileExpr] at h
  | hIdent x =>
    intro p p' w v h
    unfold Compiler.compileExpr at h
    split at h
    · simp at h
    · simp only [genId_eq, Except.ok.injEq, Prod.mk.injEq] at h
      obtain ⟨rfl, rfl, rfl⟩ := h
      simp [Line.defines]
  | hNumber n =>
    intro p p' w v h
    simp only [Compiler.compileExpr, genId_eq, Except.ok.injEq, Prod.mk.injEq] at h
    obtain ⟨rfl, rfl, rfl⟩ := h
    simp [Line.defines]
  | hBinary op x y ihx ihy =>
    intro p p' w v h
    unfold Compiler.compileExpr at h
    simp only [genId_eq] at h
    split at h
    · simp at h
    · split at h
      · simp at h
      · rename_i p2 wx vx hx
        split at h
        · simp at h
        · rename_i p3 wy vy hy
          simp only [Except.ok.injEq, Prod.mk.injEq] at h
          obtain ⟨rfl, rfl, rfl⟩ := h
          obtain ⟨a1, a2, a3, a4⟩ := ihx _ _ _ _ hx
          obtain ⟨b1, b2, b3, b4⟩ := ihy _ _ _ _ hy
          refine ⟨by rw [b1, a1], by rw [b2, a2], by simp at a3; omega, ?_⟩
          intro l hl
          simp only [List.mem_append, List.mem_singleton] at hl
          rcases hl with (hl | hl) | rfl
          · exact a4 l hl
          · exact b4 l hl
          · simp [Line.defines]
  | hUnary op x ih =>
    intro p p' w v h
    unfold Compiler.compileExpr at h
    simp only [genId_eq] at h
    split at h
    · split at h
      · simp at h
      · rename_i p2 wx vx hx
        simp only [Except.ok.injEq, Prod.mk.injEq] at h
        obtain ⟨rfl, rfl, rfl⟩ := h
        obtain ⟨a1, a2, a3, a4⟩ := ih _ _ _ _ hx
        refine ⟨by rw [a1], by rw [a2], by simp at a3; omega, ?_⟩
        intro l hl
        simp only [List.mem_append, List.mem_singleton] at hl
        rcases hl with hl | rfl
        · exact a4 l hl
        · simp [Line.defines]
    · exact ih _ _ _ _ h
  | hParen x ih =>
    intro p p' w v h
    unfold Compiler.compileExpr at h
    exact ih _ _ _ _ h
  | hCall fn args ih =>
    intro p p' w v h
    unfold Compiler.compileExpr at h
    simp only [genId_eq] at h
    split at h
    · simp at h
    · split at h
      · simp at h
      · rename_i arg rest
        split at h
        · simp at h
        · rename_i p2 wa va ha
          simp only [Except.ok.injEq, Prod.mk.injEq] at h
          obtain ⟨rfl, rfl, rfl⟩ := h
          obtain ⟨a1, a2, a3, a4⟩ := ih arg (by simp) _ _ _ _ ha
          refine ⟨by rw [a1], by rw [a2], by simp at a3; omega, ?_⟩
          intro l hl
          simp only [List.mem_append, List.mem_singleton] at hl
          rcases hl with hl | rfl
          · exact a4 l hl
          · simp [Line.defines]

/-! ## The labels of a loop -/

/-- The label that `genLabelId` makes for the block `tag` of the loop at
position `forPos` from the counter value `k`. -/
theorem genLabelId_eq (p : Compiler) (name : String) :
    p.genLabelId name = ({ p with nextId := p.nextId + 1 }, name ++ "." ++ toString p.nextId) :=
  rfl

theorem forLabels_distinct (forPos : Int) (a b c d : Nat) :
    ["for.init.pos" ++ toString forPos ++ "." ++ toString a,
     "for.cond.pos" ++ toString forPos ++ "." ++ toString b,
     "for.body.pos" ++ toString forPos ++ "." ++ toString c,
     "for.end.pos" ++ toString forPos ++ "." ++ toString d].Nodup := by
  have hi : "for.init.pos".data = ['f','o','r','.','i','n','i','t','.','p','o','s'] := rfl
  have hc : "for.cond.pos".data = ['f','o','r','.','c','o','n','d','.','p','o','s'] := rfl
  have hb : "for.body.pos".data = ['f','o','r','.','b','o','d','y','.','p','o','s'] := rfl
  have he : "for.end.pos".data = ['f','o','r','.','e','n','d','.','p','o','s'] := rfl
  have key : ∀ (s t : String), s.data ≠ t.data → s ≠ t := fun s t h e => h (e ▸ rfl)
  simp only [List.nodup_cons, List.mem_cons, List.mem_singleton, List.not_mem_nil,
    not_or, not_false_eq_true, List.nodup_nil, and_true]
  refine ⟨⟨?_, ?_, ?_⟩, ⟨?_, ?_⟩, ?_⟩ <;>
    (apply key; simp [String.data_append, hi, hc, hb, he])

/-- What a `for` statement that is lowered without failure has done: the four
labels, the lowering of its parts in order, and the lines it wrote. -/
theorem compileStmt_for_inv (p p' : Compiler) (forPos : Int) (init : Stmt)
    (cond : Expr) (post body : Stmt) (w : List Line)
    (h : p.compileStmt (.ForStmt forPos init cond post body) = .ok (p', w)) :
    ForBlocks p p' forPos init cond post body w := by
  unfold ForBlocks
  have hd := forLabels_distinct forPos p.nextId (p.nextId + 1) (p.nextId + 2) (p.nextId + 3)
  unfold Compiler.compileStmt at h
  simp only [genLabelId_eq, Compiler.enterScope] at h
  split at h
  · simp at h
  · rename_i pI wI hI
    split at h
    · simp at h
    · rename_i pC wC hC
      split at h
      · simp at h
      · rename_i pB wB hB
        split at h
        · simp at h
        · rename_i pL hL
          split at h
          · simp at h
          · rename_i pP wP hP
            split at h
            · simp at h
            · rename_i pE hE
              simp only [Except.ok.injEq, Prod.mk.injEq] at h
              obtain ⟨rfl, rfl⟩ := h
              refine ⟨_, _, _, _, pI, pC, pB, pL, pP, wI, wC, wB, wP,
                rfl, rfl, rfl, rfl, hd, ?_, ?_, hB, hL, ?_, hE, rfl⟩
              · have h4 : p.nextId + 1 + 1 + 1 + 1 = p.nextId + 4 := rfl
                rw [h4] at hI
                cases hn : init.isNil with
                | true =>
                  left
                  simp only [hn, if_true, Except.ok.injEq, Prod.mk.injEq] at hI
                  exact ⟨rfl, hI.2.symm, hI.1.symm⟩
                | false =>
                  right
                  simp only [hn] at hI
                  exact ⟨rfl, hI⟩
              · cases hn : cond.isNil with
                | true =>
                  left
                  simp only [hn, if_true, Except.ok.injEq, Prod.mk.injEq] at hC
                  refine ⟨rfl, hC.1.symm, hC.2.symm, ?_⟩
                  simp only [List.nodup_cons, List.mem_cons, List.mem_singleton,
                    List.not_mem_nil, not_or] at hd
                  intro l hl
                  simp only [List.mem_cons, List.mem_singleton, List.not_mem_nil,
                    or_false] at hl
                  rcases hl with rfl | rfl | rfl <;>
                    simp only [Line.branchTargets, List.mem_singleton]
                  · exact fun e => hd.2.1.2.1 e.symm
                  · exact fun e => hd.2.2.1.1 e.symm
                  · exact fun e => hd.2.1.2.1 e.symm
                | false =>
                  right
                  simp only [hn, Bool.false_eq_true, if_false] at hC
                  refine ⟨rfl, ?_⟩
                  split at hC
                  · simp at hC
                  · rename_i p6 wc condValue hc
                    simp only [Except.ok.injEq, Prod.mk.injEq] at hC
                    obtain ⟨rfl, rfl⟩ := hC
                    exact ⟨wc, condValue, hc, rfl⟩
              · cases hn : post.isNil with
                | true =>
                  left
                  simp only [hn, if_true, Except.ok.injEq, Prod.mk.injEq] at hP
                  exact ⟨rfl, hP.2.symm, hP.1.symm⟩
                | false =>
                  right
                  simp only [hn] at hP
                  exact ⟨rfl, hP⟩

/-- C9: a `for` statement that is lowered without failure writes four labelled
blocks in the order init, cond, body, end.  With the labels made from four
successive counter values: the init block holds the lowered init statement (if
there is one) and `br label %<cond>`; the cond block holds the lowered condition
and a conditional branch on its value to `<body>` else `<end>`, or, when there
is no condition, only `br label %<body>`; the body block holds the lowered body
(in a frame of its own), the lowered post statement (if there is one) and
`br label %<cond>`; the end label comes last with no line after it.  The four
labels are different, so without a condition no branch of the loop goes to
`<end>`. -/
theorem C9_for_emits_four_blocks (p p' : Compiler) (forPos : Int) (init : Stmt)
    (cond : Expr) (post body : Stmt) (w : List Line)
    (h : p.compileStmt (.ForStmt forPos init cond post body) = .ok (p', w)) :
    ForBlocks p p' forPos init cond post body w :=
  compileStmt_for_inv p p' forPos init cond post body w h

/-- C9 at the loop `for i := 0; i < 3; i = i + 1 {}`, lowered from a fresh
`Compiler`. -/
theorem C9_for_emits_four_blocks_witness :
    (NewCompiler emptyUniverse).compileStmt loopStmt
        = .ok ({ file := none, scope := NewScope emptyUniverse, nextId := 11 }, loopLines)
    ∧ ForBlocks (NewCompiler emptyUniverse)
        { file := none, scope := NewScope emptyUniverse, nextId := 11 } 20
        (.AssignStmt [⟨21, "i"⟩] .DEFINE [.Number 0])
        (.BinaryExpr .LSS (.Ident ⟨22, "i"⟩) (.Number 3))
        (.AssignStmt [⟨23, "i"⟩] .ASSIGN [.BinaryExpr .ADD (.Ident ⟨24, "i"⟩) (.Number 1)])
        (.BlockStmt []) loopLines :=
  ⟨rfl, C9_for_emits_four_blocks _ _ _ _ _ _ _ _ rfl⟩

/-! ## Define-assignment -/

theorem defines_excludes (l : Line) (h : l.defines ≠ none) :
    l.allocates = none ∧ l.storesTo = none ∧ l.labelName = none ∧ l.branchTargets = [] := by
  cases l <;> simp [Line.defines] at h <;>
    simp [Line.allocates, Line.storesTo, Line.labelName, Line.branchTargets]

theorem filterMap_eq_nil_of_forall {α β : Type} (f : α → Option β) (l : List α)
    (h : ∀ a ∈ l, f a = none) : l.filterMap f = [] := by
  induction l with
  | nil => rfl
  | cons a l ih =>
    rw [List.filterMap_cons, h a (by simp)]
    exact ih (fun b hb => h b (by simp [hb]))

/-- The lines of a lowered expression allocate no slot and store nothing. -/
theorem compileExpr_no_alloca_no_store (e : Expr) (p p' : Compiler) (w : List Line)
    (v : String) (h : p.compileExpr e = .ok (p', w, v)) :
    allocatedSlots w = [] ∧ storedSlots w = [] := by
  have hw := (compileExpr_frame e p p' w v h).2.2.2
  exact ⟨filterMap_eq_nil_of_forall _ _ (fun l hl => (defines_excludes l (hw l hl)).1),
    filterMap_eq_nil_of_forall _ _ (fun l hl => (defines_excludes l (hw l hl)).2.1)⟩

/-- The value of an initializer: the constant `0` when there is none. -/
theorem initValue_frame (e : Expr) (p p' : Compiler) (w : List Line) (v : String)
    (h : (if e.isNil then Except.ok (p, [], "0") else p.compileExpr e) = .ok (p', w, v)) :
    p'.scope = p.scope ∧ p'.file = p.file ∧ p.nextId ≤ p'.nextId
      ∧ ∀ l ∈ w, l.defines ≠ none := by
  cases hn : e.isNil with
  | true =>
    simp only [hn, if_true, Except.ok.injEq, Prod.mk.injEq] at h
    obtain ⟨rfl, rfl, rfl⟩ := h
    simp
  | false =>
    simp only [hn, Bool.false_eq_true, if_false] at h
    exact compileExpr_frame e p p' w v h

/-- C10: define-assignment rebinds instead of shadowing.  (1) In a frame that
does not declare `x` while an enclosing frame binds `x` to `o`, lowering
`x := e` writes the lines of `e` and then one store into the slot of `o`; it
writes no `alloca` and leaves the scope as it was, so nothing is declared in the
nested frame.  (2) In the construct `{ var x [= init]; { x := e } }` exactly one
slot is allocated, the slot of the `var`, and both stores go to it. -/
theorem C10_define_assign_rebinds :
    (∀ (p p1 : Compiler) (outer fr : Scope) (objs : List (String × Object)) (x : Ident)
        (o : Object) (e : Expr) (w1 : List Line) (v : String),
        p.scope = .mk outer objs → Scope.mapGet objs x.Name = none →
        outer.Lookup x.Name = some (fr, o) →
        p.compileExpr e = .ok (p1, w1, v) →
        p.compileStmt (.AssignStmt [x] .DEFINE [e])
            = .ok (p1, w1 ++ [Line.store v o.MangledName])
          ∧ p1.scope = p.scope
          ∧ allocatedSlots (w1 ++ [Line.store v o.MangledName]) = [])
    ∧ (∀ (p p' : Compiler) (w : List Line) (varPos : Int) (x x2 : Ident) (init e : Expr),
        x2.Name = x.Name →
        p.compileStmt (.BlockStmt [.VarSpec ⟨varPos, x, init⟩,
            .BlockStmt [.AssignStmt [x2] .DEFINE [e]]]) = .ok (p', w) →
        allocatedSlots w = [localMangledName x.Name varPos]
          ∧ storedSlots w = [localMangledName x.Name varPos, localMangledName x.Name varPos]) := by
  have part1 : ∀ (p p1 : Compiler) (outer fr : Scope) (objs : List (String × Object))
      (x : Ident) (o : Object) (e : Expr) (w1 : List Line) (v : String),
      p.scope = .mk outer objs → Scope.mapGet objs x.Name = none →
      outer.Lookup x.Name = some (fr, o) →
      p.compileExpr e = .ok (p1, w1, v) →
      p.compileStmt (.AssignStmt [x] .DEFINE [e])
          = .ok (p1, w1 ++ [Line.store v o.MangledName])
        ∧ p1.scope = p.scope
        ∧ allocatedSlots (w1 ++ [Line.store v o.MangledName]) = [] := by
    intro p p1 outer fr objs x o e w1 v hs hget hout he
    have hfr := compileExpr_frame e p p1 w1 v he
    have hlook : p1.scope.Lookup x.Name = some (fr, o) := by
      rw [hfr.1, hs]
      simp [Scope.Lookup, hget, hout]
    refine ⟨?_, hfr.1, ?_⟩
    · simp [Compiler.compileStmt, Compiler.compileStmt_assign, Compiler.assignValues, he,
        Compiler.assignDefine, Compiler.assignStores, hlook]
    · have := (compileExpr_no_alloca_no_store e p p1 w1 v he).1
      simp only [allocatedSlots] at this ⊢
      simp [List.filterMap_append, this, Line.allocates]
  refine ⟨part1, ?_⟩
  intro p p' w varPos x x2 init e hx h
  simp only [Compiler.compileStmt, Compiler.compileStmtList] at h
  split at h
  · simp at h
  · rename_i pA wA hA
    split at hA
    · simp at hA
    · rename_i pB wB hB
      split at hB
      · simp at hB
      · rename_i pV wV lv hV
        split at hB
        · simp at hB
        · rename_i pW hW
          simp only [Except.ok.injEq, Prod.mk.injEq] at hB
          obtain ⟨rfl, rfl⟩ := hB
          have hVf := initValue_frame init _ _ _ _ hV
          have hWs : pW.scope = .mk p.scope
              [(x.Name, { Name := x.Name, MangledName := localMangledName x.Name varPos,
                          Node := Node.VarSpec { VarPos := varPos, Name := x, Value := init } })] := by
            simp only [Compiler.insert, hVf.1, Compiler.enterScope, NewScope, Scope.Insert,
              Scope.mapGet] at hW
            simp only [Except.ok.injEq] at hW
            rw [← hW]
          cases he : pW.enterScope.compileExpr e with
          | error err =>
            simp [Compiler.compileStmt_assign, Compiler.assignValues, he] at hA
          | ok r =>
            obtain ⟨p1, w1, v⟩ := r
            have h1 := part1 pW.enterScope p1 pW.scope pW.scope [] x2
              { Name := x.Name, MangledName := localMangledName x.Name varPos,
                Node := Node.VarSpec { VarPos := varPos, Name := x, Value := init } }
              e w1 v rfl rfl
              (by rw [hWs, hx]; simp [Scope.Lookup, Scope.mapGet]) he
            simp only [Compiler.compileStmt] at h1
            rw [h1.1] at hA
            have hleave : p1.leaveScope = .ok { p1 with scope := pW.scope } := by
              simp [Compiler.leaveScope, h1.2.1, Compiler.enterScope, NewScope, Scope.Outer]
            simp only [hleave, List.append_nil, Except.ok.injEq, Prod.mk.injEq] at hA
            obtain ⟨rfl, rfl⟩ := hA
            split at h
            · simp at h
            · simp only [Except.ok.injEq, Prod.mk.injEq] at h
              obtain ⟨-, rfl⟩ := h
              have hwV : allocatedSlots wV = [] ∧ storedSlots wV = [] :=
                ⟨filterMap_eq_nil_of_forall _ _
                    (fun l hl => (defines_excludes l (hVf.2.2.2 l hl)).1),
                 filterMap_eq_nil_of_forall _ _
                    (fun l hl => (defines_excludes l (hVf.2.2.2 l hl)).2.1)⟩
              have hw1 := compileExpr_no_alloca_no_store e _ _ _ _ he
              simp only [allocatedSlots, storedSlots] at hwV hw1 ⊢
              simp [List.filterMap_append, hwV.1, hwV.2, hw1.1, hw1.2, Line.allocates,
                Line.storesTo]

/-- C10 at concrete inputs: in a nested frame under a frame that binds `x` to
the slot `%local_x.pos.5`, lowering `x := 2` writes the value and one store into
that slot, with no `alloca` and the scope unchanged; and the construct
`{ var x = 1; { x := 2 } }` allocates the single slot `%local_x.pos.5` and stores
into it twice. -/
theorem C10_define_assign_rebinds_witness :
    ((rebindState 0).compileStmt (.AssignStmt [⟨9, "x"⟩] .DEFINE [.Number 2])
        = .ok (rebindState 1,
            [Line.binop "%t0" "add" "0" "2"] ++ [Line.store "%t0" "%local_x.pos.5"])
      ∧ (rebindState 1).scope = (rebindState 0).scope
      ∧ allocatedSlots ([Line.binop "%t0" "add" "0" "2"]
          ++ [Line.store "%t0" "%local_x.pos.5"]) = [])
    ∧ (allocatedSlots
          [Line.binop "%t0" "add" "0" "1", Line.alloca "%local_x.pos.5",
           Line.store "%t0" "%local_x.pos.5", Line.binop "%t1" "add" "0" "2",
           Line.store "%t1" "%local_x.pos.5"] = [localMangledName "x" 5]
      ∧ storedSlots
          [Line.binop "%t0" "add" "0" "1", Line.alloca "%local_x.pos.5",
           Line.store "%t0" "%local_x.pos.5", Line.binop "%t1" "add" "0" "2",
           Line.store "%t1" "%local_x.pos.5"]
          = [localMangledName "x" 5, localMangledName "x" 5]) :=
  ⟨C10_define_assign_rebinds.1 (rebindState 0) (rebindState 1) rebindOuter rebindOuter []
      ⟨9, "x"⟩ { Name := "x", MangledName := "%local_x.pos.5", Node := .Ident ⟨6, "x"⟩ }
      (.Number 2) [Line.binop "%t0" "add" "0" "2"] "%t0" rfl rfl rfl rfl,
   C10_define_assign_rebinds.2 (NewCompiler emptyUniverse)
      { file := none, scope := NewScope emptyUniverse, nextId := 2 }
      _ 5 ⟨6, "x"⟩ ⟨9, "x"⟩ (.Number 1) (.Number 2) rfl rfl⟩

/-! ## Names made from the counter -/

theorem MadeFrom_unique (name : String) (k k2 : Nat)
    (h1 : MadeFrom name k) (h2 : MadeFrom name k2) : k = k2 := by
  have ht : "%t".data = ['%', 't'] := rfl
  have hdot : ".".data = ['.'] := rfl
  have clash : ∀ (a b : Nat) (tag : String),
      "%t" ++ toString a = tag ++ "." ++ toString b → False := by
    intro a b tag h
    have hd := congrArg String.data h
    simp only [String.data_append, ht, hdot, List.append_assoc, List.singleton_append,
      List.cons_append, List.nil_append] at hd
    have hmem : '.' ∈ '%' :: 't' :: (toString a).data := by
      rw [hd]; simp
    simp only [List.mem_cons] at hmem
    rcases hmem with hm | hm | hm
    · revert hm; decide
    · revert hm; decide
    · exact natToString_no_dot a hm
  rcases h1 with h1 | ⟨tag1, h1⟩ <;> rcases h2 with h2 | ⟨tag2, h2⟩
  · rw [h1] at h2
    have hd := congrArg String.data h2
    simp only [String.data_append] at hd
    exact natToString_injective _ _ (String.ext (List.append_cancel_left hd))
  · rw [h1] at h2
    exact (clash _ _ _ h2).elim
  · rw [h2] at h1
    exact (clash _ _ _ h1).elim
  · rw [h1] at h2
    have hd := congrArg String.data h2
    simp only [String.data_append, hdot, List.append_assoc, List.singleton_append] at hd
    obtain ⟨-, hr⟩ := append_cons_inj_right '.' _ _ _ _
      (natToString_no_dot k) (natToString_no_dot k2) hd
    exact natToString_injective _ _ (String.ext hr)

theorem forall₂_exists_of_mem {α β : Type} {R : α → β → Prop} :
    ∀ {l1 : List α} {l2 : List β}, List.Forall₂ R l1 l2 → ∀ a ∈ l1, ∃ b ∈ l2, R a b
  | _, _, .nil, a, ha => by simp at ha
  | _, _, .cons hcd hrest, a, ha => by
    rcases List.mem_cons.1 ha with rfl | ha
    · exact ⟨_, by simp, hcd⟩
    · obtain ⟨b, hb, hr⟩ := forall₂_exists_of_mem hrest a ha
      exact ⟨b, by simp [hb], hr⟩

theorem forall₂_madeFrom_nodup (names : List String) (ids : List Nat)
    (h : List.Forall₂ MadeFrom names ids) (hn : ids.Nodup) : names.Nodup := by
  induction h with
  | nil => exact List.nodup_nil
  | cons hab hrest ih =>
    rename_i a b l1 l2
    rw [List.nodup_cons] at hn ⊢
    refine ⟨?_, ih hn.2⟩
    intro ha
    obtain ⟨b2, hb2, hm⟩ := forall₂_exists_of_mem hrest a ha
    rw [MadeFrom_unique a b b2 hab hm] at hn
    exact hn.1 hb2

theorem namesOf_nodup {P : Nat → Prop} {names : List String} (h : NamesOf P names) :
    names.Nodup := by
  obtain ⟨ids, hf, hn, -⟩ := h
  exact forall₂_madeFrom_nodup names ids hf hn

theorem namesOf_nil {P : Nat → Prop} (h : ∀ k, ¬ P k) : NamesOf P [] :=
  ⟨[], List.Forall₂.nil, List.nodup_nil, fun k => by simp [h k]⟩

theorem namesOf_single {P : Nat → Prop} (name : String) (k : Nat) (h : MadeFrom name k)
    (hP : ∀ j, P j ↔ j = k) : NamesOf P [name] :=
  ⟨[k], List.Forall₂.cons h List.Forall₂.nil, by simp, fun j => by simp [hP j]⟩

theorem namesOf_append {P Q R : Nat → Prop} {a b : List String}
    (ha : NamesOf P a) (hb : NamesOf Q b) (hdis : ∀ k, P k → Q k → False)
    (hR : ∀ k, R k ↔ P k ∨ Q k) : NamesOf R (a ++ b) := by
  obtain ⟨ia, fa, na, ma⟩ := ha
  obtain ⟨ib, fb, nb, mb⟩ := hb
  refine ⟨ia ++ ib, List.rel_append fa fb, ?_, ?_⟩
  · rw [List.nodup_append]
    refine ⟨na, nb, ?_⟩
    intro k hka hkb
    exact hdis k ((ma k).1 hka) ((mb k).1 hkb)
  · intro k
    rw [List.mem_append, ma, mb, hR]

theorem fresh_nodup {lo hi : Nat} {w : List Line} (h : Fresh lo hi w) :
    (generatedNames w).Nodup := namesOf_nodup h.2

theorem generatedNames_append (a b : List Line) :
    generatedNames (a ++ b) = generatedNames a ++ generatedNames b := by
  simp [generatedNames, List.filterMap_append]

theorem fresh_silent (n : Nat) (w : List Line) (h : ∀ l ∈ w, l.generated = none) :
    Fresh n n w := by
  refine ⟨Nat.le_refl n, ?_⟩
  rw [generatedNames, filterMap_eq_nil_of_forall _ _ h]
  exact namesOf_nil (fun k => by omega)

theorem fresh_nil (n : Nat) : Fresh n n [] := fresh_silent n [] (by simp)

theorem fresh_append {a b c : Nat} {w1 w2 : List Line}
    (h1 : Fresh a b w1) (h2 : Fresh b c w2) : Fresh a c (w1 ++ w2) := by
  refine ⟨Nat.le_trans h1.1 h2.1, ?_⟩
  rw [generatedNames_append]
  have := h1.1
  have := h2.1
  exact namesOf_append h1.2 h2.2 (fun k hp hq => by omega) (fun k => by omega)

/-- A line that introduces the name made from `lo`, after lines whose names
were made from `lo + 1, ..., hi - 1`. -/
theorem fresh_snoc {lo hi : Nat} {w : List Line} (l : Line) (name : String)
    (hw : Fresh (lo + 1) hi w) (hl : l.generated = some name) (hm : MadeFrom name lo) :
    Fresh lo hi (w ++ [l]) := by
  have := hw.1
  refine ⟨by omega, ?_⟩
  rw [generatedNames_append]
  have hs : generatedNames [l] = [name] := by simp [generatedNames, hl]
  rw [hs]
  exact namesOf_append hw.2 (namesOf_single name lo hm (fun j => Iff.rfl))
    (fun k hp hq => by omega) (fun k => by omega)

/-- A line that introduces the name made from `lo`, before lines whose names
were made from `lo + 1, ..., hi - 1`. -/
theorem fresh_cons {lo hi : Nat} {w : List Line} (l : Line) (name : String)
    (hw : Fresh (lo + 1) hi w) (hl : l.generated = some name) (hm : MadeFrom name lo) :
    Fresh lo hi (l :: w) := by
  have := hw.1
  refine ⟨by omega, ?_⟩
  have hs : generatedNames (l :: w) = [name] ++ generatedNames w := by
    simp [generatedNames, hl]
  rw [hs]
  exact namesOf_append (namesOf_single name lo hm (fun j => Iff.rfl)) hw.2
    (fun k hp hq => by omega) (fun k => by omega)

theorem fresh_cons_silent {lo hi : Nat} {w : List Line} (l : Line)
    (hw : Fresh lo hi w) (hl : l.generated = none) : Fresh lo hi (l :: w) := by
  refine ⟨hw.1, ?_⟩
  have hs : generatedNames (l :: w) = generatedNames w := by
    simp [generatedNames, hl]
  rw [hs]
  exact hw.2

theorem madeFrom_genId (k : Nat) : MadeFrom ("%t" ++ toString k) k := Or.inl rfl

theorem madeFrom_genLabelId (tag : String) (k : Nat) :
    MadeFrom (tag ++ "." ++ toString k) k := Or.inr ⟨tag, rfl⟩

/-- The temporaries of a lowered expression were made from the counter values
between the counter before and the counter after, each value once. -/
theorem compileExpr_fresh (e : Expr) :
    ∀ (p p' : Compiler) (w : List Line) (v : String),
      p.compileExpr e = .ok (p', w, v) → Fresh p.nextId p'.nextId w := by
  induction e using expr_induction with
  | hNil => intro p p' w v h; simp [Compiler.compileExpr] at h
  | hOther => intro p p' w v h; simp [Compiler.compileExpr] at h
  | hIdent x =>
    intro p p' w v h
    unfold Compiler.compileExpr at h
    split at h
    · simp at h
    · simp only [genId_eq, Except.ok.injEq, Prod.mk.injEq] at h
      obtain ⟨rfl, rfl, rfl⟩ := h
      exact fresh_cons _ _ (fresh_nil _) rfl (madeFrom_genId _)
  | hNumber n =>
    intro p p' w v h
    simp only [Compiler.compileExpr, genId_eq, Except.ok.injEq, Prod.mk.injEq] at h
    obtain ⟨rfl, rfl, rfl⟩ := h
    exact fresh_cons _ _ (fresh_nil _) rfl (madeFrom_genId _)
  | hBinary op x y ihx ihy =>
    intro p p' w v h
    unfold Compiler.compileExpr at h
    simp only [genId_eq] at h
    split at h
    · simp at h
    · split at h
      · simp at h
      · rename_i p2 wx vx hx
        split at h
        · simp at h
        · rename_i p3 wy vy hy
          simp only [Except.ok.injEq, Prod.mk.injEq] at h
          obtain ⟨rfl, rfl, rfl⟩ := h
          exact fresh_snoc _ _ (fresh_append (ihx _ _ _ _ hx) (ihy _ _ _ _ hy)) rfl
            (madeFrom_genId _)
  | hUnary op x ih =>
    intro p p' w v h
    unfold Compiler.compileExpr at h
    simp only [genId_eq] at h
    split at h
    · split at h
      · simp at h
      · rename_i p2 wx vx hx
        simp only [Except.ok.injEq, Prod.mk.injEq] at h
        obtain ⟨rfl, rfl, rfl⟩ := h
        exact fresh_snoc _ _ (ih _ _ _ _ hx) rfl (madeFrom_genId _)
    · exact ih _ _ _ _ h
  | hParen x ih =>
    intro p p' w v h
    unfold Compiler.compileExpr at h
    exact ih _ _ _ _ h
  | hCall fn args ih =>
    intro p p' w v h
    unfold Compiler.compileExpr at h
    simp only [genId_eq] at h
    split at h
    · simp at h
    · split at h
      · simp at h
      · rename_i arg rest
        split at h
        · simp at h
        · rename_i p2 wa va ha
          simp only [Except.ok.injEq, Prod.mk.injEq] at h
          obtain ⟨rfl, rfl, rfl⟩ := h
          exact fresh_snoc _ _ (ih arg (by simp) _ _ _ _ ha) rfl (madeFrom_genId _)

theorem insert_nextId (p p' : Compiler) (obj : Object) (h : p.insert obj = .ok p') :
    p'.nextId = p.nextId ∧ p'.file = p.file := by
  unfold Compiler.insert at h
  split at h
  · simp at h
  · simp only [Except.ok.injEq] at h
    subst h
    exact ⟨rfl, rfl⟩

theorem leaveScope_nextId (p p' : Compiler) (h : p.leaveScope = .ok p') :
    p'.nextId = p.nextId ∧ p'.file = p.file := by
  unfold Compiler.leaveScope at h
  split at h
  · simp at h
  · simp only [Except.ok.injEq] at h
    subst h
    exact ⟨rfl, rfl⟩

theorem initValue_fresh (e : Expr) (p p' : Compiler) (w : List Line) (v : String)
    (h : (if e.isNil then Except.ok (p, [], "0") else p.compileExpr e) = .ok (p', w, v)) :
    Fresh p.nextId p'.nextId w := by
  cases hn : e.isNil with
  | true =>
    simp only [hn, if_true, Except.ok.injEq, Prod.mk.injEq] at h
    obtain ⟨rfl, rfl, rfl⟩ := h
    exact fresh_nil _
  | false =>
    simp only [hn, Bool.false_eq_true, if_false] at h
    exact compileExpr_fresh e p p' w v h

theorem assignValues_fresh (targets : List Ident) :
    ∀ (values : List Expr) (p p' : Compiler) (w : List Line) (names : List String),
      p.assignValues targets values = .ok (p', w, names) → Fresh p.nextId p'.nextId w := by
  induction targets with
  | nil =>
    intro values p p' w names h
    simp only [Compiler.assignValues, Except.ok.injEq, Prod.mk.injEq] at h
    obtain ⟨rfl, rfl, rfl⟩ := h
    exact fresh_nil _
  | cons t targets ih =>
    intro values p p' w names h
    cases values with
    | nil => simp [Compiler.assignValues] at h
    | cons v values =>
      simp only [Compiler.assignValues] at h
      split at h
      · simp at h
      · rename_i p1 w1 name h1
        split at h
        · simp at h
        · rename_i p2 w2 names2 h2
          simp only [Except.ok.injEq, Prod.mk.injEq] at h
          obtain ⟨rfl, rfl, rfl⟩ := h
          exact fresh_append (compileExpr_fresh v _ _ _ _ h1) (ih _ _ _ _ _ h2)

theorem assignDefine_silent (targets : List Ident) :
    ∀ (p p' : Compiler) (w : List Line),
      p.assignDefine targets = .ok (p', w) →
      p'.nextId = p.nextId ∧ ∀ l ∈ w, l.generated = none := by
  induction targets with
  | nil =>
    intro p p' w h
    simp only [Compiler.assignDefine, Except.ok.injEq, Prod.mk.injEq] at h
    obtain ⟨rfl, rfl⟩ := h
    simp
  | cons t targets ih =>
    intro p p' w h
    simp only [Compiler.assignDefine] at h
    split at h
    · exact ih _ _ _ h
    · split at h
      · simp at h
      · rename_i p1 h1
        split at h
        · simp at h
        · rename_i p2 w2 h2
          simp only [Except.ok.injEq, Prod.mk.injEq] at h
          obtain ⟨rfl, rfl⟩ := h
          obtain ⟨hn, hw⟩ := ih _ _ _ h2
          refine ⟨by rw [hn, (insert_nextId _ _ _ h1).1], ?_⟩
          intro l hl
          rcases List.mem_cons.1 hl with rfl | hl
          · rfl
          · exact hw l hl

theorem assignStores_silent (first : String) (targets : List Ident) :
    ∀ (p : Compiler) (values : List String) (w : List Line),
      p.assignStores first targets values = .ok w → ∀ l ∈ w, l.generated = none := by
  induction targets with
  | nil =>
    intro p values w h
    simp only [Compiler.assignStores, Except.ok.injEq] at h
    subst h
    simp
  | cons t targets ih =>
    intro p values w h
    cases values with
    | nil => simp [Compiler.assignStores] at h
    | cons v values =>
      simp only [Compiler.assignStores] at h
      split at h
      · simp at h
      · split at h
        · simp at h
        · rename_i w2 h2
          simp only [Except.ok.injEq] at h
          subst h
          intro l hl
          rcases List.mem_cons.1 hl with rfl | hl
          · rfl
          · exact ih _ _ _ h2 l hl

theorem compileStmt_assign_fresh (p p' : Compiler) (target : List Ident) (op : Token)
    (value : List Expr) (w : List Line)
    (h : p.compileStmt_assign target op value = .ok (p', w)) :
    Fresh p.nextId p'.nextId w := by
  unfold Compiler.compileStmt_assign at h
  split at h
  · simp at h
  · rename_i p1 w1 names h1
    split at h
    · simp at h
    · rename_i p2 w2 h2
      split at h
      · simp at h
      · rename_i w3 h3
        simp only [Except.ok.injEq, Prod.mk.injEq] at h
        obtain ⟨rfl, rfl⟩ := h
        have hv := assignValues_fresh _ _ _ _ _ _ h1
        have hd : p2.nextId = p1.nextId ∧ ∀ l ∈ w2, l.generated = none := by
          split at h2
          · exact assignDefine_silent _ _ _ _ h2
          · simp only [Except.ok.injEq, Prod.mk.injEq] at h2
            obtain ⟨rfl, rfl⟩ := h2
            simp
        have hs := assignStores_silent _ _ _ _ _ h3
        rw [hd.1]
        exact fresh_append (fresh_append hv (fresh_silent _ _ hd.2)) (fresh_silent _ _ hs)

theorem compileStmtList_fresh (list : List Stmt)
    (ih : ∀ s ∈ list, ∀ (p p' : Compiler) (w : List Line),
      p.compileStmt s = .ok (p', w) → Fresh p.nextId p'.nextId w) :
    ∀ (p p' : Compiler) (w : List Line),
      p.compileStmtList list = .ok (p', w) → Fresh p.nextId p'.nextId w := by
  induction list with
  | nil =>
    intro p p' w h
    simp only [Compiler.compileStmtList, Except.ok.injEq, Prod.mk.injEq] at h
    obtain ⟨rfl, rfl⟩ := h
    exact fresh_nil _
  | cons s rest ihl =>
    intro p p' w h
    simp only [Compiler.compileStmtList] at h
    split at h
    · simp at h
    · rename_i p1 w1 h1
      split at h
      · simp at h
      · rename_i p2 w2 h2
        simp only [Except.ok.injEq, Prod.mk.injEq] at h
        obtain ⟨rfl, rfl⟩ := h
        exact fresh_append (ih s (by simp) _ _ _ h1)
          (ihl (fun s2 hs2 => ih s2 (by simp [hs2])) _ _ _ h2)

theorem optStmt_fresh (s : Stmt) (p p' : Compiler) (w : List Line)
    (ih : ∀ (p p' : Compiler) (w : List Line),
      p.compileStmt s = .ok (p', w) → Fresh p.nextId p'.nextId w)
    (h : (if s.isNil then Except.ok (p, []) else p.compileStmt s) = .ok (p', w)) :
    Fresh p.nextId p'.nextId w := by
  cases hn : s.isNil with
  | true =>
    simp only [hn, if_true, Except.ok.injEq, Prod.mk.injEq] at h
    obtain ⟨rfl, rfl⟩ := h
    exact fresh_nil _
  | false =>
    simp only [hn, Bool.false_eq_true, if_false] at h
    exact ih _ _ _ h

/-- The temporaries and labels of a lowered statement were made from the counter
values between the counter before and the counter after, each value once. -/
theorem compileStmt_fresh (s : Stmt) :
    ∀ (p p' : Compiler) (w : List Line),
      p.compileStmt s = .ok (p', w) → Fresh p.nextId p'.nextId w := by
  induction s using stmt_induction with
  | hNil => intro p p' w h; simp [Compiler.compileStmt] at h
  | hOther => intro p p' w h; simp [Compiler.compileStmt] at h
  | hVarSpec spec =>
    intro p p' w h
    simp only [Compiler.compileStmt] at h
    split at h
    · simp at h
    · rename_i p1 w1 localName h1
      split at h
      · simp at h
      · rename_i p2 h2
        simp only [Except.ok.injEq, Prod.mk.injEq] at h
        obtain ⟨rfl, rfl⟩ := h
        rw [(insert_nextId _ _ _ h2).1]
        exact fresh_append (initValue_fresh _ _ _ _ _ h1)
          (fresh_silent _ _ (by simp [Line.generated, Line.defines, Line.labelName]))
  | hAssign target op value =>
    intro p p' w h
    simp only [Compiler.compileStmt] at h
    exact compileStmt_assign_fresh _ _ _ _ _ _ h
  | hExpr x =>
    intro p p' w h
    simp only [Compiler.compileStmt] at h
    split at h
    · simp at h
    · rename_i p1 w1 v h1
      simp only [Except.ok.injEq, Prod.mk.injEq] at h
      obtain ⟨rfl, rfl⟩ := h
      exact compileExpr_fresh _ _ _ _ _ h1
  | hBlock list ih =>
    intro p p' w h
    simp only [Compiler.compileStmt] at h
    split at h
    · simp at h
    · rename_i p1 w1 h1
      split at h
      · simp at h
      · rename_i p2 h2
        simp only [Except.ok.injEq, Prod.mk.injEq] at h
        obtain ⟨rfl, rfl⟩ := h
        rw [(leaveScope_nextId _ _ h2).1]
        exact compileStmtList_fresh list ih p.enterScope _ _ h1
  | hFor forPos init cond post body ihInit ihPost ihBody =>
    intro p p' w h
    obtain ⟨forInit, forCond, forBody, forEnd, pI, pC, pB, pL, pP, wI, wC, wB, wP,
      rfl, rfl, rfl, rfl, -, hI, hC, hB, hL, hP, hE, rfl⟩ :=
      compileStmt_for_inv p p' forPos init cond post body w h
    have fI : Fresh (p.nextId + 4) pI.nextId wI := by
      rcases hI with ⟨-, rfl, rfl⟩ | ⟨-, hI⟩
      · exact fresh_nil _
      · exact ihInit _ _ _ hI
    have fC : Fresh pI.nextId pC.nextId wC := by
      rcases hC with ⟨-, rfl, rfl, -⟩ | ⟨-, wc, condValue, hc, rfl⟩
      · exact fresh_silent _ _ (by simp [Line.generated, Line.defines, Line.labelName])
      · exact fresh_append (compileExpr_fresh _ _ _ _ _ hc)
          (fresh_silent _ _ (by simp [Line.generated, Line.defines, Line.labelName]))
    have fB : Fresh pC.nextId pB.nextId wB := ihBody pC.enterScope _ _ hB
    have fP : Fresh pL.nextId pP.nextId wP := by
      rcases hP with ⟨-, rfl, rfl⟩ | ⟨-, hP⟩
      · exact fresh_nil _
      · exact ihPost _ _ _ hP
    have eL := (leaveScope_nextId _ _ hL).1
    have eE := (leaveScope_nextId _ _ hE).1
    rw [eL] at fP
    rw [eE]
    have b1 := fI.1
    have b2 := fC.1
    have b3 := fB.1
    have b4 := fP.1
    refine ⟨by omega, ?_⟩
    have hnames : generatedNames
        ([Line.label ("for.init.pos" ++ toString forPos ++ "." ++ toString p.nextId)] ++ wI
          ++ [Line.br ("for.cond.pos" ++ toString forPos ++ "." ++ toString (p.nextId + 1))]
          ++ [Line.label ("for.cond.pos" ++ toString forPos ++ "." ++ toString (p.nextId + 1))]
          ++ wC
          ++ [Line.label ("for.body.pos" ++ toString forPos ++ "." ++ toString (p.nextId + 2))]
          ++ wB ++ wP
          ++ [Line.br ("for.cond.pos" ++ toString forPos ++ "." ++ toString (p.nextId + 1))]
          ++ [Line.label ("for.end.pos" ++ toString forPos ++ "." ++ toString (p.nextId + 3))])
        = ((((((["for.init.pos" ++ toString forPos ++ "." ++ toString p.nextId]
              ++ generatedNames wI)
            ++ ["for.cond.pos" ++ toString forPos ++ "." ++ toString (p.nextId + 1)])
            ++ generatedNames wC)
            ++ ["for.body.pos" ++ toString forPos ++ "." ++ toString (p.nextId + 2)])
            ++ generatedNames wB) ++ generatedNames wP)
            ++ ["for.end.pos" ++ toString forPos ++ "." ++ toString (p.nextId + 3)] := by
      simp [generatedNames, List.filterMap_append, Line.generated, Line.defines,
        Line.labelName]
    rw [hnames]
    have n1 : NamesOf (fun k => k = p.nextId)
        ["for.init.pos" ++ toString forPos ++ "." ++ toString p.nextId] :=
      namesOf_single _ _ (madeFrom_genLabelId ("for.init.pos" ++ toString forPos) _)
        (fun j => Iff.rfl)
    have n2 : NamesOf (fun k => k = p.nextId ∨ (p.nextId + 4 ≤ k ∧ k < pI.nextId)) _ :=
      namesOf_append n1 fI.2 (fun k hp hq => by omega) (fun k => Iff.rfl)
    have n3 : NamesOf (fun k => k < p.nextId + 2 ∧ p.nextId ≤ k
        ∨ (p.nextId + 4 ≤ k ∧ k < pI.nextId)) _ :=
      namesOf_append n2 (namesOf_single _ (p.nextId + 1)
        (madeFrom_genLabelId ("for.cond.pos" ++ toString forPos) _)
        (fun j => Iff.rfl)) (fun k hp hq => by omega) (fun k => by omega)
    have n4 : NamesOf (fun k => k < p.nextId + 2 ∧ p.nextId ≤ k
        ∨ (p.nextId + 4 ≤ k ∧ k < pC.nextId)) _ :=
      namesOf_append n3 fC.2 (fun k hp hq => by omega) (fun k => by omega)
    have n5 : NamesOf (fun k => k < p.nextId + 3 ∧ p.nextId ≤ k
        ∨ (p.nextId + 4 ≤ k ∧ k < pC.nextId)) _ :=
      namesOf_append n4 (namesOf_single _ (p.nextId + 2)
        (madeFrom_genLabelId ("for.body.pos" ++ toString forPos) _)
        (fun j => Iff.rfl)) (fun k hp hq => by omega) (fun k => by omega)
    have n6 : NamesOf (fun k => k < p.nextId + 3 ∧ p.nextId ≤ k
        ∨ (p.nextId + 4 ≤ k ∧ k < pB.nextId)) _ :=
      namesOf_append n5 fB.2 (fun k hp hq => by omega) (fun k => by omega)
    have n7 : NamesOf (fun k => k < p.nextId + 3 ∧ p.nextId ≤ k
        ∨ (p.nextId + 4 ≤ k ∧ k < pP.nextId)) _ :=
      namesOf_append n6 fP.2 (fun k hp hq => by omega) (fun k => by omega)
    exact namesOf_append n7 (namesOf_single _ (p.nextId + 3)
        (madeFrom_genLabelId ("for.end.pos" ++ toString forPos) _)
        (fun j => Iff.rfl)) (fun k hp hq => by omega) (fun k => by omega)

theorem compileFunc_fresh (p p' : Compiler) (file : File) (fn : Func) (w : List Line)
    (h : p.compileFunc file fn = .ok (p', w)) : Fresh p.nextId p'.nextId w := by
  unfold Compiler.compileFunc at h
  simp only at h
  split at h
  · simp at h
  · rename_i p1 h1
    have e1 := (insert_nextId _ _ _ h1).1
    split at h
    · split at h
      · simp at h
      · rename_i p2 h2
        simp only [Except.ok.injEq, Prod.mk.injEq] at h
        obtain ⟨rfl, rfl⟩ := h
        rw [(leaveScope_nextId _ _ h2).1, e1]
        exact fresh_silent _ _ (by simp [Line.generated, Line.defines, Line.labelName])
    · split at h
      · simp at h
      · rename_i p2 w2 h2
        split at h
        · simp at h
        · rename_i p3 h3
          simp only [Except.ok.injEq, Prod.mk.injEq] at h
          obtain ⟨rfl, rfl⟩ := h
          rw [(leaveScope_nextId _ _ h3).1]
          have hb := compileStmt_fresh _ _ _ _ h2
          rw [e1] at hb
          exact fresh_append
            (fresh_append
              (fresh_silent _ _ (by simp [Line.generated, Line.defines, Line.labelName])) hb)
            (fresh_silent _ _ (by simp [Line.generated, Line.defines, Line.labelName]))

theorem compileFuncs_fresh (file : File) (funcs : List Func) :
    ∀ (p p' : Compiler) (w : List Line),
      p.compileFuncs file funcs = .ok (p', w) → Fresh p.nextId p'.nextId w := by
  induction funcs with
  | nil =>
    intro p p' w h
    simp only [Compiler.compileFuncs, Except.ok.injEq, Prod.mk.injEq] at h
    obtain ⟨rfl, rfl⟩ := h
    exact fresh_nil _
  | cons fn rest ih =>
    intro p p' w h
    simp only [Compiler.compileFuncs] at h
    split at h
    · simp at h
    · rename_i p1 w1 h1
      split at h
      · simp at h
      · rename_i p2 w2 h2
        simp only [Except.ok.injEq, Prod.mk.injEq] at h
        obtain ⟨rfl, rfl⟩ := h
        exact fresh_append (compileFunc_fresh _ _ _ _ _ h1) (ih _ _ _ h2)

theorem compileGlobals_silent (file : File) (globals : List VarSpec) :
    ∀ (p p' : Compiler) (w : List Line),
      p.compileGlobals file globals = .ok (p', w) →
      p'.nextId = p.nextId ∧ ∀ l ∈ w, l.generated = none := by
  induction globals with
  | nil =>
    intro p p' w h
    simp only [Compiler.compileGlobals, Except.ok.injEq, Prod.mk.injEq] at h
    obtain ⟨rfl, rfl⟩ := h
    simp
  | cons g rest ih =>
    intro p p' w h
    simp only [Compiler.compileGlobals] at h
    split at h
    · simp at h
    · rename_i p1 h1
      split at h
      · simp at h
      · rename_i p2 w2 h2
        simp only [Except.ok.injEq, Prod.mk.injEq] at h
        obtain ⟨rfl, rfl⟩ := h
        obtain ⟨hn, hw⟩ := ih _ _ _ h2
        refine ⟨by rw [hn, (insert_nextId _ _ _ h1).1], ?_⟩
        intro l hl
        rcases List.mem_cons.1 hl with rfl | hl
        · rfl
        · exact hw l hl

theorem genInitGlobals_fresh (globals : List VarSpec) :
    ∀ (p p' : Compiler) (w : List Line),
      p.genInitGlobals globals = .ok (p', w) → Fresh p.nextId p'.nextId w := by
  induction globals with
  | nil =>
    intro p p' w h
    simp only [Compiler.genInitGlobals, Except.ok.injEq, Prod.mk.injEq] at h
    obtain ⟨rfl, rfl⟩ := h
    exact fresh_nil _
  | cons g rest ih =>
    intro p p' w h
    simp only [Compiler.genInitGlobals] at h
    split at h
    · simp at h
    · rename_i p1 w1 localName h1
      split at h
      · simp at h
      · split at h
        · simp at h
        · rename_i p2 w2 h2
          simp only [Except.ok.injEq, Prod.mk.injEq] at h
          obtain ⟨rfl, rfl⟩ := h
          exact fresh_append
            (fresh_append (initValue_fresh _ _ _ _ _ h1)
              (fresh_silent _ _ (by simp [Line.generated, Line.defines, Line.labelName])))
            (ih _ _ _ h2)

theorem compileFile_fresh (p p' : Compiler) (file : File) (w : List Line)
    (h : p.compileFile file = .ok (p', w)) : Fresh p.nextId p'.nextId w := by
  unfold Compiler.compileFile at h
  split at h
  · simp at h
  · rename_i p1 w1 h1
    split at h
    · simp at h
    · rename_i p2 w2 h2
      split at h
      · simp at h
      · rename_i p3 w3 h3
        split at h
        · simp at h
        · rename_i p4 h4
          simp only [Except.ok.injEq, Prod.mk.injEq] at h
          obtain ⟨rfl, rfl⟩ := h
          obtain ⟨e1, s1⟩ := compileGlobals_silent _ _ _ _ _ h1
          have f2 := compileFuncs_fresh _ _ _ _ _ h2
          have f3 : Fresh p2.nextId p3.nextId w3 := by
            unfold Compiler.genInit at h3
            split at h3
            · simp at h3
            · rename_i q wq hq
              simp only [Except.ok.injEq, Prod.mk.injEq] at h3
              obtain ⟨rfl, rfl⟩ := h3
              exact fresh_append
                (fresh_append
                  (fresh_silent _ _ (by simp [Line.generated, Line.defines, Line.labelName]))
                  (genInitGlobals_fresh _ _ _ _ hq))
                (fresh_silent _ _ (by simp [Line.generated, Line.defines, Line.labelName]))
          rw [(leaveScope_nextId _ _ h4).1]
          rw [e1] at f2
          have fb : Fresh p.nextId p.nextId
              (w1 ++ (if file.Globals.length ≠ 0 then [Line.blank] else [])) := by
            apply fresh_silent
            intro l hl
            rcases List.mem_append.1 hl with hl | hl
            · exact s1 l hl
            · split at hl
              · simp only [List.mem_singleton] at hl
                subst hl
                rfl
              · simp at hl
          exact fresh_append (fresh_append fb f2) f3

theorem compileBuf_fresh (builtin : Builtin) (p p' : Compiler) (file : File)
    (buf : List Line) (h : Compiler.compileBuf builtin p file = .ok (p', buf)) :
    Fresh p.nextId p'.nextId buf := by
  unfold Compiler.compileBuf at h
  split at h
  · simp at h
  · rename_i p1 w1 h1
    simp only [Except.ok.injEq, Prod.mk.injEq] at h
    obtain ⟨rfl, rfl⟩ := h
    have f1 := compileFile_fresh _ _ _ _ h1
    have fh : Fresh p.nextId p.nextId (Compiler.genHeader builtin file) :=
      fresh_silent _ _ (by simp [Compiler.genHeader, Line.generated, Line.defines,
        Line.labelName])
    have fm : Fresh p1.nextId p1.nextId (Compiler.genMain builtin file) := by
      apply fresh_silent
      intro l hl
      unfold Compiler.genMain at hl
      split at hl
      · simp at hl
      · split at hl
        · simp only [List.mem_singleton] at hl
          subst hl
          rfl
        · simp at hl
    exact fresh_append (fresh_append fh f1) fm

theorem definedTemporaries_sublist (w : List Line) :
    List.Sublist (definedTemporaries w) (generatedNames w) := by
  induction w with
  | nil => exact List.Sublist.slnil
  | cons l w ih =>
    cases hd : l.defines with
    | none =>
      cases hg : l.generated with
      | none => simpa [definedTemporaries, generatedNames, hd, hg] using ih
      | some name =>
        simp only [definedTemporaries, generatedNames, List.filterMap_cons, hd, hg]
        exact List.Sublist.cons _ ih
    | some name =>
      have hg : l.generated = some name := by simp [Line.generated, hd]
      simp only [definedTemporaries, generatedNames, List.filterMap_cons, hd, hg]
      exact List.Sublist.cons₂ _ ih

theorem emittedLabels_sublist (w : List Line) :
    List.Sublist (emittedLabels w) (generatedNames w) := by
  induction w with
  | nil => exact List.Sublist.slnil
  | cons l w ih =>
    cases hd : l.defines with
    | none =>
      have hg : l.generated = l.labelName := by simp [Line.generated, hd]
      cases hl : l.labelName with
      | none =>
        rw [hl] at hg
        simpa [emittedLabels, generatedNames, hl, hg] using ih
      | some name =>
        rw [hl] at hg
        simp only [emittedLabels, generatedNames, List.filterMap_cons, hl, hg]
        exact List.Sublist.cons₂ _ ih
    | some name =>
      have hg : l.generated = some name := by simp [Line.generated, hd]
      have hl : l.labelName = none := (defines_excludes l (by simp [hd])).2.2.1
      simp only [emittedLabels, generatedNames, List.filterMap_cons, hl, hg]
      exact List.Sublist.cons _ ih

/-! ## Claims about the counter -/

theorem intIncrement_of_lt (k : Nat) (h : k < maxInt) :
    intIncrement (k : Int) = ((k + 1 : Nat) : Int) := by
  unfold maxInt at h
  unfold intIncrement
  push_cast
  omega

/-- C5: temporaries and labels are unique across a whole compilation, as long as
the counter does not leave the range of a Go `int`.  While the counter is below
`maxInt`, each call of `genId` and of `genLabelId` raises it by one, and this is
what `p.nextId++` computes.  When `Compile` lowers a file without failure and
the counter afterwards is at most `maxInt`, then no increment of the compilation
has wrapped and the counter has not gone down; the temporaries defined and the
labels emitted by the written lines were made from the counter values between
the counter before and the counter after, each value for exactly one name; so
no two lines define the same temporary, no two labels are equal, and no
temporary equals a label. -/
theorem C5_generated_names_unique (builtin : Builtin) (p p' : Compiler) (file : File)
    (buf : List Line) (h : Compiler.compileBuf builtin p file = .ok (p', buf))
    (hbound : p'.nextId ≤ maxInt) :
    (∀ (q : Compiler) (name : String), q.nextId < maxInt →
        q.genId.1.nextId = q.nextId + 1 ∧ (q.genLabelId name).1.nextId = q.nextId + 1
        ∧ intIncrement (q.nextId : Int) = (q.genId.1.nextId : Int)
        ∧ intIncrement (q.nextId : Int) = ((q.genLabelId name).1.nextId : Int)
        ∧ MadeFrom q.genId.2 q.nextId ∧ MadeFrom (q.genLabelId name).2 q.nextId)
    ∧ Compiler.Compile builtin p file = .ok (p', bufString buf)
    ∧ p.nextId ≤ p'.nextId
    ∧ (∀ k : Nat, p.nextId ≤ k → k < p'.nextId →
        intIncrement (k : Int) = ((k + 1 : Nat) : Int))
    ∧ (∃ ids : List Nat, List.Forall₂ MadeFrom (generatedNames buf) ids ∧ ids.Nodup
        ∧ ∀ k, k ∈ ids ↔ p.nextId ≤ k ∧ k < p'.nextId)
    ∧ (generatedNames buf).Nodup
    ∧ (definedTemporaries buf).Nodup
    ∧ (emittedLabels buf).Nodup := by
  have hf := compileBuf_fresh builtin p p' file buf h
  refine ⟨fun q name hq => ⟨rfl, rfl, intIncrement_of_lt _ hq, intIncrement_of_lt _ hq,
      madeFrom_genId _, madeFrom_genLabelId _ _⟩, ?_, hf.1,
    fun k _ hk => intIncrement_of_lt k (by omega),
    hf.2, fresh_nodup hf, (fresh_nodup hf).sublist (definedTemporaries_sublist buf),
    (fresh_nodup hf).sublist (emittedLabels_sublist buf)⟩
  simp [Compiler.Compile, h]

/-- C5 at the file whose function `main` holds the loop
`for i := 0; i < 3; i = i + 1 {}`, compiled by a fresh `Compiler`: the counter
goes from 0 to 11, within the range of a Go `int`, and the seven temporaries and
four labels are all different. -/
theorem C5_generated_names_unique_witness :
    Compiler.compileBuf ⟨"", ""⟩ (NewCompiler emptyUniverse) loopFile
      = .ok ({ file := some loopFile, scope := NewScope emptyUniverse, nextId := 11 },
          [Line.package "main", Line.raw "", Line.blank, Line.define "main" "main"]
          ++ loopLines
          ++ [Line.ret, Line.close, Line.defineInit "main", Line.ret, Line.close,
              Line.raw ""])
    ∧ 11 ≤ maxInt
    ∧ (generatedNames
          ([Line.package "main", Line.raw "", Line.blank, Line.define "main" "main"]
          ++ loopLines
          ++ [Line.ret, Line.close, Line.defineInit "main", Line.ret, Line.close,
              Line.raw ""])).Nodup
    ∧ generatedNames
          ([Line.package "main", Line.raw "", Line.blank, Line.define "main" "main"]
          ++ loopLines
          ++ [Line.ret, Line.close, Line.defineInit "main", Line.ret, Line.close,
              Line.raw ""])
        = ["for.init.pos20.0", "%t4", "for.cond.pos20.1", "%t6", "%t7", "%t5",
           "for.body.pos20.2", "%t9", "%t10", "%t8", "for.end.pos20.3"] :=
  ⟨rfl, by decide,
   (C5_generated_names_unique ⟨"", ""⟩ (NewCompiler emptyUniverse)
      { file := some loopFile, scope := NewScope emptyUniverse, nextId := 11 } loopFile
      _ rfl (by decide)).2.2.2.2.2.1,
   rfl⟩

/-! ## Unresolved identifier references -/

theorem exprReaches_fails (p q : Compiler) (e : Expr) (n : String)
    (hr : ExprReaches p e q n) (hq : q.scope.Lookup n = none) :
    p.compileExpr e = .error (.varUndefined n) := by
  induction hr with
  | ident p x => simp [Compiler.compileExpr, hq]
  | binaryX p q op x y n mnemonic hop _ ih =>
    simp [Compiler.compileExpr, hop, ih hq]
  | binaryY p p2 q op x y n mnemonic wx vx hop hx _ ih =>
    simp [Compiler.compileExpr, hop, hx, ih hq]
  | unaryNeg p q x n _ ih =>
    simp [Compiler.compileExpr, ih hq]
  | unaryOther p q op x n hop _ ih =>
    simp [Compiler.compileExpr, hop, ih hq]
  | paren p q x n _ ih =>
    simp [Compiler.compileExpr, ih hq]
  | callArg p q fn arg rest n found hf _ ih =>
    simp [Compiler.compileExpr, hf, ih hq]

theorem assignValues_append_fails (tpre : List Ident) :
    ∀ (vpre : List Expr) (p p1 : Compiler) (w1 : List Line) (names : List String)
      (t : Ident) (tpost : List Ident) (v : Expr) (vpost : List Expr) (err : Panic),
      tpre.length = vpre.length →
      p.assignValues tpre vpre = .ok (p1, w1, names) →
      p1.compileExpr v = .error err →
      p.assignValues (tpre ++ t :: tpost) (vpre ++ v :: vpost) = .error err := by
  induction tpre with
  | nil =>
    intro vpre p p1 w1 names t tpost v vpost err hlen h hv
    cases vpre with
    | nil =>
      simp only [Compiler.assignValues, Except.ok.injEq, Prod.mk.injEq] at h
      obtain ⟨rfl, -, -⟩ := h
      simp [Compiler.assignValues, hv]
    | cons a vpre => simp at hlen
  | cons t0 tpre ih =>
    intro vpre p p1 w1 names t tpost v vpost err hlen h hv
    cases vpre with
    | nil => simp at hlen
    | cons v0 vpre =>
      simp only [Compiler.assignValues] at h
      split at h
      · simp at h
      · rename_i pa wa na ha
        split at h
        · simp at h
        · rename_i pb wb nb hb
          simp only [Except.ok.injEq, Prod.mk.injEq] at h
          obtain ⟨rfl, -, -⟩ := h
          have := ih vpre pa _ wb nb t tpost v vpost err (by simpa using hlen) hb hv
          simp [Compiler.assignValues, ha, this]

theorem compileStmtList_append_fails (pre : List Stmt) :
    ∀ (p p1 : Compiler) (w1 : List Line) (s : Stmt) (post : List Stmt) (err : Panic),
      p.compileStmtList pre = .ok (p1, w1) →
      p1.compileStmt s = .error err →
      p.compileStmtList (pre ++ s :: post) = .error err := by
  induction pre with
  | nil =>
    intro p p1 w1 s post err h hs
    simp only [Compiler.compileStmtList, Except.ok.injEq, Prod.mk.injEq] at h
    obtain ⟨rfl, -⟩ := h
    simp [Compiler.compileStmtList, hs]
  | cons s0 pre ih =>
    intro p p1 w1 s post err h hs
    simp only [Compiler.compileStmtList] at h
    split at h
    · simp at h
    · rename_i pa wa ha
      split at h
      · simp at h
      · rename_i pb wb hb
        simp only [Except.ok.injEq, Prod.mk.injEq] at h
        obtain ⟨rfl, -⟩ := h
        have := ih pa _ wb s post err hb hs
        simp [Compiler.compileStmtList, ha, this]

theorem forStart_eq (p : Compiler) (forPos : Int) :
    ((((p.enterScope.genLabelId ("for.init.pos" ++ toString forPos)).1.genLabelId
        ("for.cond.pos" ++ toString forPos)).1.genLabelId
        ("for.body.pos" ++ toString forPos)).1.genLabelId
        ("for.end.pos" ++ toString forPos)).1 = p.forStart := rfl

theorem stmtReaches_fails (p q : Compiler) (s : Stmt) (n : String)
    (hr : StmtReaches p s q n) (hq : q.scope.Lookup n = none) :
    p.compileStmt s = .error (.varUndefined n) := by
  induction hr with
  | exprStmt p q x n hx =>
    simp [Compiler.compileStmt, exprReaches_fails _ _ _ _ hx hq]
  | varSpec p q spec n hnil hx =>
    simp [Compiler.compileStmt, hnil, exprReaches_fails _ _ _ _ hx hq]
  | assignValue p p1 q op tpre tpost t vpre vpost v n w1 names hlen hpre hx =>
    have := assignValues_append_fails tpre vpre p p1 w1 names t tpost v vpost _ hlen hpre
      (exprReaches_fails _ _ _ _ hx hq)
    simp [Compiler.compileStmt, Compiler.compileStmt_assign, this]
  | forInit p q forPos init cond post body n hnil _ ih =>
    simp only [Compiler.compileStmt, forStart_eq]
    simp [hnil, ih hq]
  | forCond p pI q forPos init cond post body n wI hI hnil hx =>
    simp only [Compiler.compileStmt, forStart_eq]
    simp [hI, hnil, exprReaches_fails _ _ _ _ hx hq]
  | forBody p pI pC q forPos init cond post body n wI hI hC _ ih =>
    simp only [Compiler.compileStmt, forStart_eq]
    rcases hC with ⟨hnil, rfl⟩ | ⟨hnil, wc, v, hc⟩
    · simp [hI, hnil, ih hq]
    · simp [hI, hnil, hc, ih hq]
  | forPost p pI pC pB pL q forPos init cond post body n wI wB hI hC hB hL hnil _ ih =>
    simp only [Compiler.compileStmt, forStart_eq]
    rcases hC with ⟨hcn, rfl⟩ | ⟨hcn, wc, v, hc⟩
    · simp [hI, hcn, hB, hL, hnil, ih hq]
    · simp [hI, hcn, hc, hB, hL, hnil, ih hq]
  | block p p1 q pre post s n w1 hpre _ ih =>
    have := compileStmtList_append_fails pre p.enterScope p1 w1 s post _ hpre (ih hq)
    simp [Compiler.compileStmt, this]

theorem compileFuncs_append_fails (file : File) (pre : List Func) :
    ∀ (p p1 : Compiler) (w1 : List Line) (fn : Func) (post : List Func) (err : Panic),
      p.compileFuncs file pre = .ok (p1, w1) →
      p1.compileFunc file fn = .error err →
      p.compileFuncs file (pre ++ fn :: post) = .error err := by
  induction pre with
  | nil =>
    intro p p1 w1 fn post err h hs
    simp only [Compiler.compileFuncs, Except.ok.injEq, Prod.mk.injEq] at h
    obtain ⟨rfl, -⟩ := h
    simp [Compiler.compileFuncs, hs]
  | cons f0 pre ih =>
    intro p p1 w1 fn post err h hs
    simp only [Compiler.compileFuncs] at h
    split at h
    · simp at h
    · rename_i pa wa ha
      split at h
      · simp at h
      · rename_i pb wb hb
        simp only [Except.ok.injEq, Prod.mk.injEq] at h
        obtain ⟨rfl, -⟩ := h
        have := ih pa _ wb fn post err hb hs
        simp [Compiler.compileFuncs, ha, this]

theorem genInitGlobals_append_fails (pre : List VarSpec) :
    ∀ (p p1 : Compiler) (w1 : List Line) (g : VarSpec) (post : List VarSpec) (err : Panic),
      p.genInitGlobals pre = .ok (p1, w1) →
      g.Value.isNil = false →
      p1.compileExpr g.Value = .error err →
      p.genInitGlobals (pre ++ g :: post) = .error err := by
  induction pre with
  | nil =>
    intro p p1 w1 g post err h hnil hs
    simp only [Compiler.genInitGlobals, Except.ok.injEq, Prod.mk.injEq] at h
    obtain ⟨rfl, -⟩ := h
    simp [Compiler.genInitGlobals, hnil, hs]
  | cons g0 pre ih =>
    intro p p1 w1 g post err h hnil hs
    simp only [Compiler.genInitGlobals] at h
    split at h
    · simp at h
    · rename_i pa wa la ha
      split at h
      · simp at h
      · rename_i fr obj hl
        split at h
        · simp at h
        · rename_i pb wb hb
          simp only [Except.ok.injEq, Prod.mk.injEq] at h
          obtain ⟨rfl, -⟩ := h
          have := ih pa _ wb g post err hb hnil hs
          simp [Compiler.genInitGlobals, ha, hl, this]

/-! ## Claims about unresolved names -/

/-- C3 (as stated, refuted): in this file the body of `main` is the expression
statement `zz % 1`, and `zz` is bound in no frame.  `Compile` stops with the
panic for an unknown construct, raised for the operator before any operand is
lowered, and not with an undefined-name error. -/
theorem C3_unknown_operator_hides_undefined_name :
    Compiler.Compile ⟨"", ""⟩ (NewCompiler (.mk .nil []))
      { Pkg := ⟨"main"⟩, Globals := [],
        Funcs := [⟨"main", .BlockStmt
          [.ExprStmt (.BinaryExpr .MOD (.Ident ⟨0, "zz"⟩) (.Number 1))]⟩] }
      = .error .unknown
    ∧ Panic.message .unknown = none
    ∧ (Scope.mk (NewScope (NewCompiler (.mk .nil [])).scope)
        [("main", { Name := "main", MangledName := "@ugo_main_main",
                    Node := .Func ⟨"main", .BlockStmt
          [.ExprStmt (.BinaryExpr .MOD (.Ident ⟨0, "zz"⟩) (.Number 1))]⟩ })]).Lookup "zz"
        = none := by
  exact ⟨rfl, rfl, rfl⟩

/-- C3 (amended): for every file and every state of the `Compiler` (a fresh one
in particular): if the lowering comes to an identifier reference, in a statement
of a function body or in the initializer of a global, everything lowered before
it having succeeded, and the name is bound in no frame of the scope chain at
that point, then `Compile` stops with the panic `var <name> undefined` and
returns no text. -/
theorem C3_undefined_name_stops_compile (builtin : Builtin) (p q : Compiler) (file : File)
    (n : String) (hr : FileReaches p file q n) (hq : q.scope.Lookup n = none) :
    Compiler.Compile builtin p file = .error (.varUndefined n)
    ∧ Panic.message (.varUndefined n) = some ("var " ++ n ++ " undefined") := by
  refine ⟨?_, rfl⟩
  match hr with
  | .funcBody p1 p2 p3 _ pre post fn _ w1 w2 hfuncs hg hpre hins hnil hbody =>
    have hf : p2.compileFunc file fn = .error (.varUndefined n) := by
      simp [Compiler.compileFunc, hins, hnil, stmtReaches_fails _ _ _ _ hbody hq]
    have := compileFuncs_append_fails file pre p1 p2 w2 fn post _ hpre hf
    simp [Compiler.Compile, Compiler.compileBuf, Compiler.compileFile, hg, hfuncs, this]
  | .globalInit p1 p2 p3 _ pre post g _ w1 w2 w3 hglobals hg hfuncs hpre hnil hx =>
    have hv := exprReaches_fails _ _ _ _ hx hq
    have h1 := genInitGlobals_append_fails pre p2 p3 w3 g post _ hpre hnil hv
    rw [← hglobals] at h1
    simp [Compiler.Compile, Compiler.compileBuf, Compiler.compileFile, hg, hfuncs,
      Compiler.genInit, h1]

/-- C3 (amended) at the file whose function `main` is `{ var x = 1; zz }`: the
lowering comes to the reference to `zz` after the `var` statement has been
lowered, no frame binds `zz` there, and `Compile` stops with `var zz undefined`. -/
theorem C3_undefined_name_stops_compile_witness :
    FileReaches (NewCompiler emptyUniverse) undefinedFile undefinedState "zz"
    ∧ undefinedState.scope.Lookup "zz" = none
    ∧ Compiler.Compile ⟨"", ""⟩ (NewCompiler emptyUniverse) undefinedFile
        = .error (.varUndefined "zz")
    ∧ Panic.message (.varUndefined "zz") = some "var zz undefined" :=
  have hr : FileReaches (NewCompiler emptyUniverse) undefinedFile undefinedState "zz" :=
    FileReaches.funcBody
      { file := some undefinedFile, scope := .mk (.mk emptyUniverse []) [], nextId := 0 }
      { file := some undefinedFile, scope := .mk (.mk emptyUniverse []) [], nextId := 0 }
      { file := some undefinedFile,
        scope := .mk (.mk (.mk emptyUniverse []) [])
          [("main", { Name := "main", MangledName := "@ugo_main_main",
                      Node := .Func undefinedFunc })],
        nextId := 0 }
      undefinedState [] [] undefinedFunc "zz" [] [] rfl rfl rfl rfl rfl
      (StmtReaches.block _ undefinedState undefinedState
        [.VarSpec ⟨5, ⟨6, "x"⟩, .Number 1⟩] [] (.ExprStmt (.Ident ⟨9, "zz"⟩)) "zz"
        [Line.binop "%t0" "add" "0" "1", Line.alloca "%local_x.pos.5",
         Line.store "%t0" "%local_x.pos.5"] rfl
        (StmtReaches.exprStmt _ _ _ _ (ExprReaches.ident undefinedState ⟨9, "zz"⟩)))
  have h := C3_undefined_name_stops_compile ⟨"", ""⟩ (NewCompiler emptyUniverse)
    undefinedState undefinedFile "zz" hr rfl
  ⟨hr, rfl, h.1, rfl⟩

/-! ## Plain assignment -/

theorem assignValues_eq_lowerValues (targets : List Ident) :
    ∀ (values : List Expr) (p : Compiler), targets.length = values.length →
      p.assignValues targets values = p.lowerValues values := by
  induction targets with
  | nil =>
    intro values p h
    cases values with
    | nil => rfl
    | cons v values => simp at h
  | cons t targets ih =>
    intro values p h
    cases values with
    | nil => simp at h
    | cons v values =>
      simp only [Compiler.assignValues, Compiler.lowerValues]
      cases hv : p.compileExpr v with
      | error e => rfl
      | ok r =>
        obtain ⟨p1, w1, name⟩ := r
        simp only
        rw [ih values p1 (by simpa using h)]

/-- Lowering a list of values leaves the scope as it was, writes no store and no
`alloca`, and returns one reference per value. -/
theorem lowerValues_frame (values : List Expr) :
    ∀ (p p' : Compiler) (w : List Line) (names : List String),
      p.lowerValues values = .ok (p', w, names) →
      p'.scope = p.scope ∧ names.length = values.length
      ∧ (∀ l ∈ w, l.defines ≠ none) := by
  induction values with
  | nil =>
    intro p p' w names h
    simp only [Compiler.lowerValues, Except.ok.injEq, Prod.mk.injEq] at h
    obtain ⟨rfl, rfl, rfl⟩ := h
    simp
  | cons v values ih =>
    intro p p' w names h
    simp only [Compiler.lowerValues] at h
    split at h
    · simp at h
    · rename_i p1 w1 name h1
      split at h
      · simp at h
      · rename_i p2 w2 names2 h2
        simp only [Except.ok.injEq, Prod.mk.injEq] at h
        obtain ⟨rfl, rfl, rfl⟩ := h
        obtain ⟨a1, -, -, a4⟩ := compileExpr_frame v _ _ _ _ h1
        obtain ⟨b1, b2, b3⟩ := ih _ _ _ _ h2
        refine ⟨by rw [b1, a1], by simp [b2], ?_⟩
        intro l hl
        rcases List.mem_append.1 hl with hl | hl
        · exact a4 l hl
        · exact b3 l hl

theorem assignStores_eq_storeLines (first : String) (targets : List Ident) :
    ∀ (p : Compiler) (names : List String), names.length = targets.length →
      (∀ t ∈ targets, p.resolves t.Name = true) →
      p.assignStores first targets names = .ok (p.storeLines names targets) := by
  induction targets with
  | nil =>
    intro p names hlen hres
    simp [Compiler.assignStores, Compiler.storeLines]
  | cons t targets ih =>
    intro p names hlen hres
    cases names with
    | nil => simp at hlen
    | cons name names =>
      have ht := hres t (by simp)
      simp only [Compiler.resolves, Option.isSome_iff_exists] at ht
      obtain ⟨⟨fr, obj⟩, hl⟩ := ht
      have := ih p names (by simpa using hlen) (fun t2 h2 => hres t2 (by simp [h2]))
      simp [Compiler.assignStores, hl, this, Compiler.storeLines, Compiler.slotName]

/-- C11: for every plain assignment with n targets and n value expressions, from
a state in which all targets resolve and the values lower without failure: the
lines are the lowering of value 1, ..., value n in that order, followed by
exactly n store lines, the i-th storing the reference of the i-th value into
the slot that the i-th target resolves to; the lines of the values hold no
store, so no store comes before the last value has been lowered. -/
theorem C11_plain_assignment_values_then_stores (p p1 : Compiler) (op : Token)
    (targets : List Ident) (values : List Expr) (w1 : List Line) (names : List String)
    (hop : op ≠ .DEFINE) (hlen : targets.length = values.length)
    (hres : ∀ t ∈ targets, p.resolves t.Name = true)
    (hvals : p.lowerValues values = .ok (p1, w1, names)) :
    p.compileStmt (.AssignStmt targets op values)
        = .ok (p1, w1 ++ p.storeLines names targets)
    ∧ storedSlots w1 = []
    ∧ (p.storeLines names targets).length = targets.length
    ∧ storedSlots (p.storeLines names targets) = targets.map (fun t => p.slotName t.Name)
    ∧ (∀ l ∈ p.storeLines names targets, l.isStore = true) := by
  obtain ⟨hs, hn, hd⟩ := lowerValues_frame values p p1 w1 names hvals
  have hnl : names.length = targets.length := by rw [hn, hlen]
  have hres1 : ∀ t ∈ targets, p1.resolves t.Name = true := by
    intro t ht
    simpa [Compiler.resolves, hs] using hres t ht
  have hst := assignStores_eq_storeLines
    ((targets.head?.map (fun t => t.Name)).getD "") targets p1 names hnl hres1
  have hsl : p1.storeLines names targets = p.storeLines names targets := by
    simp [Compiler.storeLines, Compiler.slotName, hs]
  refine ⟨?_, ?_, ?_, ?_, ?_⟩
  · simp [Compiler.compileStmt, Compiler.compileStmt_assign,
      assignValues_eq_lowerValues targets values p hlen, hvals, hop, hst, hsl]
  · exact filterMap_eq_nil_of_forall _ _ (fun l hl => (defines_excludes l (hd l hl)).2.1)
  · simp [Compiler.storeLines, hnl]
  · clear hst hsl hres1 hvals hd hn hres hlen
    induction targets generalizing names with
    | nil => simp [Compiler.storeLines, storedSlots]
    | cons t targets ih =>
      cases names with
      | nil => simp at hnl
      | cons name names =>
        have := ih names (by simpa using hnl)
        simp only [Compiler.storeLines, storedSlots] at this ⊢
        simp [Line.storesTo, this]
  · intro l hl
    simp only [Compiler.storeLines, List.mem_iff_get, List.get_eq_getElem,
      List.getElem_zipWith] at hl
    obtain ⟨i, rfl⟩ := hl
    rfl

/-! ## The scope chain during lowering -/

theorem extends_refl (s : Scope) : Scope.Extends s s := by
  cases s with
  | nil => trivial
  | mk outer objs => exact ⟨rfl, [], rfl⟩

theorem extends_trans {s3 s2 s1 : Scope} (h32 : Scope.Extends s3 s2)
    (h21 : Scope.Extends s2 s1) : Scope.Extends s3 s1 := by
  cases s1 <;> cases s2 <;> cases s3 <;> simp only [Scope.Extends] at h32 h21 ⊢
  obtain ⟨rfl, a, rfl⟩ := h32
  obtain ⟨rfl, b, rfl⟩ := h21
  exact ⟨rfl, a ++ b, by simp⟩

theorem extends_depth {s2 s1 : Scope} (h : Scope.Extends s2 s1) : s2.depth = s1.depth := by
  cases s1 <;> cases s2 <;> simp only [Scope.Extends] at h
  · rfl
  · obtain ⟨rfl, -⟩ := h
    rfl

theorem extends_outer {s2 s1 : Scope} (h : Scope.Extends s2 s1) : s2.Outer = s1.Outer := by
  cases s1 <;> cases s2 <;> simp only [Scope.Extends] at h
  · rfl
  · obtain ⟨rfl, -⟩ := h
    rfl

theorem insert_extends (p p' : Compiler) (obj : Object) (h : p.insert obj = .ok p') :
    Scope.Extends p'.scope p.scope := by
  unfold Compiler.insert at h
  split at h
  · simp at h
  · rename_i s alt hs
    simp only [Except.ok.injEq] at h
    subst h
    unfold Scope.Insert at hs
    split at hs
    · simp at hs
    · rename_i outer objs hsc
      rw [hsc]
      split at hs
      · simp only [Except.ok.injEq, Prod.mk.injEq] at hs
        rw [← hs.1]
        exact extends_refl _
      · simp only [Except.ok.injEq, Prod.mk.injEq] at hs
        rw [← hs.1]
        exact ⟨rfl, [(obj.Name, obj)], rfl⟩

/-- Leaving a frame that extends the frame entered from `s` gives `s` back. -/
theorem leaveScope_of_extends (q q' : Compiler) (s : Scope)
    (he : Scope.Extends q.scope (NewScope s)) (h : q.leaveScope = .ok q') :
    q'.scope = s := by
  unfold Compiler.leaveScope at h
  generalize hq : q.scope = qs at he h
  cases qs with
  | nil => simp [Scope.Extends, NewScope] at he
  | mk outer objs =>
    simp only [Scope.Extends, NewScope] at he
    simp only [Scope.Outer, Except.ok.injEq] at h
    subst h
    exact he.1

theorem assignValues_scope (targets : List Ident) :
    ∀ (values : List Expr) (p p' : Compiler) (w : List Line) (names : List String),
      p.assignValues targets values = .ok (p', w, names) → p'.scope = p.scope := by
  induction targets with
  | nil =>
    intro values p p' w names h
    simp only [Compiler.assignValues, Except.ok.injEq, Prod.mk.injEq] at h
    rw [← h.1]
  | cons t targets ih =>
    intro values p p' w names h
    cases values with
    | nil => simp [Compiler.assignValues] at h
    | cons v values =>
      simp only [Compiler.assignValues] at h
      split at h
      · simp at h
      · rename_i p1 w1 name h1
        split at h
        · simp at h
        · rename_i p2 w2 names2 h2
          simp only [Except.ok.injEq, Prod.mk.injEq] at h
          obtain ⟨rfl, -, -⟩ := h
          rw [ih _ _ _ _ _ h2, (compileExpr_frame v _ _ _ _ h1).1]

theorem assignDefine_extends (targets : List Ident) :
    ∀ (p p' : Compiler) (w : List Line),
      p.assignDefine targets = .ok (p', w) → Scope.Extends p'.scope p.scope := by
  induction targets with
  | nil =>
    intro p p' w h
    simp only [Compiler.assignDefine, Except.ok.injEq, Prod.mk.injEq] at h
    rw [← h.1]
    exact extends_refl _
  | cons t targets ih =>
    intro p p' w h
    simp only [Compiler.assignDefine] at h
    split at h
    · exact ih _ _ _ h
    · split at h
      · simp at h
      · rename_i p1 h1
        split at h
        · simp at h
        · rename_i p2 w2 h2
          simp only [Except.ok.injEq, Prod.mk.injEq] at h
          obtain ⟨rfl, -⟩ := h
          exact extends_trans (ih _ _ _ h2) (insert_extends _ _ _ h1)

theorem compileStmt_assign_extends (p p' : Compiler) (target : List Ident) (op : Token)
    (value : List Expr) (w : List Line)
    (h : p.compileStmt_assign target op value = .ok (p', w)) :
    Scope.Extends p'.scope p.scope ∧ (op ≠ .DEFINE → p'.scope = p.scope) := by
  unfold Compiler.compileStmt_assign at h
  split at h
  · simp at h
  · rename_i p1 w1 names h1
    have hs1 := assignValues_scope _ _ _ _ _ _ h1
    split at h
    · simp at h
    · rename_i p2 w2 h2
      split at h
      · simp at h
      · rename_i w3 h3
        simp only [Except.ok.injEq, Prod.mk.injEq] at h
        obtain ⟨rfl, -⟩ := h
        constructor
        · split at h2
          · rw [← hs1]
            exact assignDefine_extends _ _ _ _ h2
          · simp only [Except.ok.injEq, Prod.mk.injEq] at h2
            rw [← h2.1, hs1]
            exact extends_refl _
        · intro hop
          simp only [hop, if_false, Except.ok.injEq, Prod.mk.injEq] at h2
          rw [← h2.1, hs1]

theorem compileStmtList_extends (list : List Stmt)
    (ih : ∀ s ∈ list, ∀ (p p' : Compiler) (w : List Line),
      p.compileStmt s = .ok (p', w) → Scope.Extends p'.scope p.scope) :
    ∀ (p p' : Compiler) (w : List Line),
      p.compileStmtList list = .ok (p', w) → Scope.Extends p'.scope p.scope := by
  induction list with
  | nil =>
    intro p p' w h
    simp only [Compiler.compileStmtList, Except.ok.injEq, Prod.mk.injEq] at h
    rw [← h.1]
    exact extends_refl _
  | cons s rest ihl =>
    intro p p' w h
    simp only [Compiler.compileStmtList] at h
    split at h
    · simp at h
    · rename_i p1 w1 h1
      split at h
      · simp at h
      · rename_i p2 w2 h2
        simp only [Except.ok.injEq, Prod.mk.injEq] at h
        obtain ⟨rfl, -⟩ := h
        exact extends_trans (ihl (fun s2 hs2 => ih s2 (by simp [hs2])) _ _ _ h2)
          (ih s (by simp) _ _ _ h1)

/-- A `for` statement lowered without failure leaves the scope as it was. -/
theorem forStmt_scope (p p' : Compiler) (forPos : Int) (init : Stmt) (cond : Expr)
    (post body : Stmt) (w : List Line)
    (ihInit : ∀ (p p' : Compiler) (w : List Line),
      p.compileStmt init = .ok (p', w) → Scope.Extends p'.scope p.scope)
    (ihPost : ∀ (p p' : Compiler) (w : List Line),
      p.compileStmt post = .ok (p', w) → Scope.Extends p'.scope p.scope)
    (ihBody : ∀ (p p' : Compiler) (w : List Line),
      p.compileStmt body = .ok (p', w) → Scope.Extends p'.scope p.scope)
    (h : p.compileStmt (.ForStmt forPos init cond post body) = .ok (p', w)) :
    p'.scope = p.scope := by
  obtain ⟨forInit, forCond, forBody, forEnd, pI, pC, pB, pL, pP, wI, wC, wB, wP,
    -, -, -, -, -, hI, hC, hB, hL, hP, hE, -⟩ :=
    compileStmt_for_inv p p' forPos init cond post body w h
  have eI : Scope.Extends pI.scope (NewScope p.scope) := by
    rcases hI with ⟨-, -, rfl⟩ | ⟨-, hI⟩
    · exact extends_refl _
    · exact ihInit _ _ _ hI
  have eC : pC.scope = pI.scope := by
    rcases hC with ⟨-, rfl, -, -⟩ | ⟨-, wc, condValue, hc, -⟩
    · rfl
    · exact (compileExpr_frame _ _ _ _ _ hc).1
  have eB : Scope.Extends pB.scope (NewScope pC.scope) := ihBody pC.enterScope _ _ hB
  have eL : pL.scope = pC.scope := leaveScope_of_extends _ _ _ eB hL
  have eP : Scope.Extends pP.scope pL.scope := by
    rcases hP with ⟨-, -, rfl⟩ | ⟨-, hP⟩
    · exact extends_refl _
    · exact ihPost _ _ _ hP
  rw [eL, eC] at eP
  exact leaveScope_of_extends _ _ _ (extends_trans eP eI) hE

/-- A block lowered without failure leaves the scope as it was. -/
theorem blockStmt_scope (p p' : Compiler) (list : List Stmt) (w : List Line)
    (ih : ∀ s ∈ list, ∀ (p p' : Compiler) (w : List Line),
      p.compileStmt s = .ok (p', w) → Scope.Extends p'.scope p.scope)
    (h : p.compileStmt (.BlockStmt list) = .ok (p', w)) : p'.scope = p.scope := by
  simp only [Compiler.compileStmt] at h
  split at h
  · simp at h
  · rename_i p1 w1 h1
    split at h
    · simp at h
    · rename_i p2 h2
      simp only [Except.ok.injEq, Prod.mk.injEq] at h
      obtain ⟨rfl, -⟩ := h
      exact leaveScope_of_extends _ _ _ (compileStmtList_extends list ih p.enterScope _ _ h1) h2

/-- A statement lowered without failure leaves the chain of enclosing frames as
it was and at most adds bindings to the current frame. -/
theorem compileStmt_extends (s : Stmt) :
    ∀ (p p' : Compiler) (w : List Line),
      p.compileStmt s = .ok (p', w) → Scope.Extends p'.scope p.scope := by
  induction s using stmt_induction with
  | hNil => intro p p' w h; simp [Compiler.compileStmt] at h
  | hOther => intro p p' w h; simp [Compiler.compileStmt] at h
  | hVarSpec spec =>
    intro p p' w h
    simp only [Compiler.compileStmt] at h
    split at h
    · simp at h
    · rename_i p1 w1 localName h1
      split at h
      · simp at h
      · rename_i p2 h2
        simp only [Except.ok.injEq, Prod.mk.injEq] at h
        obtain ⟨rfl, -⟩ := h
        have := insert_extends _ _ _ h2
        rwa [(initValue_frame _ _ _ _ _ h1).1] at this
  | hAssign target op value =>
    intro p p' w h
    simp only [Compiler.compileStmt] at h
    exact (compileStmt_assign_extends _ _ _ _ _ _ h).1
  | hExpr x =>
    intro p p' w h
    simp only [Compiler.compileStmt] at h
    split at h
    · simp at h
    · rename_i p1 w1 v h1
      simp only [Except.ok.injEq, Prod.mk.injEq] at h
      obtain ⟨rfl, -⟩ := h
      rw [(compileExpr_frame _ _ _ _ _ h1).1]
      exact extends_refl _
  | hBlock list ih =>
    intro p p' w h
    rw [blockStmt_scope p p' list w ih h]
    exact extends_refl _
  | hFor forPos init cond post body ihInit ihPost ihBody =>
    intro p p' w h
    rw [forStmt_scope p p' forPos init cond post body w ihInit ihPost ihBody h]
    exact extends_refl _

theorem compileFunc_scope (p p' : Compiler) (file : File) (fn : Func) (w : List Line)
    (h : p.compileFunc file fn = .ok (p', w)) : p'.scope = p.scope := by
  unfold Compiler.compileFunc at h
  simp only at h
  split at h
  · simp at h
  · rename_i p1 h1
    have e1 : Scope.Extends p1.scope (NewScope p.scope) := insert_extends _ _ _ h1
    split at h
    · split at h
      · simp at h
      · rename_i p2 h2
        simp only [Except.ok.injEq, Prod.mk.injEq] at h
        obtain ⟨rfl, -⟩ := h
        exact leaveScope_of_extends _ _ _ e1 h2
    · split at h
      · simp at h
      · rename_i p2 w2 h2
        split at h
        · simp at h
        · rename_i p3 h3
          simp only [Except.ok.injEq, Prod.mk.injEq] at h
          obtain ⟨rfl, -⟩ := h
          exact leaveScope_of_extends _ _ _
            (extends_trans (compileStmt_extends _ _ _ _ h2) e1) h3

theorem compileFuncs_scope (file : File) (funcs : List Func) :
    ∀ (p p' : Compiler) (w : List Line),
      p.compileFuncs file funcs = .ok (p', w) → p'.scope = p.scope := by
  induction funcs with
  | nil =>
    intro p p' w h
    simp only [Compiler.compileFuncs, Except.ok.injEq, Prod.mk.injEq] at h
    rw [← h.1]
  | cons fn rest ih =>
    intro p p' w h
    simp only [Compiler.compileFuncs] at h
    split at h
    · simp at h
    · rename_i p1 w1 h1
      split at h
      · simp at h
      · rename_i p2 w2 h2
        simp only [Except.ok.injEq, Prod.mk.injEq] at h
        obtain ⟨rfl, -⟩ := h
        rw [ih _ _ _ h2, compileFunc_scope _ _ _ _ _ h1]

theorem compileGlobals_extends (file : File) (globals : List VarSpec) :
    ∀ (p p' : Compiler) (w : List Line),
      p.compileGlobals file globals = .ok (p', w) → Scope.Extends p'.scope p.scope := by
  induction globals with
  | nil =>
    intro p p' w h
    simp only [Compiler.compileGlobals, Except.ok.injEq, Prod.mk.injEq] at h
    rw [← h.1]
    exact extends_refl _
  | cons g rest ih =>
    intro p p' w h
    simp only [Compiler.compileGlobals] at h
    split at h
    · simp at h
    · rename_i p1 h1
      split at h
      · simp at h
      · rename_i p2 w2 h2
        simp only [Except.ok.injEq, Prod.mk.injEq] at h
        obtain ⟨rfl, -⟩ := h
        exact extends_trans (ih _ _ _ h2) (insert_extends _ _ _ h1)

theorem genInitGlobals_scope (globals : List VarSpec) :
    ∀ (p p' : Compiler) (w : List Line),
      p.genInitGlobals globals = .ok (p', w) → p'.scope = p.scope := by
  induction globals with
  | nil =>
    intro p p' w h
    simp only [Compiler.genInitGlobals, Except.ok.injEq, Prod.mk.injEq] at h
    rw [← h.1]
  | cons g rest ih =>
    intro p p' w h
    simp only [Compiler.genInitGlobals] at h
    split at h
    · simp at h
    · rename_i p1 w1 localName h1
      split at h
      · simp at h
      · split at h
        · simp at h
        · rename_i p2 w2 h2
          simp only [Except.ok.injEq, Prod.mk.injEq] at h
          obtain ⟨rfl, -⟩ := h
          rw [ih _ _ _ h2, (initValue_frame _ _ _ _ _ h1).1]

theorem compileFile_scope (p p' : Compiler) (file : File) (w : List Line)
    (h : p.compileFile file = .ok (p', w)) : p'.scope = p.scope := by
  unfold Compiler.compileFile at h
  split at h
  · simp at h
  · rename_i p1 w1 h1
    split at h
    · simp at h
    · rename_i p2 w2 h2
      split at h
      · simp at h
      · rename_i p3 w3 h3
        split at h
        · simp at h
        · rename_i p4 h4
          simp only [Except.ok.injEq, Prod.mk.injEq] at h
          obtain ⟨rfl, -⟩ := h
          have e1 : Scope.Extends p1.scope (NewScope p.scope) :=
            compileGlobals_extends _ _ _ _ _ h1
          have e2 := compileFuncs_scope _ _ _ _ _ h2
          have e3 : p3.scope = p2.scope := by
            unfold Compiler.genInit at h3
            split at h3
            · simp at h3
            · rename_i q wq hq
              simp only [Except.ok.injEq, Prod.mk.injEq] at h3
              rw [← h3.1]
              exact genInitGlobals_scope _ _ _ _ hq
          rw [← e2, ← e3] at e1
          exact leaveScope_of_extends _ _ _ e1 h4

theorem compileBuf_scope (builtin : Builtin) (p p' : Compiler) (file : File)
    (buf : List Line) (h : Compiler.compileBuf builtin p file = .ok (p', buf)) :
    p'.scope = p.scope := by
  unfold Compiler.compileBuf at h
  split at h
  · simp at h
  · rename_i p1 w1 h1
    simp only [Except.ok.injEq, Prod.mk.injEq] at h
    rw [← h.1]
    exact compileFile_scope { p with file := some file } _ _ _ h1

theorem compileStmt_scope_eq (s : Stmt) (p p' : Compiler) (w : List Line)
    (hd : s.declaresHere = false) (h : p.compileStmt s = .ok (p', w)) :
    p'.scope = p.scope := by
  cases s with
  | Nil => simp [Compiler.compileStmt] at h
  | Other => simp [Compiler.compileStmt] at h
  | VarSpec spec => simp [Stmt.declaresHere] at hd
  | AssignStmt target op value =>
    simp only [Stmt.declaresHere, decide_eq_false_iff_not] at hd
    simp only [Compiler.compileStmt] at h
    exact (compileStmt_assign_extends _ _ _ _ _ _ h).2 hd
  | ExprStmt x =>
    simp only [Compiler.compileStmt] at h
    split at h
    · simp at h
    · rename_i p1 w1 v h1
      simp only [Except.ok.injEq, Prod.mk.injEq] at h
      rw [← h.1]
      exact (compileExpr_frame _ _ _ _ _ h1).1
  | BlockStmt list =>
    exact blockStmt_scope p p' list w (fun s _ => compileStmt_extends s) h
  | ForStmt forPos init cond post body =>
    exact forStmt_scope p p' forPos init cond post body w (compileStmt_extends init)
      (compileStmt_extends post) (compileStmt_extends body) h

/-! ## Claims about the scope chain -/

/-- C19: scope discipline is balanced.  When `compileStmt` completes without
failure from any state, the scope afterwards is the frame it was before with at
most some bindings added to the current frame: the chain has the same depth and
the same enclosing frames with the same bindings.  A statement other than a
`var` statement or a define-assignment leaves the scope exactly as it was, so
the bindings made inside a block, a `for` init or a `for` body resolve no more
afterwards.  A successful `Compile` leaves the scope of the `Compiler` equal to
the frame it held before the call. -/
theorem C19_scope_discipline_balanced :
    (∀ (s : Stmt) (p p' : Compiler) (w : List Line), p.compileStmt s = .ok (p', w) →
        Scope.Extends p'.scope p.scope
        ∧ p'.scope.depth = p.scope.depth
        ∧ p'.scope.Outer = p.scope.Outer
        ∧ (s.declaresHere = false →
            p'.scope = p.scope ∧ ∀ n, p'.scope.Lookup n = p.scope.Lookup n))
    ∧ (∀ (builtin : Builtin) (p p' : Compiler) (file : File) (text : String),
        Compiler.Compile builtin p file = .ok (p', text) → p'.scope = p.scope) := by
  constructor
  · intro s p p' w h
    have he := compileStmt_extends s p p' w h
    refine ⟨he, extends_depth he, extends_outer he, ?_⟩
    intro hd
    have := compileStmt_scope_eq s p p' w hd h
    exact ⟨this, fun n => by rw [this]⟩
  · intro builtin p p' file text h
    unfold Compiler.Compile at h
    split at h
    · simp at h
    · rename_i p1 buf hb
      simp only [Except.ok.injEq, Prod.mk.injEq] at h
      rw [← h.1]
      exact compileBuf_scope _ _ _ _ _ hb

/-! ## The package initializer -/

theorem insert_global_map (pkg : String) (p p' : Compiler) (outer : Scope)
    (objs : List (String × Object)) (obj : Object)
    (hs : p.scope = .mk outer objs) (hg : GlobalsMap pkg objs)
    (hm : obj.MangledName = globalMangledName pkg obj.Name)
    (h : p.insert obj = .ok p') :
    ∃ objs2, p'.scope = .mk outer objs2 ∧ GlobalsMap pkg objs2
      ∧ (Scope.mapGet objs2 obj.Name).isSome = true
      ∧ ∀ n, (Scope.mapGet objs n).isSome = true → (Scope.mapGet objs2 n).isSome = true := by
  unfold Compiler.insert at h
  rw [hs] at h
  unfold Scope.Insert at h
  simp only at h
  cases hget : Scope.mapGet objs obj.Name with
  | some alt =>
    simp only [hget, Except.ok.injEq] at h
    subst h
    exact ⟨objs, rfl, hg, by simp [hget], fun n hn => hn⟩
  | none =>
    simp only [hget, Except.ok.injEq] at h
    subst h
    refine ⟨(obj.Name, obj) :: objs, rfl, ?_, by simp [Scope.mapGet], ?_⟩
    · intro n o hn
      simp only [Scope.mapGet] at hn
      split at hn
      · rename_i heq
        simp only [Option.some.injEq] at hn
        rw [← hn, ← heq]
        exact hm
      · exact hg n o hn
    · intro n hn
      simp only [Scope.mapGet]
      split
      · rfl
      · exact hn

theorem compileGlobals_binds (file : File) (globals : List VarSpec) :
    ∀ (p p' : Compiler) (w : List Line) (outer : Scope) (objs : List (String × Object)),
      p.scope = .mk outer objs → GlobalsMap file.Pkg.Name objs →
      p.compileGlobals file globals = .ok (p', w) →
      ∃ objs2, p'.scope = .mk outer objs2 ∧ GlobalsMap file.Pkg.Name objs2
        ∧ (∀ g ∈ globals, (Scope.mapGet objs2 g.Name.Name).isSome = true)
        ∧ ∀ n, (Scope.mapGet objs n).isSome = true →
            (Scope.mapGet objs2 n).isSome = true := by
  induction globals with
  | nil =>
    intro p p' w outer objs hs hg h
    simp only [Compiler.compileGlobals, Except.ok.injEq, Prod.mk.injEq] at h
    obtain ⟨rfl, -⟩ := h
    exact ⟨objs, hs, hg, by simp, fun n hn => hn⟩
  | cons g rest ih =>
    intro p p' w outer objs hs hg h
    simp only [Compiler.compileGlobals] at h
    split at h
    · simp at h
    · rename_i p1 h1
      split at h
      · simp at h
      · rename_i p2 w2 h2
        simp only [Except.ok.injEq, Prod.mk.injEq] at h
        obtain ⟨rfl, -⟩ := h
        obtain ⟨objs1, hs1, hg1, hb1, hk1⟩ :=
          insert_global_map file.Pkg.Name p p1 outer objs _ hs hg rfl h1
        obtain ⟨objs2, hs2, hg2, hb2, hk2⟩ := ih p1 _ w2 outer objs1 hs1 hg1 h2
        refine ⟨objs2, hs2, hg2, ?_, fun n hn => hk2 n (hk1 n hn)⟩
        intro g2 hg2m
        rcases List.mem_cons.1 hg2m with rfl | hm
        · exact hk2 _ hb1
        · exact hb2 g2 hm

theorem genInitGlobals_eq_initStores (pkg : String) (globals : List VarSpec) :
    ∀ (p : Compiler) (outer : Scope) (objs : List (String × Object)),
      p.scope = .mk outer objs → GlobalsMap pkg objs →
      (∀ g ∈ globals, (Scope.mapGet objs g.Name.Name).isSome = true) →
      p.genInitGlobals globals = p.initStores pkg globals := by
  induction globals with
  | nil => intro p outer objs hs hg hb; rfl
  | cons g rest ih =>
    intro p outer objs hs hg hb
    have hbg := hb g (by simp)
    rw [Option.isSome_iff_exists] at hbg
    obtain ⟨obj, hobj⟩ := hbg
    have hm := hg _ _ hobj
    have hrest : ∀ g2 ∈ rest, (Scope.mapGet objs g2.Name.Name).isSome = true :=
      fun g2 h2 => hb g2 (by simp [h2])
    simp only [Compiler.genInitGlobals, Compiler.initStores]
    cases hn : g.Value.isNil with
    | true =>
      simp only [if_true]
      have hl : p.scope.Lookup g.Name.Name = some (.mk outer objs, obj) := by
        rw [hs]; simp [Scope.Lookup, hobj]
      simp only [hl, ih p outer objs hs hg hrest, hm]
      cases p.initStores pkg rest with
      | error e => rfl
      | ok r => obtain ⟨p2, w2⟩ := r; simp
    | false =>
      simp only [Bool.false_eq_true, if_false]
      cases hv : p.compileExpr g.Value with
      | error e => rfl
      | ok r =>
        obtain ⟨p1, w1, value⟩ := r
        have hs1 : p1.scope = .mk outer objs := by
          rw [(compileExpr_frame _ _ _ _ _ hv).1, hs]
        have hl : p1.scope.Lookup g.Name.Name = some (.mk outer objs, obj) := by
          rw [hs1]; simp [Scope.Lookup, hobj]
        simp only [hl, ih p1 outer objs hs1 hg hrest, hm]

theorem initStores_stores (pkg : String) (globals : List VarSpec) :
    ∀ (p p' : Compiler) (w : List Line),
      p.initStores pkg globals = .ok (p', w) →
      storedSlots w = globals.map (fun g => globalMangledName pkg g.Name.Name) := by
  induction globals with
  | nil =>
    intro p p' w h
    simp only [Compiler.initStores, Except.ok.injEq, Prod.mk.injEq] at h
    rw [← h.2]
    rfl
  | cons g rest ih =>
    intro p p' w h
    simp only [Compiler.initStores] at h
    split at h
    · split at h
      · simp at h
      · rename_i p2 w2 h2
        simp only [Except.ok.injEq, Prod.mk.injEq] at h
        obtain ⟨-, rfl⟩ := h
        have := ih _ _ _ h2
        simp only [storedSlots] at this ⊢
        simp [Line.storesTo, this]
    · split at h
      · simp at h
      · rename_i p1 w1 value h1
        split at h
        · simp at h
        · rename_i p2 w2 h2
          simp only [Except.ok.injEq, Prod.mk.injEq] at h
          obtain ⟨-, rfl⟩ := h
          have := ih _ _ _ h2
          have hw1 := (compileExpr_no_alloca_no_store _ _ _ _ _ h1).2
          simp only [storedSlots] at this hw1 ⊢
          simp [List.filterMap_append, Line.storesTo, this, hw1]

/-- The package initializer, lowered in the file scope after the globals have
been declared, is the function `@ugo_<pkg>_init` around the stores that the
specification words. -/
theorem compileFile_inv (p p' : Compiler) (file : File) (w : List Line)
    (h : p.compileFile file = .ok (p', w)) :
    InitializerShape p file w := by
  unfold InitializerShape
  unfold Compiler.compileFile at h
  split at h
  · simp at h
  · rename_i p1 w1 h1
    split at h
    · simp at h
    · rename_i p2 w2 h2
      split at h
      · simp at h
      · rename_i p3 w3 h3
        split at h
        · simp at h
        · rename_i p4 h4
          simp only [Except.ok.injEq, Prod.mk.injEq] at h
          obtain ⟨-, rfl⟩ := h
          obtain ⟨objs1, hs1, hg1, hb1, -⟩ :=
            compileGlobals_binds file file.Globals p.enterScope p1 w1 p.scope []
              rfl (fun n obj hn => by simp [Scope.mapGet] at hn) h1
          have e2 := compileFuncs_scope _ _ _ _ _ h2
          unfold Compiler.genInit at h3
          rw [genInitGlobals_eq_initStores file.Pkg.Name file.Globals p2 p.scope objs1
            (by rw [e2, hs1]) hg1 hb1] at h3
          split at h3
          · simp at h3
          · rename_i q wq hq
            simp only [Except.ok.injEq, Prod.mk.injEq] at h3
            obtain ⟨rfl, rfl⟩ := h3
            refine ⟨p1, p2, q, w1, w2, wq, h1, h2, e2, hq, rfl,
              initStores_stores _ _ _ _ _ hq, ?_⟩
            intro hnil
            rw [hnil] at hq
            simp only [Compiler.initStores, Except.ok.injEq, Prod.mk.injEq] at hq
            exact hq.2.symm

/-! ## Claims about the package initializer and the entry point -/

/-- C12: whenever a file is lowered without failure, the package initializer
`@ugo_<pkg>_init` is written after the functions, and its body holds exactly one
store per global, in declaration order, into `@ugo_<pkg>_<name>`: for a global
with an initializer the store writes the reference obtained by lowering that
initializer in the file scope, for a global without one it writes the constant
`0`; with no globals the body holds no line before `ret i32 0`. -/
theorem C12_initializer_stores_each_global (p p' : Compiler) (file : File) (w : List Line)
    (h : p.compileFile file = .ok (p', w)) :
    InitializerShape p file w
    ∧ (∀ (q : Compiler) (g : VarSpec), g.Value.isNil = true →
        q.initStores file.Pkg.Name [g]
          = .ok (q, [Line.store "0" (globalMangledName file.Pkg.Name g.Name.Name)]))
    ∧ (∀ (q q1 : Compiler) (g : VarSpec) (wv : List Line) (value : String),
        g.Value.isNil = false → q.compileExpr g.Value = .ok (q1, wv, value) →
        q.initStores file.Pkg.Name [g]
          = .ok (q1, wv ++ [Line.store value (globalMangledName file.Pkg.Name g.Name.Name)])) := by
  refine ⟨compileFile_inv p p' file w h, ?_, ?_⟩
  · intro q g hn
    simp [Compiler.initStores, hn]
  · intro q q1 g wv value hn hv
    simp [Compiler.initStores, hn, hv]

theorem genMain_cases (builtin : Builtin) (file : File) :
    (file.Pkg.Name = "main" → (∃ fn ∈ file.Funcs, fn.Name = "main") →
        Compiler.genMain builtin file = [Line.raw builtin.MainMain])
    ∧ (¬ (file.Pkg.Name = "main" ∧ ∃ fn ∈ file.Funcs, fn.Name = "main") →
        Compiler.genMain builtin file = []) := by
  constructor
  · intro hp hf
    have hany : file.Funcs.any (fun fn => decide (fn.Name = "main")) = true := by
      rw [List.any_eq_true]
      obtain ⟨fn, hm, hn⟩ := hf
      exact ⟨fn, hm, by simp [hn]⟩
    simp [Compiler.genMain, hp, hany]
  · intro hnot
    unfold Compiler.genMain
    by_cases hp : file.Pkg.Name = "main"
    · have hany : file.Funcs.any (fun fn => decide (fn.Name = "main")) = false := by
        rw [Bool.eq_false_iff]
        intro ht
        rw [List.any_eq_true] at ht
        obtain ⟨fn, hm, hn⟩ := ht
        exact hnot ⟨hp, fn, hm, by simpa using hn⟩
      simp [hp, hany]
    · simp [hp]

/-- C13: the entry-point shim is written if and only if the package name is
`main` and the file declares a function named `main`.  `genMain` then writes the
fixed text once, however many functions are named `main`, and otherwise writes
nothing.  In a successful compilation it is the last write, right after the
closing line of the initializer function, so the returned text ends with the
shim in the first case and with the initializer function in the second. -/
theorem C13_entry_shim_iff_main (builtin : Builtin) (file : File) :
    (file.Pkg.Name = "main" → (∃ fn ∈ file.Funcs, fn.Name = "main") →
        Compiler.genMain builtin file = [Line.raw builtin.MainMain])
    ∧ (¬ (file.Pkg.Name = "main" ∧ ∃ fn ∈ file.Funcs, fn.Name = "main") →
        Compiler.genMain builtin file = [])
    ∧ bufString [Line.raw builtin.MainMain] = builtin.MainMain
    ∧ (∀ (p p' : Compiler) (text : String),
        Compiler.Compile builtin p file = .ok (p', text) →
        ∃ (w0 w3 : List Line),
          Compiler.compileBuf builtin p file
            = .ok (p', Compiler.genHeader builtin file
                ++ (w0 ++ ([Line.defineInit file.Pkg.Name] ++ w3 ++ [Line.ret, Line.close]))
                ++ Compiler.genMain builtin file)
          ∧ text = bufString (Compiler.genHeader builtin file
                ++ (w0 ++ ([Line.defineInit file.Pkg.Name] ++ w3 ++ [Line.ret, Line.close])))
              ++ bufString (Compiler.genMain builtin file)) := by
  refine ⟨(genMain_cases builtin file).1, (genMain_cases builtin file).2, ?_, ?_⟩
  · simp [bufString_cons, bufString_nil, Line.text]
  · intro p p' text h
    unfold Compiler.Compile at h
    split at h
    · simp at h
    · rename_i p1 buf hb
      simp only [Except.ok.injEq, Prod.mk.injEq] at h
      obtain ⟨rfl, rfl⟩ := h
      have hb2 := hb
      unfold Compiler.compileBuf at hb2
      split at hb2
      · simp at hb2
      · rename_i q wq hq
        simp only [Except.ok.injEq, Prod.mk.injEq] at hb2
        obtain ⟨rfl, rfl⟩ := hb2
        obtain ⟨p1, p2, p3, w1, w2, w3, -, -, -, -, hw, -, -⟩ := compileFile_inv _ _ _ _ hq
        refine ⟨w1 ++ (if file.Globals.length ≠ 0 then [Line.blank] else []) ++ w2, w3, ?_, ?_⟩
        · rw [hb, hw]
        · rw [hw, bufString_append]

/-! ## Claims about calls and failures -/

/-- C14 (the code at the failing input): a call with two or more arguments is
not rejected.  `compileExpr` lowers the call exactly as it lowers the call with
the first argument alone, whatever the further arguments are; with `f` bound,
`f(1, 2)` is lowered to a call instruction that passes only the value of `1`. -/
theorem C14_call_drops_further_arguments :
    (∀ (p : Compiler) (fn : Ident) (arg : Expr) (rest : List Expr),
        p.compileExpr (.CallExpr fn (arg :: rest)) = p.compileExpr (.CallExpr fn [arg]))
    ∧ callState.compileExpr (.CallExpr ⟨10, "f"⟩ [.Number 1, .Number 2])
        = .ok ({ callState with nextId := 2 },
            [Line.binop "%t1" "add" "0" "1", Line.call "%t0" "@ugo_main_f" "%t1"], "%t0") := by
  refine ⟨?_, rfl⟩
  intro p fn arg rest
  simp only [Compiler.compileExpr]

/-- C15 (the code at the failing input): in the plain assignment `a, zz = 1, 2`,
lowered in a state that binds `a` and does not bind `zz`, the second target is
the one that does not resolve, and the panic names the first target:
`var a undefined`. -/
theorem C15_unresolved_target_reported_as_first :
    callState.resolves "a" = true
    ∧ callState.resolves "zz" = false
    ∧ callState.compileStmt
        (.AssignStmt [⟨10, "a"⟩, ⟨11, "zz"⟩] .ASSIGN [.Number 1, .Number 2])
        = .error (.varUndefined "a")
    ∧ Panic.message (.varUndefined "a") = some "var a undefined" := by
  exact ⟨rfl, rfl, rfl, rfl⟩

/-! ## Claims about the lowering of expressions -/

/-- C16: lowering the same `Number` literal twice in succession, from any state
of the `Compiler`, returns the two references `%t<n>` and `%t<n+1>` made from two
successive counter values, which are different; each lowering writes exactly
one line, `<ref> = add i32 0, <literal>`, with the same literal. -/
theorem C16_number_lowered_twice (p : Compiler) (v : Int) :
    p.compileExpr (.Number v)
        = .ok ({ p with nextId := p.nextId + 1 },
            [Line.binop ("%t" ++ toString p.nextId) "add" "0" (toString v)],
            "%t" ++ toString p.nextId)
    ∧ ({ p with nextId := p.nextId + 1 } : Compiler).compileExpr (.Number v)
        = .ok ({ p with nextId := p.nextId + 2 },
            [Line.binop ("%t" ++ toString (p.nextId + 1)) "add" "0" (toString v)],
            "%t" ++ toString (p.nextId + 1))
    ∧ "%t" ++ toString p.nextId ≠ "%t" ++ toString (p.nextId + 1)
    ∧ (∀ ref : String, (Line.binop ref "add" "0" (toString v)).text
        = "\t" ++ ref ++ " = add i32 0, " ++ toString v ++ "\n") := by
  refine ⟨rfl, rfl, ?_, ?_⟩
  · intro h
    have hd := congrArg String.data h
    simp only [String.data_append] at hd
    have := natToString_injective _ _ (String.ext (List.append_cancel_left hd))
    omega
  · intro ref
    simp [Line.text, String.append_assoc]

theorem fresh_mem {lo hi : Nat} {w : List Line} (h : Fresh lo hi w) (name : String)
    (hm : name ∈ generatedNames w) : ∃ k, lo ≤ k ∧ k < hi ∧ MadeFrom name k := by
  obtain ⟨-, ids, hf, -, hk⟩ := h
  obtain ⟨k, hkm, hmk⟩ := forall₂_exists_of_mem hf name hm
  exact ⟨k, ((hk k).1 hkm).1, ((hk k).1 hkm).2, hmk⟩

/-- The name made from a counter value below `lo` is not among the names that
lines fresh from `lo` on introduce. -/
theorem fresh_not_mem {lo hi : Nat} {w : List Line} (h : Fresh lo hi w) (k : Nat)
    (hk : k < lo) : "%t" ++ toString k ∉ generatedNames w := by
  intro hm
  obtain ⟨j, hj, -, hmj⟩ := fresh_mem h _ hm
  have := MadeFrom_unique _ _ _ (madeFrom_genId k) hmj
  omega

/-- C18: binary lowering keeps the evaluation order.  For an operator among
`+ - * / == != < <= > >=` whose operands lower without failure (X from the state
after the result name has been made, Y from the state that X left), the lines
are all lines of X, then all lines of Y, then the single line
`<r> = <mnemonic> i32 <ref X>, <ref Y>` with the mnemonic `add`, `sub`, `mul`,
`div`, `icmp eq`, `icmp ne`, `icmp slt`, `icmp sle`, `icmp sgt`, `icmp sge`; the
result `<r>` is returned and is none of the temporaries defined while X and Y
were lowered.  Every other operator makes the lowering fail. -/
theorem C18_binary_keeps_evaluation_order (p p2 p3 : Compiler) (op : Token) (x y : Expr)
    (mnemonic : String) (wx wy : List Line) (vx vy : String)
    (hop : binaryMnemonic op = some mnemonic)
    (hx : p.genId.1.compileExpr x = .ok (p2, wx, vx))
    (hy : p2.compileExpr y = .ok (p3, wy, vy)) :
    p.compileExpr (.BinaryExpr op x y)
        = .ok (p3, wx ++ wy ++ [Line.binop ("%t" ++ toString p.nextId) mnemonic vx vy],
            "%t" ++ toString p.nextId)
    ∧ "%t" ++ toString p.nextId ∉ definedTemporaries (wx ++ wy)
    ∧ (Line.binop ("%t" ++ toString p.nextId) mnemonic vx vy).text
        = "\t" ++ ("%t" ++ toString p.nextId) ++ " = " ++ mnemonic ++ " i32 " ++ vx
            ++ ", " ++ vy ++ "\n"
    ∧ (binaryMnemonic .ADD = some "add" ∧ binaryMnemonic .SUB = some "sub"
        ∧ binaryMnemonic .MUL = some "mul" ∧ binaryMnemonic .DIV = some "div"
        ∧ binaryMnemonic .EQL = some "icmp eq" ∧ binaryMnemonic .NEQ = some "icmp ne"
        ∧ binaryMnemonic .LSS = some "icmp slt" ∧ binaryMnemonic .LEQ = some "icmp sle"
        ∧ binaryMnemonic .GTR = some "icmp sgt" ∧ binaryMnemonic .GEQ = some "icmp sge")
    ∧ (∀ (q : Compiler) (op2 : Token) (x2 y2 : Expr),
        op2 ∉ [Token.ADD, .SUB, .MUL, .DIV, .EQL, .NEQ, .LSS, .LEQ, .GTR, .GEQ] →
        q.compileExpr (.BinaryExpr op2 x2 y2) = .error .unknown) := by
  refine ⟨?_, ?_, rfl, ⟨rfl, rfl, rfl, rfl, rfl, rfl, rfl, rfl, rfl, rfl⟩, ?_⟩
  · simp only [genId_eq] at hx
    simp [Compiler.compileExpr, genId_eq, hop, hx, hy]
  · have fx := compileExpr_fresh x _ _ _ _ hx
    have fy := compileExpr_fresh y _ _ _ _ hy
    have fxy : Fresh (p.nextId + 1) p3.nextId (wx ++ wy) := fresh_append fx fy
    intro hm
    exact fresh_not_mem fxy p.nextId (by omega)
      ((definedTemporaries_sublist (wx ++ wy)).subset hm)
  · intro q op2 x2 y2 hnot
    cases op2 <;> simp at hnot <;> simp [Compiler.compileExpr, binaryMnemonic]

/-! ## Define-assignment: the order of its three loops -/

theorem exprReaches_scope (p q : Compiler) (e : Expr) (n : String)
    (hr : ExprReaches p e q n) : q.scope = p.scope := by
  induction hr with
  | ident p x => rfl
  | binaryX p q op x y n mnemonic hop _ ih => exact ih
  | binaryY p p2 q op x y n mnemonic wx vx hop hx _ ih =>
    rw [ih, (compileExpr_frame _ _ _ _ _ hx).1]
    rfl
  | unaryNeg p q x n _ ih => exact ih
  | unaryOther p q op x n hop _ ih => exact ih
  | paren p q x n _ ih => exact ih
  | callArg p q fn arg rest n found hf _ ih => exact ih

theorem assignDefine_allocas (targets : List Ident) :
    ∀ (p p' : Compiler) (w : List Line),
      p.assignDefine targets = .ok (p', w) → ∀ l ∈ w, l.allocates ≠ none := by
  induction targets with
  | nil =>
    intro p p' w h
    simp only [Compiler.assignDefine, Except.ok.injEq, Prod.mk.injEq] at h
    obtain ⟨-, rfl⟩ := h
    simp
  | cons t targets ih =>
    intro p p' w h
    simp only [Compiler.assignDefine] at h
    split at h
    · exact ih _ _ _ h
    · split at h
      · simp at h
      · rename_i p1 h1
        split at h
        · simp at h
        · rename_i p2 w2 h2
          simp only [Except.ok.injEq, Prod.mk.injEq] at h
          obtain ⟨-, rfl⟩ := h
          intro l hl
          rcases List.mem_cons.1 hl with rfl | hl
          · simp [Line.allocates]
          · exact ih _ _ _ h2 l hl

theorem assignStores_stores (first : String) (targets : List Ident) :
    ∀ (p : Compiler) (values : List String) (w : List Line),
      p.assignStores first targets values = .ok w → ∀ l ∈ w, l.isStore = true := by
  induction targets with
  | nil =>
    intro p values w h
    simp only [Compiler.assignStores, Except.ok.injEq] at h
    subst h
    simp
  | cons t targets ih =>
    intro p values w h
    cases values with
    | nil => simp [Compiler.assignStores] at h
    | cons v values =>
      simp only [Compiler.assignStores] at h
      split at h
      · simp at h
      · split at h
        · simp at h
        · rename_i w2 h2
          simp only [Except.ok.injEq] at h
          subst h
          intro l hl
          rcases List.mem_cons.1 hl with rfl | hl
          · rfl
          · exact ih _ _ _ h2 l hl

theorem assignValues_defines (targets : List Ident) :
    ∀ (values : List Expr) (p p' : Compiler) (w : List Line) (names : List String),
      p.assignValues targets values = .ok (p', w, names) → ∀ l ∈ w, l.defines ≠ none := by
  induction targets with
  | nil =>
    intro values p p' w names h
    simp only [Compiler.assignValues, Except.ok.injEq, Prod.mk.injEq] at h
    obtain ⟨-, rfl, -⟩ := h
    simp
  | cons t targets ih =>
    intro values p p' w names h
    cases values with
    | nil => simp [Compiler.assignValues] at h
    | cons v values =>
      simp only [Compiler.assignValues] at h
      split at h
      · simp at h
      · rename_i p1 w1 name h1
        split at h
        · simp at h
        · rename_i p2 w2 names2 h2
          simp only [Except.ok.injEq, Prod.mk.injEq] at h
          obtain ⟨-, rfl, -⟩ := h
          intro l hl
          rcases List.mem_append.1 hl with hl | hl
          · exact (compileExpr_frame v _ _ _ _ h1).2.2.2 l hl
          · exact ih _ _ _ _ _ h2 l hl

/-! ## Claims about define-assignment -/

/-- C17 (as stated, refuted): lowered by a fresh `Compiler`, `x := 1` writes the
value instruction first and the `alloca` after it; and `x := x`, whose value
refers to the target that the statement newly defines, does not resolve it:
lowering stops with `var x undefined`. -/
theorem C17_define_assign_evaluates_first :
    (NewCompiler emptyUniverse).compileStmt
        (.AssignStmt [⟨7, "x"⟩] .DEFINE [.Number 1])
      = .ok ({ file := none,
               scope := .mk emptyUniverse
                 [("x", { Name := "x", MangledName := "%local_x.pos.7",
                          Node := .Ident ⟨7, "x"⟩ })],
               nextId := 1 },
          [Line.binop "%t0" "add" "0" "1", Line.alloca "%local_x.pos.7",
           Line.store "%t0" "%local_x.pos.7"])
    ∧ (NewCompiler emptyUniverse).compileStmt
        (.AssignStmt [⟨7, "x"⟩] .DEFINE [.Ident ⟨9, "x"⟩])
      = .error (.varUndefined "x") := by
  exact ⟨rfl, rfl⟩

/-- C17 (amended): define-assignment evaluates before it declares.  (1) When a
define-assignment is lowered without failure, first all value expressions are
lowered, in the scope as it was before the statement; then each target that
does not resolve at its turn is declared in the current frame and its slot
allocated; then the stores are written: the lines are value instructions, then
allocations, then stores.  (2) For one target that does not resolve, in a
current frame, the lines are the lines of the value, the `alloca` of
`%local_<name>.pos.<position>` and the store into it.  (3) A value expression
whose lowering comes to a reference to a target that does not resolve before
the statement makes the lowering fail with `var <name> undefined`. -/
theorem C17_define_assign_values_then_allocas :
    (∀ (p p' : Compiler) (targets : List Ident) (values : List Expr) (w : List Line),
        p.compileStmt (.AssignStmt targets .DEFINE values) = .ok (p', w) →
        DefineAssignOrder p p' targets values w)
    ∧ (∀ (p p1 : Compiler) (outer : Scope) (objs : List (String × Object)) (t : Ident)
        (e : Expr) (w1 : List Line) (v : String),
        p.scope = .mk outer objs → p.resolves t.Name = false →
        p.compileExpr e = .ok (p1, w1, v) →
        p.compileStmt (.AssignStmt [t] .DEFINE [e])
          = .ok ({ file := p1.file,
                   scope := Scope.mk outer
                    ((t.Name, { Name := t.Name,
                                MangledName := localMangledName t.Name t.NamePos,
                                Node := .Ident t }) :: objs),
                   nextId := p1.nextId },
              w1 ++ [Line.alloca (localMangledName t.Name t.NamePos),
                     Line.store v (localMangledName t.Name t.NamePos)]))
    ∧ (∀ (p q : Compiler) (t : Ident) (targets : List Ident) (e : Expr)
        (values : List Expr),
        p.resolves t.Name = false → ExprReaches p e q t.Name →
        p.compileStmt (.AssignStmt (t :: targets) .DEFINE (e :: values))
          = .error (.varUndefined t.Name)) := by
  refine ⟨?_, ?_, ?_⟩
  · intro p p' targets values w h
    simp only [Compiler.compileStmt] at h
    unfold Compiler.compileStmt_assign at h
    split at h
    · simp at h
    · rename_i p1 w1 names h1
      simp only [if_true] at h
      split at h
      · simp at h
      · rename_i p2 w2 h2
        split at h
        · simp at h
        · rename_i w3 h3
          simp only [Except.ok.injEq, Prod.mk.injEq] at h
          obtain ⟨rfl, rfl⟩ := h
          exact ⟨p1, w1, w2, w3, names, h1, assignValues_scope _ _ _ _ _ _ h1, h2, rfl,
            assignValues_defines _ _ _ _ _ _ h1, assignDefine_allocas _ _ _ _ h2,
            assignStores_stores _ _ _ _ _ h3⟩
  · intro p p1 outer objs t e w1 v hs hres he
    have hfr := compileExpr_frame e p p1 w1 v he
    have hl : p1.scope.Lookup t.Name = none := by
      rw [hfr.1]
      simpa [Compiler.resolves] using hres
    have hget : Scope.mapGet objs t.Name = none := by
      rw [hfr.1, hs] at hl
      simp only [Scope.Lookup] at hl
      split at hl
      · simp at hl
      · assumption
    have hs1 : p1.scope = .mk outer objs := by rw [hfr.1, hs]
    have hout : outer.Lookup t.Name = none := by
      rw [hs1] at hl
      simpa [Scope.Lookup, hget] using hl
    simp [Compiler.compileStmt, Compiler.compileStmt_assign, Compiler.assignValues, he,
      Compiler.assignDefine, hl, Compiler.insert, hs1, Scope.Insert, hget,
      Compiler.assignStores, Scope.Lookup, Scope.mapGet, hout]
  · intro p q t targets e values hres hr
    have hq : q.scope.Lookup t.Name = none := by
      rw [exprReaches_scope _ _ _ _ hr]
      simpa [Compiler.resolves] using hres
    have he := exprReaches_fails _ _ _ _ hr hq
    simp [Compiler.compileStmt, Compiler.compileStmt_assign, Compiler.assignValues, he]

/-! ## Temporaries are defined before they are used -/

theorem isTemporary_percent (s : String) (h : isTemporary s = true) : '%' ∈ s.data := by
  unfold isTemporary at h
  split at h
  · rename_i d ds hd
    rw [hd]
    simp
  · simp at h

theorem intToString_not_temporary (i : Int) : isTemporary (toString i) = false := by
  rw [Bool.eq_false_iff]
  intro h
  have hp := isTemporary_percent _ h
  rw [intToString_data] at hp
  cases i with
  | ofNat n =>
    have := natToString_isDigit n '%' hp
    revert this; decide
  | negSucc n =>
    simp only [List.mem_cons] at hp
    rcases hp with hp | hp
    · revert hp; decide
    · have := natToString_isDigit (n + 1) '%' hp
      revert this; decide

theorem dbu_mono (w : List Line) :
    ∀ (d1 d2 : List String), (∀ n ∈ d1, n ∈ d2) →
      DefinedBeforeUse d1 w → DefinedBeforeUse d2 w := by
  induction w with
  | nil => intro d1 d2 _ _; trivial
  | cons l w ih =>
    intro d1 d2 hsub h
    refine ⟨fun o ho ht => hsub o (h.1 o ho ht), ?_⟩
    apply ih (d1 ++ l.defines.toList) (d2 ++ l.defines.toList) _ h.2
    intro n hn
    rcases List.mem_append.1 hn with hn | hn
    · exact List.mem_append.2 (Or.inl (hsub n hn))
    · exact List.mem_append.2 (Or.inr hn)

theorem definedTemporaries_cons (l : Line) (w : List Line) :
    definedTemporaries (l :: w) = l.defines.toList ++ definedTemporaries w := by
  cases h : l.defines <;> simp [definedTemporaries, h]

theorem definedTemporaries_append (a b : List Line) :
    definedTemporaries (a ++ b) = definedTemporaries a ++ definedTemporaries b := by
  simp [definedTemporaries, List.filterMap_append]

theorem dbu_append (w1 : List Line) :
    ∀ (d : List String) (w2 : List Line), DefinedBeforeUse d w1 →
      DefinedBeforeUse (d ++ definedTemporaries w1) w2 →
      DefinedBeforeUse d (w1 ++ w2) := by
  induction w1 with
  | nil =>
    intro d w2 _ h2
    simpa [definedTemporaries] using h2
  | cons l w1 ih =>
    intro d w2 h1 h2
    refine ⟨h1.1, ?_⟩
    apply ih _ _ h1.2
    rw [definedTemporaries_cons] at h2
    simpa [List.append_assoc] using h2

/-- Two outputs that each define their temporaries before use do so together. -/
theorem dbu_append_closed (w1 w2 : List Line) (h1 : DefinedBeforeUse [] w1)
    (h2 : DefinedBeforeUse [] w2) : DefinedBeforeUse [] (w1 ++ w2) :=
  dbu_append w1 [] w2 h1 (dbu_mono w2 [] _ (fun n hn => by simp at hn) h2)

/-- Lines whose temporary operands are all among `d` may follow. -/
theorem dbu_of_operands (w : List Line) :
    ∀ (d : List String),
      (∀ l ∈ w, ∀ o ∈ l.operands, isTemporary o = true → o ∈ d) →
      DefinedBeforeUse d w := by
  induction w with
  | nil => intro d _; trivial
  | cons l w ih =>
    intro d h
    refine ⟨h l (by simp), ?_⟩
    apply ih
    intro l2 hl2 o ho ht
    exact List.mem_append.2 (Or.inl (h l2 (by simp [hl2]) o ho ht))

theorem dbu_snoc (w : List Line) (l : Line) (h : DefinedBeforeUse [] w)
    (hl : ∀ o ∈ l.operands, isTemporary o = true → o ∈ definedTemporaries w) :
    DefinedBeforeUse [] (w ++ [l]) := by
  apply dbu_append w [] [l] h
  refine ⟨?_, trivial⟩
  intro o ho ht
  simpa using hl o ho ht

/-- The lines of a lowered expression define every temporary before it is used,
and the returned reference is defined by one of them. -/
theorem compileExpr_dbu (e : Expr) :
    ∀ (p p' : Compiler) (w : List Line) (v : String),
      p.compileExpr e = .ok (p', w, v) →
      DefinedBeforeUse [] w ∧ v ∈ definedTemporaries w := by
  induction e using expr_induction with
  | hNil => intro p p' w v h; simp [Compiler.compileExpr] at h
  | hOther => intro p p' w v h; simp [Compiler.compileExpr] at h
  | hIdent x =>
    intro p p' w v h
    unfold Compiler.compileExpr at h
    split at h
    · simp at h
    · simp only [genId_eq, Except.ok.injEq, Prod.mk.injEq] at h
      obtain ⟨-, rfl, rfl⟩ := h
      exact ⟨⟨by simp [Line.operands], trivial⟩, by simp [definedTemporaries, Line.defines]⟩
  | hNumber n =>
    intro p p' w v h
    simp only [Compiler.compileExpr, genId_eq, Except.ok.injEq, Prod.mk.injEq] at h
    obtain ⟨-, rfl, rfl⟩ := h
    refine ⟨⟨?_, trivial⟩, by simp [definedTemporaries, Line.defines]⟩
    intro o ho ht
    simp only [Line.operands, List.mem_cons, List.mem_singleton, List.not_mem_nil,
      or_false] at ho
    rcases ho with rfl | rfl
    · exact absurd ht (by decide)
    · rw [intToString_not_temporary] at ht
      exact absurd ht (by decide)
  | hBinary op x y ihx ihy =>
    intro p p' w v h
    unfold Compiler.compileExpr at h
    simp only [genId_eq] at h
    split at h
    · simp at h
    · split at h
      · simp at h
      · rename_i p2 wx vx hx
        split at h
        · simp at h
        · rename_i p3 wy vy hy
          simp only [Except.ok.injEq, Prod.mk.injEq] at h
          obtain ⟨-, rfl, rfl⟩ := h
          obtain ⟨dx, mx⟩ := ihx _ _ _ _ hx
          obtain ⟨dy, my⟩ := ihy _ _ _ _ hy
          refine ⟨dbu_snoc _ _ (dbu_append_closed _ _ dx dy) ?_, ?_⟩
          · intro o ho _
            simp only [Line.operands, List.mem_cons, List.mem_singleton,
              List.not_mem_nil, or_false] at ho
            rw [definedTemporaries_append]
            rcases ho with rfl | rfl
            · exact List.mem_append.2 (Or.inl mx)
            · exact List.mem_append.2 (Or.inr my)
          · simp [definedTemporaries_append, definedTemporaries, Line.defines]
  | hUnary op x ih =>
    intro p p' w v h
    unfold Compiler.compileExpr at h
    simp only [genId_eq] at h
    split at h
    · split at h
      · simp at h
      · rename_i p2 wx vx hx
        simp only [Except.ok.injEq, Prod.mk.injEq] at h
        obtain ⟨-, rfl, rfl⟩ := h
        obtain ⟨dx, mx⟩ := ih _ _ _ _ hx
        refine ⟨dbu_snoc _ _ dx ?_, ?_⟩
        · intro o ho ht
          simp only [Line.operands, List.mem_cons, List.mem_singleton,
            List.not_mem_nil, or_false] at ho
          rcases ho with rfl | rfl
          · exact absurd ht (by decide)
          · exact mx
        · simp [definedTemporaries_append, definedTemporaries, Line.defines]
    · exact ih _ _ _ _ h
  | hParen x ih =>
    intro p p' w v h
    unfold Compiler.compileExpr at h
    exact ih _ _ _ _ h
  | hCall fn args ih =>
    intro p p' w v h
    unfold Compiler.compileExpr at h
    simp only [genId_eq] at h
    split at h
    · simp at h
    · split at h
      · simp at h
      · rename_i arg rest
        split at h
        · simp at h
        · rename_i p2 wa va ha
          simp only [Except.ok.injEq, Prod.mk.injEq] at h
          obtain ⟨-, rfl, rfl⟩ := h
          obtain ⟨da, ma⟩ := ih arg (by simp) _ _ _ _ ha
          refine ⟨dbu_snoc _ _ da ?_, ?_⟩
          · intro o ho _
            simp only [Line.operands, List.mem_singleton] at ho
            rw [ho]
            exact ma
          · simp [definedTemporaries_append, definedTemporaries, Line.defines]

theorem initValue_dbu (e : Expr) (p p' : Compiler) (w : List Line) (v : String)
    (h : (if e.isNil then Except.ok (p, [], "0") else p.compileExpr e) = .ok (p', w, v)) :
    DefinedBeforeUse [] w ∧ (isTemporary v = true → v ∈ definedTemporaries w) := by
  cases hn : e.isNil with
  | true =>
    simp only [hn, if_true, Except.ok.injEq, Prod.mk.injEq] at h
    obtain ⟨-, rfl, rfl⟩ := h
    exact ⟨trivial, fun ht => absurd ht (by decide)⟩
  | false =>
    simp only [hn, Bool.false_eq_true, if_false] at h
    obtain ⟨hd, hm⟩ := compileExpr_dbu e p p' w v h
    exact ⟨hd, fun _ => hm⟩

theorem assignValues_dbu (targets : List Ident) :
    ∀ (values : List Expr) (p p' : Compiler) (w : List Line) (names : List String),
      p.assignValues targets values = .ok (p', w, names) →
      DefinedBeforeUse [] w ∧ ∀ name ∈ names, name ∈ definedTemporaries w := by
  induction targets with
  | nil =>
    intro values p p' w names h
    simp only [Compiler.assignValues, Except.ok.injEq, Prod.mk.injEq] at h
    obtain ⟨-, rfl, rfl⟩ := h
    exact ⟨trivial, by simp⟩
  | cons t targets ih =>
    intro values p p' w names h
    cases values with
    | nil => simp [Compiler.assignValues] at h
    | cons v values =>
      simp only [Compiler.assignValues] at h
      split at h
      · simp at h
      · rename_i p1 w1 name h1
        split at h
        · simp at h
        · rename_i p2 w2 names2 h2
          simp only [Except.ok.injEq, Prod.mk.injEq] at h
          obtain ⟨-, rfl, rfl⟩ := h
          obtain ⟨d1, m1⟩ := compileExpr_dbu v _ _ _ _ h1
          obtain ⟨d2, m2⟩ := ih _ _ _ _ _ h2
          refine ⟨dbu_append_closed _ _ d1 d2, ?_⟩
          intro n hn
          rw [definedTemporaries_append]
          rcases List.mem_cons.1 hn with rfl | hn
          · exact List.mem_append.2 (Or.inl m1)
          · exact List.mem_append.2 (Or.inr (m2 n hn))

theorem assignStores_operands (first : String) (targets : List Ident) :
    ∀ (p : Compiler) (values : List String) (w : List Line),
      p.assignStores first targets values = .ok w →
      ∀ l ∈ w, ∀ o ∈ l.operands, o ∈ values := by
  induction targets with
  | nil =>
    intro p values w h
    simp only [Compiler.assignStores, Except.ok.injEq] at h
    subst h
    simp
  | cons t targets ih =>
    intro p values w h
    cases values with
    | nil => simp [Compiler.assignStores] at h
    | cons v values =>
      simp only [Compiler.assignStores] at h
      split at h
      · simp at h
      · split at h
        · simp at h
        · rename_i w2 h2
          simp only [Except.ok.injEq] at h
          subst h
          intro l hl o ho
          rcases List.mem_cons.1 hl with rfl | hl
          · simp only [Line.operands, List.mem_singleton] at ho
            simp [ho]
          · exact List.mem_cons_of_mem _ (ih _ _ _ h2 l hl o ho)

theorem allocates_no_operands (l : Line) (h : l.allocates ≠ none) : l.operands = [] := by
  cases l <;> first | rfl | simp [Line.allocates] at h

theorem compileStmt_assign_dbu (p p' : Compiler) (target : List Ident) (op : Token)
    (value : List Expr) (w : List Line)
    (h : p.compileStmt_assign target op value = .ok (p', w)) :
    DefinedBeforeUse [] w := by
  unfold Compiler.compileStmt_assign at h
  split at h
  · simp at h
  · rename_i p1 w1 names h1
    split at h
    · simp at h
    · rename_i p2 w2 h2
      split at h
      · simp at h
      · rename_i w3 h3
        simp only [Except.ok.injEq, Prod.mk.injEq] at h
        obtain ⟨-, rfl⟩ := h
        obtain ⟨d1, m1⟩ := assignValues_dbu _ _ _ _ _ _ h1
        have hw2 : ∀ l ∈ w2, l.operands = [] := by
          split at h2
          · exact fun l hl => allocates_no_operands l (assignDefine_allocas _ _ _ _ h2 l hl)
          · simp only [Except.ok.injEq, Prod.mk.injEq] at h2
            rw [← h2.2]
            simp
        have ho3 := assignStores_operands _ _ _ _ _ h3
        rw [List.append_assoc]
        apply dbu_append w1 [] (w2 ++ w3) d1
        apply dbu_of_operands
        intro l hl o ho _
        rcases List.mem_append.1 hl with hl | hl
        · rw [hw2 l hl] at ho
          simp at ho
        · simpa using m1 o (ho3 l hl o ho)

theorem compileStmtList_dbu (list : List Stmt)
    (ih : ∀ s ∈ list, ∀ (p p' : Compiler) (w : List Line),
      p.compileStmt s = .ok (p', w) → DefinedBeforeUse [] w) :
    ∀ (p p' : Compiler) (w : List Line),
      p.compileStmtList list = .ok (p', w) → DefinedBeforeUse [] w := by
  induction list with
  | nil =>
    intro p p' w h
    simp only [Compiler.compileStmtList, Except.ok.injEq, Prod.mk.injEq] at h
    rw [← h.2]
    trivial
  | cons s rest ihl =>
    intro p p' w h
    simp only [Compiler.compileStmtList] at h
    split at h
    · simp at h
    · rename_i p1 w1 h1
      split at h
      · simp at h
      · rename_i p2 w2 h2
        simp only [Except.ok.injEq, Prod.mk.injEq] at h
        obtain ⟨-, rfl⟩ := h
        exact dbu_append_closed _ _ (ih s (by simp) _ _ _ h1)
          (ihl (fun s2 hs2 => ih s2 (by simp [hs2])) _ _ _ h2)

theorem dbu_silent (w : List Line) (h : ∀ l ∈ w, l.operands = []) :
    DefinedBeforeUse [] w :=
  dbu_of_operands w [] (fun l hl o ho _ => by rw [h l hl] at ho; simp at ho)

/-- The lines of a lowered statement define every temporary before it is used. -/
theorem compileStmt_dbu (s : Stmt) :
    ∀ (p p' : Compiler) (w : List Line),
      p.compileStmt s = .ok (p', w) → DefinedBeforeUse [] w := by
  induction s using stmt_induction with
  | hNil => intro p p' w h; simp [Compiler.compileStmt] at h
  | hOther => intro p p' w h; simp [Compiler.compileStmt] at h
  | hVarSpec spec =>
    intro p p' w h
    simp only [Compiler.compileStmt] at h
    split at h
    · simp at h
    · rename_i p1 w1 localName h1
      split at h
      · simp at h
      · rename_i p2 h2
        simp only [Except.ok.injEq, Prod.mk.injEq] at h
        obtain ⟨-, rfl⟩ := h
        obtain ⟨d1, m1⟩ := initValue_dbu _ _ _ _ _ h1
        apply dbu_append w1 [] _ d1
        apply dbu_of_operands
        intro l hl o ho ht
        simp only [List.mem_cons, List.mem_singleton, List.not_mem_nil, or_false] at hl
        rcases hl with rfl | rfl
        · simp [Line.operands] at ho
        · simp only [Line.operands, List.mem_singleton] at ho
          subst ho
          simpa using m1 ht
  | hAssign target op value =>
    intro p p' w h
    simp only [Compiler.compileStmt] at h
    exact compileStmt_assign_dbu _ _ _ _ _ _ h
  | hExpr x =>
    intro p p' w h
    simp only [Compiler.compileStmt] at h
    split at h
    · simp at h
    · rename_i p1 w1 v h1
      simp only [Except.ok.injEq, Prod.mk.injEq] at h
      obtain ⟨-, rfl⟩ := h
      exact (compileExpr_dbu _ _ _ _ _ h1).1
  | hBlock list ih =>
    intro p p' w h
    simp only [Compiler.compileStmt] at h
    split at h
    · simp at h
    · rename_i p1 w1 h1
      split at h
      · simp at h
      · rename_i p2 h2
        simp only [Except.ok.injEq, Prod.mk.injEq] at h
        obtain ⟨-, rfl⟩ := h
        exact compileStmtList_dbu list ih p.enterScope _ _ h1
  | hFor forPos init cond post body ihInit ihPost ihBody =>
    intro p p' w h
    obtain ⟨forInit, forCond, forBody, forEnd, pI, pC, pB, pL, pP, wI, wC, wB, wP,
      -, -, -, -, -, hI, hC, hB, hL, hP, hE, rfl⟩ :=
      compileStmt_for_inv p p' forPos init cond post body w h
    have dI : DefinedBeforeUse [] wI := by
      rcases hI with ⟨-, rfl, -⟩ | ⟨-, hI⟩
      · trivial
      · exact ihInit _ _ _ hI
    have dC : DefinedBeforeUse [] wC := by
      rcases hC with ⟨-, -, rfl, -⟩ | ⟨-, wc, condValue, hc, rfl⟩
      · exact dbu_silent _ (by simp [Line.operands])
      · obtain ⟨dc, mc⟩ := compileExpr_dbu _ _ _ _ _ hc
        apply dbu_snoc _ _ dc
        intro o ho _
        simp only [Line.operands, List.mem_singleton] at ho
        rw [ho]
        exact mc
    have dB : DefinedBeforeUse [] wB := ihBody _ _ _ hB
    have dP : DefinedBeforeUse [] wP := by
      rcases hP with ⟨-, rfl, -⟩ | ⟨-, hP⟩
      · trivial
      · exact ihPost _ _ _ hP
    have s1 : ∀ name, DefinedBeforeUse [] [Line.label name] :=
      fun name => dbu_silent _ (by simp [Line.operands])
    have s2 : ∀ name, DefinedBeforeUse [] [Line.br name] :=
      fun name => dbu_silent _ (by simp [Line.operands])
    exact dbu_append_closed _ _
      (dbu_append_closed _ _
        (dbu_append_closed _ _
          (dbu_append_closed _ _
            (dbu_append_closed _ _
              (dbu_append_closed _ _
                (dbu_append_closed _ _
                  (dbu_append_closed _ _
                    (dbu_append_closed _ _ (s1 _) dI) (s2 _)) (s1 _)) dC) (s1 _)) dB) dP)
        (s2 _)) (s1 _)

/-! ## Claims about the use of temporaries -/

/-- C20: definition precedes use for temporaries.  In the lines of every
expression and of every statement that is lowered without failure, every
temporary `%t<n>` that is an operand of a line (of an arithmetic or comparison
instruction, a call argument, a stored value, a branch condition) is the result
of a line before it in the same output; the reference that an expression returns
is defined by one of its lines.  This holds although the result of a binary
expression or of a call is made from a counter value below those of all
temporaries defined while its operands are lowered. -/
theorem C20_definition_precedes_use :
    (∀ (e : Expr) (p p' : Compiler) (w : List Line) (v : String),
        p.compileExpr e = .ok (p', w, v) →
        DefinedBeforeUse [] w ∧ v ∈ definedTemporaries w)
    ∧ (∀ (s : Stmt) (p p' : Compiler) (w : List Line),
        p.compileStmt s = .ok (p', w) → DefinedBeforeUse [] w)
    ∧ (∀ (p p2 p3 : Compiler) (x y : Expr) (wx wy : List Line) (vx vy : String),
        p.genId.1.compileExpr x = .ok (p2, wx, vx) → p2.compileExpr y = .ok (p3, wy, vy) →
        MadeFrom p.genId.2 p.nextId
        ∧ ∀ name ∈ definedTemporaries (wx ++ wy), ∃ k, p.nextId < k ∧ MadeFrom name k)
    ∧ (∀ (p p2 : Compiler) (arg : Expr) (wa : List Line) (va : String),
        p.genId.1.compileExpr arg = .ok (p2, wa, va) →
        MadeFrom p.genId.2 p.nextId
        ∧ ∀ name ∈ definedTemporaries wa, ∃ k, p.nextId < k ∧ MadeFrom name k) := by
  refine ⟨compileExpr_dbu, compileStmt_dbu, ?_, ?_⟩
  · intro p p2 p3 x y wx wy vx vy hx hy
    have fxy : Fresh (p.nextId + 1) p3.nextId (wx ++ wy) :=
      fresh_append (compileExpr_fresh x _ _ _ _ hx) (compileExpr_fresh y _ _ _ _ hy)
    refine ⟨madeFrom_genId _, ?_⟩
    intro name hm
    obtain ⟨k, hlo, -, hmk⟩ :=
      fresh_mem fxy name ((definedTemporaries_sublist _).subset hm)
    exact ⟨k, by omega, hmk⟩
  · intro p p2 arg wa va ha
    have fa : Fresh (p.nextId + 1) p2.nextId wa := compileExpr_fresh arg _ _ _ _ ha
    refine ⟨madeFrom_genId _, ?_⟩
    intro name hm
    obtain ⟨k, hlo, -, hmk⟩ :=
      fresh_mem fa name ((definedTemporaries_sublist _).subset hm)
    exact ⟨k, by omega, hmk⟩

/-! ## The claims at concrete inputs -/

/-- C11 at the plain assignment `a, b = 1, 2`, lowered in a state that binds `a`
and `b`: the two values are lowered, then come the two stores. -/
theorem C11_plain_assignment_values_then_stores_witness :
    callState.lowerValues [.Number 1, .Number 2]
      = .ok ({ callState with nextId := 2 },
          [Line.binop "%t0" "add" "0" "1", Line.binop "%t1" "add" "0" "2"], ["%t0", "%t1"])
    ∧ callState.compileStmt
        (.AssignStmt [⟨10, "a"⟩, ⟨11, "b"⟩] .ASSIGN [.Number 1, .Number 2])
      = .ok ({ callState with nextId := 2 },
          [Line.binop "%t0" "add" "0" "1", Line.binop "%t1" "add" "0" "2"]
          ++ callState.storeLines ["%t0", "%t1"] [⟨10, "a"⟩, ⟨11, "b"⟩])
    ∧ callState.storeLines ["%t0", "%t1"] [⟨10, "a"⟩, ⟨11, "b"⟩]
      = [Line.store "%t0" "%local_a.pos.2", Line.store "%t1" "%local_b.pos.3"] :=
  ⟨rfl,
   (C11_plain_assignment_values_then_stores callState { callState with nextId := 2 }
      .ASSIGN [⟨10, "a"⟩, ⟨11, "b"⟩] [.Number 1, .Number 2]
      [Line.binop "%t0" "add" "0" "1", Line.binop "%t1" "add" "0" "2"] ["%t0", "%t1"]
      (by decide) rfl (by decide) rfl).1,
   rfl⟩

/-- C12 at the file with the globals `g = 5` and `h`: the initializer stores
the lowered `5` into `@ugo_main_g` and the constant `0` into `@ugo_main_h`. -/
theorem C12_initializer_stores_each_global_witness :
    (NewCompiler emptyUniverse).compileFile globalsFile
      = .ok ({ file := none, scope := NewScope emptyUniverse, nextId := 1 },
          [Line.global "@ugo_main_g", Line.global "@ugo_main_h", Line.blank,
           Line.defineInit "main", Line.binop "%t0" "add" "0" "5",
           Line.store "%t0" "@ugo_main_g", Line.store "0" "@ugo_main_h",
           Line.ret, Line.close])
    ∧ InitializerShape (NewCompiler emptyUniverse) globalsFile
          [Line.global "@ugo_main_g", Line.global "@ugo_main_h", Line.blank,
           Line.defineInit "main", Line.binop "%t0" "add" "0" "5",
           Line.store "%t0" "@ugo_main_g", Line.store "0" "@ugo_main_h",
           Line.ret, Line.close] :=
  ⟨rfl,
   (C12_initializer_stores_each_global (NewCompiler emptyUniverse)
      { file := none, scope := NewScope emptyUniverse, nextId := 1 } globalsFile _ rfl).1⟩

/-- C13 at two files: package `main` with a function `main` gets the shim as the
last write; package `lib` with a function `main` gets none. -/
theorem C13_entry_shim_iff_main_witness :
    Compiler.genMain ⟨"HEADER", "SHIM"⟩ loopFile = [Line.raw "SHIM"]
    ∧ Compiler.genMain ⟨"HEADER", "SHIM"⟩ libFile = []
    ∧ ∃ (w0 w3 : List Line),
        Compiler.compileBuf ⟨"HEADER", "SHIM"⟩ (NewCompiler emptyUniverse) libFile
          = .ok ({ file := some libFile, scope := NewScope emptyUniverse, nextId := 0 },
              Compiler.genHeader ⟨"HEADER", "SHIM"⟩ libFile
              ++ (w0 ++ ([Line.defineInit "lib"] ++ w3 ++ [Line.ret, Line.close]))
              ++ Compiler.genMain ⟨"HEADER", "SHIM"⟩ libFile)
        ∧ bufString ([Line.package "lib", Line.raw "HEADER", Line.blank,
              Line.define "lib" "main", Line.ret, Line.close,
              Line.defineInit "lib", Line.ret, Line.close])
          = bufString (Compiler.genHeader ⟨"HEADER", "SHIM"⟩ libFile
              ++ (w0 ++ ([Line.defineInit "lib"] ++ w3 ++ [Line.ret, Line.close])))
            ++ bufString (Compiler.genMain ⟨"HEADER", "SHIM"⟩ libFile) :=
  ⟨(C13_entry_shim_iff_main ⟨"HEADER", "SHIM"⟩ loopFile).1 rfl
      ⟨⟨"main", .BlockStmt [loopStmt]⟩, by simp [loopFile], rfl⟩,
   (C13_entry_shim_iff_main ⟨"HEADER", "SHIM"⟩ libFile).2.1
      (fun h => absurd h.1 (by decide)),
   (C13_entry_shim_iff_main ⟨"HEADER", "SHIM"⟩ libFile).2.2.2 (NewCompiler emptyUniverse)
      { file := some libFile, scope := NewScope emptyUniverse, nextId := 0 }
      (bufString ([Line.package "lib", Line.raw "HEADER", Line.blank,
              Line.define "lib" "main", Line.ret, Line.close,
              Line.defineInit "lib", Line.ret, Line.close])) rfl⟩

/-- C17 (amended) at concrete inputs: `x := 1` from a fresh `Compiler` lowers the
value, then allocates, then stores; and `x := x + 1` fails for the unresolved
`x`. -/
theorem C17_define_assign_values_then_allocas_witness :
    DefineAssignOrder (NewCompiler emptyUniverse)
        { file := none,
          scope := Scope.mk emptyUniverse
            [("x", { Name := "x", MangledName := "%local_x.pos.7", Node := .Ident ⟨7, "x"⟩ })],
          nextId := 1 }
        [⟨7, "x"⟩] [.Number 1]
        [Line.binop "%t0" "add" "0" "1", Line.alloca "%local_x.pos.7",
         Line.store "%t0" "%local_x.pos.7"]
    ∧ (NewCompiler emptyUniverse).compileStmt (.AssignStmt [⟨7, "x"⟩] .DEFINE [.Number 1])
        = .ok ({ file := none,
                 scope := Scope.mk emptyUniverse
                   [("x", { Name := "x", MangledName := localMangledName "x" 7,
                            Node := .Ident ⟨7, "x"⟩ })],
                 nextId := 1 },
            [Line.binop "%t0" "add" "0" "1"]
            ++ [Line.alloca (localMangledName "x" 7), Line.store "%t0" (localMangledName "x" 7)])
    ∧ (NewCompiler emptyUniverse).compileStmt
        (.AssignStmt [⟨7, "x"⟩] .DEFINE [.BinaryExpr .ADD (.Ident ⟨9, "x"⟩) (.Number 1)])
        = .error (.varUndefined "x") :=
  ⟨C17_define_assign_values_then_allocas.1 (NewCompiler emptyUniverse) _ [⟨7, "x"⟩]
      [.Number 1] _ rfl,
   C17_define_assign_values_then_allocas.2.1 (NewCompiler emptyUniverse)
      { file := none, scope := NewScope emptyUniverse, nextId := 1 } emptyUniverse []
      ⟨7, "x"⟩ (.Number 1) [Line.binop "%t0" "add" "0" "1"] "%t0" rfl rfl rfl,
   C17_define_assign_values_then_allocas.2.2 (NewCompiler emptyUniverse)
      { file := none, scope := NewScope emptyUniverse, nextId := 1 } ⟨7, "x"⟩ []
      (.BinaryExpr .ADD (.Ident ⟨9, "x"⟩) (.Number 1)) [] rfl
      (ExprReaches.binaryX _ _ .ADD _ _ "x" "add" rfl (ExprReaches.ident _ ⟨9, "x"⟩))⟩

/-- C18 at `1 + 2`, lowered with the counter at `0`: the lines of `1`, of `2`,
and `%t0 = add i32 %t1, %t2`. -/
theorem C18_binary_keeps_evaluation_order_witness :
    callState.compileExpr (.BinaryExpr .ADD (.Number 1) (.Number 2))
      = .ok ({ callState with nextId := 3 },
          [Line.binop "%t1" "add" "0" "1"] ++ [Line.binop "%t2" "add" "0" "2"]
          ++ [Line.binop ("%t" ++ toString callState.nextId) "add" "%t1" "%t2"],
          "%t" ++ toString callState.nextId)
    ∧ "%t" ++ toString callState.nextId
        ∉ definedTemporaries ([Line.binop "%t1" "add" "0" "1"]
            ++ [Line.binop "%t2" "add" "0" "2"]) :=
  have h := C18_binary_keeps_evaluation_order callState { callState with nextId := 2 }
    { callState with nextId := 3 } .ADD (.Number 1) (.Number 2) "add"
    [Line.binop "%t1" "add" "0" "1"] [Line.binop "%t2" "add" "0" "2"] "%t1" "%t2"
    rfl rfl rfl
  ⟨h.1, h.2.1⟩

/-- C19 at concrete statements from a fresh `Compiler`: `var x = 1` adds a
binding to the current frame only; the loop and the whole file leave the scope
as it was. -/
theorem C19_scope_discipline_balanced_witness :
    Scope.Extends
        (Scope.mk emptyUniverse
          [("x", { Name := "x", MangledName := "%local_x.pos.5",
                   Node := .VarSpec ⟨5, ⟨6, "x"⟩, .Number 1⟩ })])
        (NewCompiler emptyUniverse).scope
    ∧ (({ file := none, scope := NewScope emptyUniverse, nextId := 11 } : Compiler).scope
          = (NewCompiler emptyUniverse).scope)
    ∧ (({ file := some loopFile, scope := NewScope emptyUniverse, nextId := 11 } :
          Compiler).scope = (NewCompiler emptyUniverse).scope) :=
  ⟨(C19_scope_discipline_balanced.1 (.VarSpec ⟨5, ⟨6, "x"⟩, .Number 1⟩)
      (NewCompiler emptyUniverse)
      { file := none,
        scope := Scope.mk emptyUniverse
          [("x", { Name := "x", MangledName := "%local_x.pos.5",
                   Node := .VarSpec ⟨5, ⟨6, "x"⟩, .Number 1⟩ })],
        nextId := 1 }
      [Line.binop "%t0" "add" "0" "1", Line.alloca "%local_x.pos.5",
       Line.store "%t0" "%local_x.pos.5"] rfl).1,
   ((C19_scope_discipline_balanced.1 loopStmt (NewCompiler emptyUniverse)
      { file := none, scope := NewScope emptyUniverse, nextId := 11 } loopLines rfl).2.2.2
      rfl).1,
   C19_scope_discipline_balanced.2 ⟨"", ""⟩ (NewCompiler emptyUniverse)
      { file := some loopFile, scope := NewScope emptyUniverse, nextId := 11 } loopFile
      (bufString ([Line.package "main", Line.raw "", Line.blank, Line.define "main" "main"]
          ++ loopLines
          ++ [Line.ret, Line.close, Line.defineInit "main", Line.ret, Line.close,
              Line.raw ""])) rfl⟩

/-- C20 at concrete inputs: the lines of the loop
`for i := 0; i < 3; i = i + 1 {}` and of `1 + 2` define every temporary before
its use, and the operands `%t1`, `%t2` of `1 + 2` are numbered above its result
`%t0`. -/
theorem C20_definition_precedes_use_witness :
    DefinedBeforeUse [] loopLines
    ∧ (DefinedBeforeUse []
          [Line.binop "%t1" "add" "0" "1", Line.binop "%t2" "add" "0" "2",
           Line.binop "%t0" "add" "%t1" "%t2"]
        ∧ "%t0" ∈ definedTemporaries
          [Line.binop "%t1" "add" "0" "1", Line.binop "%t2" "add" "0" "2",
           Line.binop "%t0" "add" "%t1" "%t2"])
    ∧ (MadeFrom callState.genId.2 callState.nextId
        ∧ ∀ name ∈ definedTemporaries ([Line.binop "%t1" "add" "0" "1"]
              ++ [Line.binop "%t2" "add" "0" "2"]),
            ∃ k, callState.nextId < k ∧ MadeFrom name k)
    ∧ (MadeFrom callState.genId.2 callState.nextId
        ∧ ∀ name ∈ definedTemporaries [Line.binop "%t1" "add" "0" "1"],
            ∃ k, callState.nextId < k ∧ MadeFrom name k) :=
  ⟨C20_definition_precedes_use.2.1 loopStmt (NewCompiler emptyUniverse)
      { file := none, scope := NewScope emptyUniverse, nextId := 11 } loopLines rfl,
   C20_definition_precedes_use.1 (.BinaryExpr .ADD (.Number 1) (.Number 2)) callState
      { callState with nextId := 3 } _ "%t0" rfl,
   C20_definition_precedes_use.2.2.1 callState { callState with nextId := 2 }
      { callState with nextId := 3 } (.Number 1) (.Number 2)
      [Line.binop "%t1" "add" "0" "1"] [Line.binop "%t2" "add" "0" "2"] "%t1" "%t2" rfl rfl,
   C20_definition_precedes_use.2.2.2 callState { callState with nextId := 2 }
      (.Number 1) [Line.binop "%t1" "add" "0" "1"] "%t1" rfl⟩
